import Mathlib

/-!
# A recursive-descent parser for `ident = expression`

Shallow embedding of `main.go` (go-interpreter-demo): the token cursor
(`Scan`, `Back`, `TokenText`, `Column`), the three AST node types and the four
grammar rules `parseStmt`, `parseExpr`, `parseTerm`, `parseFactor`.

Conventions of the embedding:

* Go's `int` and `rune` are `Int`.  The cursor only ever moves one step at a
  time from a value inside the token list, so 64-bit wrap-around is never
  reached and is not modelled.
* A slice access out of range is a Go run-time panic: `Outcome.panic`.
* The grammar rules call each other recursively and Go gives no bound on the
  recursion depth, so each rule takes a recursion budget (`fuel`) and
  `Outcome.timeout` says that the budget was used up.
* An `error` built by `fmt.Errorf` is its message, together with the wrapped
  inner error when the format has a `%w` verb.
* The symbol table `Sympol` is never read or written by the parser and is left
  out of the interpreter state.
* The field `Type` of `Token` and `NumExprAST` is spelled `Typ`, `Type` being
  reserved.
-/

namespace GoInterp

/-! ## Token kinds of Go's `text/scanner` -/

/-- Kind `scanner.EOF`. -/
def scanner.EOF : Int := -1

/-- Kind `scanner.Ident`. -/
def scanner.Ident : Int := -2

/-- Kind `scanner.Int`. -/
def scanner.Int : Int := -3

/-- Kind `scanner.Float`. -/
def scanner.Float : ℤ := -4

/-! ## Tokens and the cursor -/

/-- One token: `type Token struct { Pos int; Val string; Type rune }`. -/
structure Token where
  Pos : Int
  Val : String
  Typ : Int
deriving DecidableEq

/-- The parser-relevant part of `type Interpreter struct`. -/
structure Interpreter where
  tokens : List Token
  tokenIndex : Int
deriving DecidableEq

/-- Slice access `interp.tokens[interp.tokenIndex]`; `none` is the panic. -/
def Interpreter.cur (interp : Interpreter) : Option Token :=
  if 0 ≤ interp.tokenIndex then interp.tokens.get? interp.tokenIndex.toNat else none

/-- Method `Column`: the `Pos` of the token under the cursor. -/
def Interpreter.Column (interp : Interpreter) : Option Int :=
  interp.cur.map Token.Pos

/-- Method `TokenText`: the `Val` of the token under the cursor. -/
def Interpreter.TokenText (interp : Interpreter) : Option String :=
  interp.cur.map Token.Val

/-- The cursor update of `Scan`: one step forward, clamped to the last index. -/
def Interpreter.advance (interp : Interpreter) : Interpreter :=
  if interp.tokenIndex + 1 ≥ interp.tokens.length then
    { interp with tokenIndex := (interp.tokens.length : Int) - 1 }
  else
    { interp with tokenIndex := interp.tokenIndex + 1 }

/-- Method `Scan`: move the cursor and return the kind of the token it lands on. -/
def Interpreter.Scan (interp : Interpreter) : Option (Int × Interpreter) :=
  interp.advance.cur.map fun t => (t.Typ, interp.advance)

/-- Method `Back`: `interp.tokenIndex--`. -/
def Interpreter.Back (interp : Interpreter) : Interpreter :=
  { interp with tokenIndex := interp.tokenIndex - 1 }

/-! ## Syntax trees and errors -/

/-- The values stored in the interface `Expr`: the three node types. -/
inductive Expr where
  | BinExprAST (Op : String) (LHS RHS : Expr)
  | UnaryExprAST (Op : String) (RHS : Expr)
  | NumExprAST (Val : String) (Typ : Int)
deriving DecidableEq

/-- A Go `error` made by `fmt.Errorf`: a message, or a message around a wrapped error. -/
inductive GoError where
  | plain (msg : String)
  | wrap (msg : String) (inner : GoError)
deriving DecidableEq

/-- Method `Error()`: the message. -/
def GoError.Error : GoError → String
  | .plain msg => msg
  | .wrap msg _ => msg

/-- The end of the `Unwrap` chain. -/
def GoError.innermost : GoError → GoError
  | .plain msg => .plain msg
  | .wrap _ inner => inner.innermost

/-- The wrapper `fmt.Errorf("<rule> err(%w)", err)`. -/
def wrapErr (rule : String) (err : GoError) : GoError :=
  .wrap (rule ++ " err(" ++ err.Error ++ ")") err

/-- What a call of a grammar rule does. -/
inductive Outcome where
  | ok (e : Expr) (interp : Interpreter)
  | error (err : GoError) (interp : Interpreter)
  | panic
  | timeout
deriving DecidableEq

/-! ## The grammar rules -/

/-- The message of `parseFactor` for a token that starts no factor. -/
def errNeedFactor (col : Int) (text : String) : GoError :=
  .plain ("pos(" ++ toString col ++ ") invalid token(\"" ++ text
    ++ "\") need \"number | ( | - | ident\"")

/-- The message of `parseFactor` for a missing closing parenthesis. -/
def errNeedParen (col : Int) (text : String) : GoError :=
  .plain ("pos(" ++ toString col ++ ") invalid token(\"" ++ text ++ "\") need \")\"")

/-- The message of `parseStmt` for a missing `=`. -/
def errNeedAssign (col : Int) (text : String) : GoError :=
  .plain ("pos(" ++ toString col ++ ") invalid token(\"" ++ text ++ "\") need \"=\"")

/-- The message of `parseStmt` for a statement that does not start with an identifier. -/
def errInvalid (col : Int) (text : String) : GoError :=
  .plain ("pos(" ++ toString col ++ ") invalid token(\"" ++ text ++ "\")")

/-- The message of `parseStmt` for a token after the expression. -/
def errNext (text : String) : GoError :=
  .plain ("unexcept next token(\"" ++ text ++ "\")")

/-- The message of `parseStmt` for an early end of input. -/
def errEOF : GoError :=
  .plain "unexcept EOF"

mutual

/-- Rule `parseExpr`: `term { ("+" | "-") expression }`. -/
def parseExpr : Nat → Interpreter → Outcome
  | 0, _ => .timeout
  | fuel + 1, s =>
    match parseTerm fuel s with
    | .ok lhs s1 =>
      match s1.Scan with
      | none => .panic
      | some (tok, s2) =>
        if tok = scanner.EOF then .ok lhs s2
        else
          match s2.TokenText with
          | none => .panic
          | some op =>
            if op = "+" ∨ op = "-" then
              match parseExpr fuel s2 with
              | .ok rhs s3 => .ok (.BinExprAST op lhs rhs) s3
              | .error err s3 => .error (wrapErr "parseExpr" err) s3
              | .panic => .panic
              | .timeout => .timeout
            else .ok lhs s2.Back
    | .error err s1 => .error (wrapErr "parseTerm" err) s1
    | .panic => .panic
    | .timeout => .timeout

/-- Rule `parseTerm`: `factor { ("*" | "/") term }`. -/
def parseTerm : Nat → Interpreter → Outcome
  | 0, _ => .timeout
  | fuel + 1, s =>
    match parseFactor fuel s with
    | .ok lhs s1 =>
      match s1.Scan with
      | none => .panic
      | some (tok, s2) =>
        if tok = scanner.EOF then .ok lhs s2
        else
          match s2.TokenText with
          | none => .panic
          | some op =>
            if op = "*" ∨ op = "/" then
              match parseTerm fuel s2 with
              | .ok rhs s3 => .ok (.BinExprAST op lhs rhs) s3
              | .error err s3 => .error (wrapErr "parseTerm" err) s3
              | .panic => .panic
              | .timeout => .timeout
            else .ok lhs s2.Back
    | .error err s1 => .error (wrapErr "parseFactor" err) s1
    | .panic => .panic
    | .timeout => .timeout

/-- Rule `parseFactor`: `NUMBER | "(" expression ")" | - factor | ident`. -/
def parseFactor : Nat → Interpreter → Outcome
  | 0, _ => .timeout
  | fuel + 1, s =>
    match s.Scan with
    | none => .panic
    | some (tok, s1) =>
      if tok = scanner.Int then
        match s1.TokenText with
        | none => .panic
        | some text => .ok (.NumExprAST text scanner.Int) s1
      else if tok = scanner.Float then
        match s1.TokenText with
        | none => .panic
        | some text => .ok (.NumExprAST text scanner.Float) s1
      else
        match s1.TokenText with
        | none => .panic
        | some text =>
          if text = "(" then
            match parseExpr fuel s1 with
            | .ok expr s2 =>
              match s2.Scan with
              | none => .panic
              | some (_, s3) =>
                match s3.TokenText with
                | none => .panic
                | some close =>
                  if close ≠ ")" then
                    match s3.Column with
                    | none => .panic
                    | some col => .error (errNeedParen col close) s3
                  else .ok expr s3
            | .error err s2 => .error (wrapErr "parseExpr" err) s2
            | .panic => .panic
            | .timeout => .timeout
          else if text = "-" then
            match parseFactor fuel s1 with
            | .ok rhs s2 => .ok (.UnaryExprAST "-" rhs) s2
            | .error err s2 => .error (wrapErr "parseFactor" err) s2
            | .panic => .panic
            | .timeout => .timeout
          else if tok = scanner.Ident then .ok (.NumExprAST text scanner.Ident) s1
          else
            match s1.Column with
            | none => .panic
            | some col => .error (errNeedFactor col text) s1

end

/-- Rule `parseStmt`: `ident "=" expression`, then the end of the input. -/
def parseStmt (fuel : Nat) (s : Interpreter) : Outcome :=
  match s.Scan with
  | none => .panic
  | some (tok, s1) =>
    if tok = scanner.EOF then .error errEOF s1
    else if tok = scanner.Ident then
      match s1.TokenText with
      | none => .panic
      | some ident =>
        match s1.Scan with
        | none => .panic
        | some (tok2, s2) =>
          if tok2 = scanner.EOF then .error errEOF s2
          else
            match s2.TokenText with
            | none => .panic
            | some text =>
              if text = "=" then
                match parseExpr fuel s2 with
                | .ok rhs s3 =>
                  match s3.Scan with
                  | none => .panic
                  | some (tok3, s4) =>
                    if tok3 ≠ scanner.EOF then
                      match s4.TokenText with
                      | none => .panic
                      | some next => .error (errNext next) s4
                    else
                      .ok (.BinExprAST "=" (.NumExprAST ident scanner.Ident) rhs) s4
                | .error err s3 => .error (wrapErr "parseExpr" err) s3
                | .panic => .panic
                | .timeout => .timeout
              else
                match s2.Column with
                | none => .panic
                | some col => .error (errNeedAssign col text) s2
    else
      match s1.TokenText, s1.Column with
      | some text, some col => .error (errInvalid col text) s1
      | _, _ => .panic

/-! ## The grammar of the source comment -/

/-- The three recursive rules of the grammar. -/
inductive Cat where
  | expression
  | term
  | factor
deriving DecidableEq

/-- Sentences of the grammar, with the tree each derivation denotes:
`expression := term (("+" | "-") expression)?`,
`term := factor (("*" | "/") term)?`,
`factor := INT | FLOAT | "(" expression ")" | "-" factor | IDENT`.
A literal is recognised by its kind and a punctuation mark by its text. -/
inductive Derives : Cat → List Token → Expr → Prop
  | int (t : Token) (ht : t.Typ = scanner.Int) :
      Derives .factor [t] (.NumExprAST t.Val scanner.Int)
  | float (t : Token) (ht : t.Typ = scanner.Float) :
      Derives .factor [t] (.NumExprAST t.Val scanner.Float)
  | paren (l r : Token) (ts : List Token) (e : Expr) (hl : l.Val = "(") (hr : r.Val = ")")
      (h : Derives .expression ts e) : Derives .factor (l :: (ts ++ [r])) e
  | neg (m : Token) (ts : List Token) (e : Expr) (hm : m.Val = "-")
      (h : Derives .factor ts e) : Derives .factor (m :: ts) (.UnaryExprAST "-" e)
  | ident (t : Token) (ht : t.Typ = scanner.Ident) :
      Derives .factor [t] (.NumExprAST t.Val scanner.Ident)
  | factor (ts : List Token) (e : Expr) (h : Derives .factor ts e) : Derives .term ts e
  | mul (o : Token) (ts1 ts2 : List Token) (e1 e2 : Expr) (ho : o.Val = "*" ∨ o.Val = "/")
      (h1 : Derives .factor ts1 e1) (h2 : Derives .term ts2 e2) :
      Derives .term (ts1 ++ o :: ts2) (.BinExprAST o.Val e1 e2)
  | term (ts : List Token) (e : Expr) (h : Derives .term ts e) : Derives .expression ts e
  | add (o : Token) (ts1 ts2 : List Token) (e1 e2 : Expr) (ho : o.Val = "+" ∨ o.Val = "-")
      (h1 : Derives .term ts1 e1) (h2 : Derives .expression ts2 e2) :
      Derives .expression (ts1 ++ o :: ts2) (.BinExprAST o.Val e1 e2)

/-- Sentences of `statement := IDENT "=" expression`, with their tree. -/
inductive Statement : List Token → Expr → Prop
  | assign (x eq : Token) (ts : List Token) (rhs : Expr) (hx : x.Typ = scanner.Ident)
      (heq : eq.Val = "=") (h : Derives .expression ts rhs) :
      Statement (x :: eq :: ts)
        (.BinExprAST "=" (.NumExprAST x.Val scanner.Ident) rhs)

/-- The texts `= + - * / ( )`. -/
def isOpText (v : String) : Prop :=
  v = "=" ∨ v = "+" ∨ v = "-" ∨ v = "*" ∨ v = "/" ∨ v = "(" ∨ v = ")"

instance (v : String) : Decidable (isOpText v) := by
  unfold isOpText; infer_instance

/-- Kind `Ident`, `Int` or `Float`. -/
def isLiteral (t : Token) : Prop :=
  t.Typ = scanner.Ident ∨ t.Typ = scanner.Int ∨ t.Typ = scanner.Float

instance (t : Token) : Decidable (isLiteral t) := by
  unfold isLiteral; infer_instance

/-- A token that may stand before the end of a well-formed token list: its kind is
not `EOF`, and if it is a literal its text is none of `= + - * / ( )`. -/
def WellFormedToken (t : Token) : Prop :=
  t.Typ ≠ scanner.EOF ∧ (isLiteral t → ¬ isOpText t.Val)

instance (t : Token) : Decidable (WellFormedToken t) := by
  unfold WellFormedToken; infer_instance

/-- The unread remainder of a well-formed token list: well-formed tokens, then one
token of kind `EOF` with empty text. -/
def WFRest : List Token → Prop
  | [] => False
  | [t] => t.Typ = scanner.EOF ∧ t.Val = ""
  | t :: u :: rest => WellFormedToken t ∧ WFRest (u :: rest)

/-- The derivations that `parseFactor`, `parseTerm` and `parseExpr` follow on any
token list: those of `Derives` in which a token read as `(` or as a unary `-` is
not of kind `Int` or `Float`, an `IDENT` has neither of these two texts, and an
operator or a closing parenthesis is not of kind `EOF`. -/
inductive Parses : Cat → List Token → Expr → Prop
  | int (t : Token) (ht : t.Typ = scanner.Int) :
      Parses .factor [t] (.NumExprAST t.Val scanner.Int)
  | float (t : Token) (ht : t.Typ = scanner.Float) :
      Parses .factor [t] (.NumExprAST t.Val scanner.Float)
  | paren (l r : Token) (ts : List Token) (e : Expr) (hl : l.Val = "(") (hr : r.Val = ")")
      (hlI : l.Typ ≠ scanner.Int) (hlF : l.Typ ≠ scanner.Float) (hrE : r.Typ ≠ scanner.EOF)
      (h : Parses .expression ts e) : Parses .factor (l :: (ts ++ [r])) e
  | neg (m : Token) (ts : List Token) (e : Expr) (hm : m.Val = "-")
      (hmI : m.Typ ≠ scanner.Int) (hmF : m.Typ ≠ scanner.Float)
      (h : Parses .factor ts e) : Parses .factor (m :: ts) (.UnaryExprAST "-" e)
  | ident (t : Token) (ht : t.Typ = scanner.Ident) (h1 : t.Val ≠ "(") (h2 : t.Val ≠ "-") :
      Parses .factor [t] (.NumExprAST t.Val scanner.Ident)
  | factor (ts : List Token) (e : Expr) (h : Parses .factor ts e) : Parses .term ts e
  | mul (o : Token) (ts1 ts2 : List Token) (e1 e2 : Expr) (ho : o.Val = "*" ∨ o.Val = "/")
      (hoE : o.Typ ≠ scanner.EOF)
      (h1 : Parses .factor ts1 e1) (h2 : Parses .term ts2 e2) :
      Parses .term (ts1 ++ o :: ts2) (.BinExprAST o.Val e1 e2)
  | term (ts : List Token) (e : Expr) (h : Parses .term ts e) : Parses .expression ts e
  | add (o : Token) (ts1 ts2 : List Token) (e1 e2 : Expr) (ho : o.Val = "+" ∨ o.Val = "-")
      (hoE : o.Typ ≠ scanner.EOF)
      (h1 : Parses .term ts1 e1) (h2 : Parses .expression ts2 e2) :
      Parses .expression (ts1 ++ o :: ts2) (.BinExprAST o.Val e1 e2)

/-- A rule returns `r` from state `s` whenever the recursion budget is large enough. -/
def Returns (rule : Nat → Interpreter → Outcome) (s : Interpreter) (r : Outcome) : Prop :=
  ∃ N, ∀ n, N ≤ n → rule n s = r

/-- What `parseExpr` and `parseTerm` make of the outcome of the recursive call for the
right operand. -/
def combine (rule op : String) (lhs : Expr) : Outcome → Outcome
  | .ok rhs s => .ok (.BinExprAST op lhs rhs) s
  | .error err s => .error (wrapErr rule err) s
  | .panic => .panic
  | .timeout => .timeout

/-- The common body of `parseExpr` and `parseTerm` after the call for the left
operand: `sub` names the rule of the left operand, `o1` and `o2` are the two
operators, `self` names the rule itself and `recur` is its recursive call. -/
def operatorTail (sub o1 o2 self : String) (recur : Interpreter → Outcome) : Outcome → Outcome
  | .ok lhs s1 =>
    match s1.Scan with
    | none => .panic
    | some (tok, s2) =>
      if tok = scanner.EOF then .ok lhs s2
      else
        match s2.TokenText with
        | none => .panic
        | some op =>
          if op = o1 ∨ op = o2 then combine self op lhs (recur s2)
          else .ok lhs s2.Back
  | .error err s1 => .error (wrapErr sub err) s1
  | .panic => .panic
  | .timeout => .timeout

/-- The body of `parseFactor` after the call of `parseExpr` inside a parenthesis. -/
def closeParen : Outcome → Outcome
  | .ok expr s2 =>
    match s2.Scan with
    | none => .panic
    | some (_, s3) =>
      match s3.TokenText with
      | none => .panic
      | some close =>
        if close ≠ ")" then
          match s3.Column with
          | none => .panic
          | some col => .error (errNeedParen col close) s3
        else .ok expr s3
  | .error err s2 => .error (wrapErr "parseExpr" err) s2
  | .panic => .panic
  | .timeout => .timeout

/-- The body of `parseFactor` after the recursive call behind a unary minus. -/
def negate : Outcome → Outcome
  | .ok rhs s2 => .ok (.UnaryExprAST "-" rhs) s2
  | .error err s2 => .error (wrapErr "parseFactor" err) s2
  | .panic => .panic
  | .timeout => .timeout

/-- The body of `parseStmt` after the call of `parseExpr`. -/
def finishStmt (ident : String) : Outcome → Outcome
  | .ok rhs s3 =>
    match s3.Scan with
    | none => .panic
    | some (tok3, s4) =>
      if tok3 ≠ scanner.EOF then
        match s4.TokenText with
        | none => .panic
        | some next => .error (errNext next) s4
      else .ok (.BinExprAST "=" (.NumExprAST ident scanner.Ident) rhs) s4
  | .error err s3 => .error (wrapErr "parseExpr" err) s3
  | .panic => .panic
  | .timeout => .timeout

/-- The body of `parseFactor`, with the two recursive calls as parameters. -/
def factorBody (recE recF : Interpreter → Outcome) (s : Interpreter) : Outcome :=
  match s.Scan with
  | none => .panic
  | some (tok, s1) =>
    if tok = scanner.Int then
      match s1.TokenText with
      | none => .panic
      | some text => .ok (.NumExprAST text scanner.Int) s1
    else if tok = scanner.Float then
      match s1.TokenText with
      | none => .panic
      | some text => .ok (.NumExprAST text scanner.Float) s1
    else
      match s1.TokenText with
      | none => .panic
      | some text =>
        if text = "(" then closeParen (recE s1)
        else if text = "-" then negate (recF s1)
        else if tok = scanner.Ident then .ok (.NumExprAST text scanner.Ident) s1
        else
          match s1.Column with
          | none => .panic
          | some col => .error (errNeedFactor col text) s1

/-- The body of `parseStmt`, with the call of `parseExpr` as a parameter. -/
def stmtBody (recE : Interpreter → Outcome) (s : Interpreter) : Outcome :=
  match s.Scan with
  | none => .panic
  | some (tok, s1) =>
    if tok = scanner.EOF then .error errEOF s1
    else if tok = scanner.Ident then
      match s1.TokenText with
      | none => .panic
      | some ident =>
        match s1.Scan with
        | none => .panic
        | some (tok2, s2) =>
          if tok2 = scanner.EOF then .error errEOF s2
          else
            match s2.TokenText with
            | none => .panic
            | some text =>
              if text = "=" then finishStmt ident (recE s2)
              else
                match s2.Column with
                | none => .panic
                | some col => .error (errNeedAssign col text) s2
    else
      match s1.TokenText, s1.Column with
      | some text, some col => .error (errInvalid col text) s1
      | _, _ => .panic

/-- Rule `g` returns what rule `f` returns wherever `f` does not run out of budget. -/
def Refines (f g : Interpreter → Outcome) : Prop :=
  ∀ s, f s = .timeout ∨ g s = f s

/-! ## Tokens and trees the claims speak of -/

/-- A literal token that does not read as punctuation where a factor starts: its kind
is `Ident`, `Int` or `Float`, and if the kind is `Ident` the text is neither `(` nor
`-`. -/
def PlainLiteral (t : Token) : Prop :=
  isLiteral t ∧ (t.Typ = scanner.Ident → t.Val ≠ "(" ∧ t.Val ≠ "-")

instance (t : Token) : Decidable (PlainLiteral t) := by
  unfold PlainLiteral; infer_instance

/-- The leaf of a literal token: `NumExprAST` with the token's text and kind. -/
def leaf (t : Token) : Expr :=
  .NumExprAST t.Val t.Typ

/-- The tokens `l1 o1 l2 o2 ... ln` of a chain given by `l1` and the pairs `(oi, l(i+1))`. -/
def chainTokens (l : Token) : List (Token × Token) → List Token
  | [] => [l]
  | (o, l') :: rest => l :: o :: chainTokens l' rest

/-- The right-nested tree `BinExprAST{o1, l1, BinExprAST{o2, l2, ...}}` of a chain. -/
def chainTree (l : Token) : List (Token × Token) → Expr
  | [] => leaf l
  | (o, l') :: rest => .BinExprAST o.Val (leaf l) (chainTree l' rest)

/-- The tree `e` below `k` nodes `UnaryExprAST` with `Op` `"-"`. -/
def negations : Nat → Expr → Expr
  | 0, e => e
  | k + 1, e => .UnaryExprAST "-" (negations k e)

/-- A rule fails from state `s`, for every large enough budget, with one error whose
innermost cause is `inner`. -/
def FailsAt (inner : GoError) (rule : Nat → Interpreter → Outcome) (s : Interpreter) : Prop :=
  ∃ err s', err.innermost = inner ∧ Returns rule s (.error err s')

/-- The trees that `parseExpr`, `parseTerm` and `parseFactor` can return: a leaf has
type `Int` or `Float`, or type `Ident` and a text other than `(` and `-`; a unary node
has `Op` `"-"`; a binary node has one of the four arithmetic operators. -/
def Producible : Expr → Prop
  | .NumExprAST v t =>
    t = scanner.Int ∨ t = scanner.Float ∨ (t = scanner.Ident ∧ v ≠ "(" ∧ v ≠ "-")
  | .UnaryExprAST op rhs => op = "-" ∧ Producible rhs
  | .BinExprAST op lhs rhs =>
    (op = "+" ∨ op = "-" ∨ op = "*" ∨ op = "/") ∧ Producible lhs ∧ Producible rhs

/-- Property `P` holds of the tree of an outcome, if the outcome has one. -/
def Outcome.All (P : Expr → Prop) : Outcome → Prop
  | .ok e _ => P e
  | _ => True

/-! ## A serialiser from trees to infix tokens -/

/-- Modelled from the spec: a punctuation token as the lexer makes it, whose kind is the
code of its character (the serialiser is missing from the repository; token positions
play no part in parsing and are 0). -/
def punct (v : String) : Token :=
  ⟨0, v, ((v.get 0).toNat : Int)⟩

/-- Modelled from the spec: an operand of the serialiser, which is missing from the
repository; a compound operand is parenthesised, a literal is not. -/
def parenthesise (e : Expr) (ts : List Token) : List Token :=
  match e with
  | .NumExprAST _ _ => ts
  | _ => punct "(" :: (ts ++ [punct ")"])

/-- Modelled from the spec: the serialiser of an expression to infix tokens, which is
missing from the repository: a tree is written with its operators and literals,
compound operands parenthesised. -/
def serialise : Expr → List Token
  | .NumExprAST v t => [⟨0, v, t⟩]
  | .UnaryExprAST op rhs => punct op :: parenthesise rhs (serialise rhs)
  | .BinExprAST op lhs rhs =>
    parenthesise lhs (serialise lhs) ++ punct op :: parenthesise rhs (serialise rhs)

/-- Modelled from the spec: the serialiser of a statement, which is missing from the
repository: the identifier, the operator of the root (`=`) and the serialised right-hand
side, framed as `myparser` frames its tokens, between the sentinel of `Init` and an
`EOF` token with empty text. -/
def serialiseStmt : Expr → List Token
  | .BinExprAST op lhs rhs =>
    ⟨0, "", 0⟩ :: (serialise lhs ++ punct op :: (serialise rhs ++ [⟨0, "", scanner.EOF⟩]))
  | e => ⟨0, "", 0⟩ :: (serialise e ++ [⟨0, "", scanner.EOF⟩])

/-! ## Cursor positions as a split of the token list -/

/-- The state whose cursor is on the last token of `pre`, with `post` still to be read. -/
def mk (pre post : List Token) : Interpreter :=
  ⟨pre ++ post, (pre.length : Int) - 1⟩

/-- The state in which a rule leaves the cursor after reading up to `pre`: on the
last token of `pre`, or on the end-of-input token when it is all that is left
(`parseTerm` and `parseExpr` do not give an end-of-input token back). -/
def settle (pre post : List Token) : Interpreter :=
  match post with
  | [p] => if p.Typ = scanner.EOF then mk (pre ++ [p]) [] else mk pre post
  | _ => mk pre post

/-! ## What the main lemmas say of each rule -/

/-- What completeness says of a derivation, rule by rule: a factor is read from any
position and leaves the cursor on its last token; a term or an expression is read
when the token behind it is not one of its operators, and leaves the cursor as
`settle` describes. -/
def Complete : Cat → List Token → Expr → Prop
  | .factor, ts, e => ∀ pre post,
      Returns parseFactor (mk pre (ts ++ post)) (.ok e (mk (pre ++ ts) post))
  | .term, ts, e => ∀ pre p rest, (p.Typ = scanner.EOF → rest = []) →
      (p.Typ ≠ scanner.EOF → p.Val ≠ "*" ∧ p.Val ≠ "/") →
      Returns parseTerm (mk pre (ts ++ p :: rest)) (.ok e (settle (pre ++ ts) (p :: rest)))
  | .expression, ts, e => ∀ pre p rest, (p.Typ = scanner.EOF → rest = []) →
      (p.Typ ≠ scanner.EOF → p.Val ≠ "*" ∧ p.Val ≠ "/" ∧ p.Val ≠ "+" ∧ p.Val ≠ "-") →
      Returns parseExpr (mk pre (ts ++ p :: rest)) (.ok e (settle (pre ++ ts) (p :: rest)))

/-- What soundness says of a call of `parseFactor` with budget `n`. -/
def SoundF (n : Nat) : Prop :=
  ∀ pre post e s', WFRest post → parseFactor n (mk pre post) = .ok e s' →
    ∃ ts post', post = ts ++ post' ∧ Parses .factor ts e ∧ WFRest post' ∧
      s' = mk (pre ++ ts) post'

/-- What soundness says of a call of `parseTerm` with budget `n`. -/
def SoundT (n : Nat) : Prop :=
  ∀ pre post e s', WFRest post → parseTerm n (mk pre post) = .ok e s' →
    ∃ ts post', post = ts ++ post' ∧ Parses .term ts e ∧ WFRest post' ∧
      s' = settle (pre ++ ts) post'

/-- What soundness says of a call of `parseExpr` with budget `n`. -/
def SoundE (n : Nat) : Prop :=
  ∀ pre post e s', WFRest post → parseExpr n (mk pre post) = .ok e s' →
    ∃ ts post', post = ts ++ post' ∧ Parses .expression ts e ∧ WFRest post' ∧
      s' = settle (pre ++ ts) post'

/-- What an operator `t` between a sentence of rule `c` and the end-of-input token
`eof` leads to: the rule fails, the innermost cause being `parseFactor` at `eof`. -/
def Dangles (eof : Token) : Cat → List Token → Prop
  | .factor, _ => True
  | .term, ts => ∀ pre t, t.Typ ≠ scanner.EOF → t.Val = "*" ∨ t.Val = "/" →
      FailsAt (errNeedFactor eof.Pos "") parseTerm (mk pre (ts ++ [t, eof]))
  | .expression, ts => ∀ pre t, t.Typ ≠ scanner.EOF →
      t.Val = "+" ∨ t.Val = "-" ∨ t.Val = "*" ∨ t.Val = "/" →
      FailsAt (errNeedFactor eof.Pos "") parseExpr (mk pre (ts ++ [t, eof]))

/-! ## Initialisation, and what the later claims speak of -/

/-- Method `Init`: it replaces the token list by the one sentinel token (and the symbol
table by an empty one); it does not assign `tokenIndex`. -/
def Interpreter.Init (interp : Interpreter) : Interpreter :=
  { interp with tokens := [⟨0, "", 0⟩] }

/-- Method `AddToken`: `append(interp.tokens, t)`. -/
def Interpreter.AddToken (interp : Interpreter) (t : Token) : Interpreter :=
  { interp with tokens := interp.tokens ++ [t] }

/-- The token handling of `myparser`: `Init`, then one `AddToken` for each token of the
scanner and for the final `EOF` token, all of them given here as `toks`. -/
def load (interp : Interpreter) (toks : List Token) : Interpreter :=
  toks.foldl Interpreter.AddToken interp.Init

/-- The kinds returned by `k` successive calls of `Scan`; `none` is a panic. -/
def scanKinds : Nat → Interpreter → Option (List Int)
  | 0, _ => some []
  | k + 1, s =>
    match s.Scan with
    | none => none
    | some (tok, s1) => (scanKinds k s1).map (tok :: ·)

/-- The shape of a tree below the root: no `Op` is `"="`, a `BinExprAST` has one of the
four arithmetic operators, a `UnaryExprAST` has `Op` `"-"`, and a `NumExprAST` has type
`Int`, `Float` or `Ident`. -/
def BelowRoot : Expr → Prop
  | .NumExprAST _ t => t = scanner.Int ∨ t = scanner.Float ∨ t = scanner.Ident
  | .UnaryExprAST op rhs => op ≠ "=" ∧ op = "-" ∧ BelowRoot rhs
  | .BinExprAST op lhs rhs =>
    op ≠ "=" ∧ (op = "+" ∨ op = "-" ∨ op = "*" ∨ op = "/") ∧ BelowRoot lhs ∧ BelowRoot rhs

/-! ## Termination -/

/-- The last token of the list is an `EOF` token with empty text. -/
def EndsFinal (l : List Token) : Prop :=
  ∃ mid eof, l = mid ++ [eof] ∧ eof.Typ = scanner.EOF ∧ eof.Val = ""

/-- The outcome is a result, not a panic and not an exhausted budget, and a returned
tree comes with a cursor inside the token list `toks`, behind more than `k` tokens. -/
def Progress (k : Nat) (toks : List Token) : Outcome → Prop
  | .ok _ s' => ∃ pre' post', s' = mk pre' post' ∧ pre' ++ post' = toks ∧ k < pre'.length
  | .error _ _ => True
  | .panic => False
  | .timeout => False

/-- Budget `3 * r` is enough for `parseFactor` with `r` tokens left to read. -/
def TermF (n : Nat) : Prop :=
  ∀ pre post, EndsFinal post → 3 * post.length ≤ n →
    Progress pre.length (pre ++ post) (parseFactor n (mk pre post))

/-- Budget `3 * r + 1` is enough for `parseTerm` with `r` tokens left to read. -/
def TermT (n : Nat) : Prop :=
  ∀ pre post, EndsFinal post → 3 * post.length + 1 ≤ n →
    Progress pre.length (pre ++ post) (parseTerm n (mk pre post))

/-- Budget `3 * r + 2` is enough for `parseExpr` with `r` tokens left to read. -/
def TermE (n : Nat) : Prop :=
  ∀ pre post, EndsFinal post → 3 * post.length + 2 ≤ n →
    Progress pre.length (pre ++ post) (parseExpr n (mk pre post))

/-! ## Literals of a token list and leaves of a tree -/

/-- The `NumExprAST` leaves of a tree from left to right, each as its `Val` and `Type`. -/
def leaves : Expr → List (String × Int)
  | .NumExprAST v t => [(v, t)]
  | .UnaryExprAST _ rhs => leaves rhs
  | .BinExprAST _ lhs rhs => leaves lhs ++ leaves rhs

/-- The tokens of kind `Ident`, `Int` or `Float` of a list in their order, each as its
text and kind. -/
def literals : List Token → List (String × Int)
  | [] => []
  | t :: ts => if isLiteral t then (t.Val, t.Typ) :: literals ts else literals ts

/-! ## Token positions -/

/-- The token with its `Pos` set to 0. -/
def Token.unplaced (t : Token) : Token :=
  ⟨0, t.Val, t.Typ⟩

/-- The interpreter state with the `Pos` of every token set to 0. -/
def strip (s : Interpreter) : Interpreter :=
  ⟨s.tokens.map Token.unplaced, s.tokenIndex⟩

/-- Two outcomes that differ at most in token positions and in the error: the second is
of the same kind as the first, with the same tree, in the stripped state of the first. -/
def Sim : Outcome → Outcome → Prop
  | .ok e s, .ok e' s' => e = e' ∧ s' = strip s
  | .error _ s, .error _ s' => s' = strip s
  | .panic, .panic => True
  | .timeout, .timeout => True
  | _, _ => False

/-! ## What an error says of the token it was found at -/

/-- The innermost message of the error starts with the column and the text of token
`t`, in the form `pos(<Pos>) invalid token("<Val>")`. -/
def CarriesPosVal (err : GoError) (t : Token) : Prop :=
  ∃ tail, err.innermost.Error
    = "pos(" ++ toString t.Pos ++ ") invalid token(\"" ++ t.Val ++ "\")" ++ tail

/-- The error is one of the four messages that name the column and the text of `t`. -/
def Located (err : GoError) (t : Token) : Prop :=
  err = errNeedFactor t.Pos t.Val ∨ err = errNeedParen t.Pos t.Val
    ∨ err = errNeedAssign t.Pos t.Val ∨ err = errInvalid t.Pos t.Val

/-- Property `Q` holds of the error of an outcome and of the state it is returned in,
if the outcome is an error. -/
def Outcome.AllErr (Q : GoError → Interpreter → Prop) : Outcome → Prop
  | .error err s => Q err s
  | _ => True

/-- The innermost cause of the error names the column and the text of the token under
the cursor of state `s`. -/
def AtCursor (err : GoError) (s : Interpreter) : Prop :=
  ∃ t, s.cur = some t ∧ Located err.innermost t

/-! ## The run of the rules with a log of the cursor -/

/-- What a run does with the cursor: `scan b a` is a call of `Scan` that took the cursor
from `b` to `a` and read `tokens[a]`; `back b` is a call of `Back` with the cursor on
`b`; `access i` is a call of `TokenText` or `Column` that read `tokens[i]`. -/
inductive Event where
  | scan (before after : Int)
  | back (before : Int)
  | access (index : Int)
deriving DecidableEq

/-- The interpreter together with the log of its run so far. -/
structure Traced where
  interp : Interpreter
  log : List Event

/-- Method `Scan`, logged. -/
def Traced.Scan (s : Traced) : Option (Int × Traced) :=
  match s.interp.Scan with
  | none => none
  | some (tok, s1) => some (tok, ⟨s1, s.log ++ [.scan s.interp.tokenIndex s1.tokenIndex]⟩)

/-- Method `Back`, logged. -/
def Traced.Back (s : Traced) : Traced :=
  ⟨s.interp.Back, s.log ++ [.back s.interp.tokenIndex]⟩

/-- Method `TokenText`, logged. -/
def Traced.TokenText (s : Traced) : Option (String × Traced) :=
  match s.interp.TokenText with
  | none => none
  | some v => some (v, ⟨s.interp, s.log ++ [.access s.interp.tokenIndex]⟩)

/-- Method `Column`, logged. -/
def Traced.Column (s : Traced) : Option (Int × Traced) :=
  match s.interp.Column with
  | none => none
  | some c => some (c, ⟨s.interp, s.log ++ [.access s.interp.tokenIndex]⟩)

/-- What a call of a grammar rule does, with the log. -/
inductive TOutcome where
  | ok (e : Expr) (s : Traced)
  | error (err : GoError) (s : Traced)
  | panic
  | timeout

/-- The outcome without the log. -/
def TOutcome.erase : TOutcome → Outcome
  | .ok e s => .ok e s.interp
  | .error err s => .error err s.interp
  | .panic => .panic
  | .timeout => .timeout

/-- The logged `combine`. -/
def tCombine (rule op : String) (lhs : Expr) : TOutcome → TOutcome
  | .ok rhs s => .ok (.BinExprAST op lhs rhs) s
  | .error err s => .error (wrapErr rule err) s
  | .panic => .panic
  | .timeout => .timeout

/-- The logged body of `parseExpr` and `parseTerm` after the call for the left operand:
`Scan`; on `EOF` return; `TokenText` for the `switch`; in the operator case `TokenText`
again for `op` and the recursive call; otherwise `Back`. -/
def tOperatorTail (sub o1 o2 self : String) (recur : Traced → TOutcome) : TOutcome → TOutcome
  | .ok lhs s1 =>
    match s1.Scan with
    | none => .panic
    | some (tok, s2) =>
      if tok = scanner.EOF then .ok lhs s2
      else
        match s2.TokenText with
        | none => .panic
        | some (text, s3) =>
          if text = o1 ∨ text = o2 then
            match s3.TokenText with
            | none => .panic
            | some (op, s4) => tCombine self op lhs (recur s4)
          else .ok lhs s3.Back
  | .error err s1 => .error (wrapErr sub err) s1
  | .panic => .panic
  | .timeout => .timeout

/-- The logged body of `parseFactor` after the call of `parseExpr` inside a
parenthesis: `Scan`, `TokenText`, and for the error `Column` and `TokenText`. -/
def tCloseParen : TOutcome → TOutcome
  | .ok expr s2 =>
    match s2.Scan with
    | none => .panic
    | some (_, s3) =>
      match s3.TokenText with
      | none => .panic
      | some (close, s4) =>
        if close ≠ ")" then
          match s4.Column with
          | none => .panic
          | some (col, s5) =>
            match s5.TokenText with
            | none => .panic
            | some (text, s6) => .error (errNeedParen col text) s6
        else .ok expr s4
  | .error err s2 => .error (wrapErr "parseExpr" err) s2
  | .panic => .panic
  | .timeout => .timeout

/-- The logged `negate`. -/
def tNegate : TOutcome → TOutcome
  | .ok rhs s2 => .ok (.UnaryExprAST "-" rhs) s2
  | .error err s2 => .error (wrapErr "parseFactor" err) s2
  | .panic => .panic
  | .timeout => .timeout

/-- The logged body of `parseStmt` after the call of `parseExpr`. -/
def tFinishStmt (ident : String) : TOutcome → TOutcome
  | .ok rhs s3 =>
    match s3.Scan with
    | none => .panic
    | some (tok3, s4) =>
      if tok3 ≠ scanner.EOF then
        match s4.TokenText with
        | none => .panic
        | some (next, s5) => .error (errNext next) s5
      else .ok (.BinExprAST "=" (.NumExprAST ident scanner.Ident) rhs) s4
  | .error err s3 => .error (wrapErr "parseExpr" err) s3
  | .panic => .panic
  | .timeout => .timeout

/-- The logged body of `parseFactor`: every call of `Scan`, `TokenText` and `Column` of
the source, in its order. -/
def tFactorBody (recE recF : Traced → TOutcome) (s : Traced) : TOutcome :=
  match s.Scan with
  | none => .panic
  | some (tok, s1) =>
    if tok = scanner.Int then
      match s1.TokenText with
      | none => .panic
      | some (text, s2) => .ok (.NumExprAST text scanner.Int) s2
    else if tok = scanner.Float then
      match s1.TokenText with
      | none => .panic
      | some (text, s2) => .ok (.NumExprAST text scanner.Float) s2
    else
      match s1.TokenText with
      | none => .panic
      | some (text, s2) =>
        if text = "(" then tCloseParen (recE s2)
        else if text = "-" then tNegate (recF s2)
        else if tok = scanner.Ident then
          match s2.TokenText with
          | none => .panic
          | some (val, s3) => .ok (.NumExprAST val scanner.Ident) s3
        else
          match s2.Column with
          | none => .panic
          | some (col, s3) =>
            match s3.TokenText with
            | none => .panic
            | some (val, s4) => .error (errNeedFactor col val) s4

/-- The logged body of `parseStmt`. -/
def tStmtBody (recE : Traced → TOutcome) (s : Traced) : TOutcome :=
  match s.Scan with
  | none => .panic
  | some (tok, s1) =>
    if tok = scanner.EOF then .error errEOF s1
    else if tok = scanner.Ident then
      match s1.TokenText with
      | none => .panic
      | some (ident, s2) =>
        match s2.Scan with
        | none => .panic
        | some (tok2, s3) =>
          if tok2 = scanner.EOF then .error errEOF s3
          else
            match s3.TokenText with
            | none => .panic
            | some (text, s4) =>
              if text = "=" then tFinishStmt ident (recE s4)
              else
                match s4.Column with
                | none => .panic
                | some (col, s5) =>
                  match s5.TokenText with
                  | none => .panic
                  | some (val, s6) => .error (errNeedAssign col val) s6
    else
      match s1.Column with
      | none => .panic
      | some (col, s2) =>
        match s2.TokenText with
        | none => .panic
        | some (val, s3) => .error (errInvalid col val) s3

mutual

/-- Rule `parseExpr`, logged. -/
def tparseExpr : Nat → Traced → TOutcome
  | 0, _ => .timeout
  | fuel + 1, s =>
    tOperatorTail "parseTerm" "+" "-" "parseExpr" (tparseExpr fuel) (tparseTerm fuel s)

/-- Rule `parseTerm`, logged. -/
def tparseTerm : Nat → Traced → TOutcome
  | 0, _ => .timeout
  | fuel + 1, s =>
    tOperatorTail "parseFactor" "*" "/" "parseTerm" (tparseTerm fuel) (tparseFactor fuel s)

/-- Rule `parseFactor`, logged. -/
def tparseFactor : Nat → Traced → TOutcome
  | 0, _ => .timeout
  | fuel + 1, s => tFactorBody (tparseExpr fuel) (tparseFactor fuel) s

end

/-- Rule `parseStmt`, logged. -/
def tparseStmt (fuel : Nat) (s : Traced) : TOutcome :=
  tStmtBody (tparseExpr fuel) s

/-- One step of the check of a log against a token list of length `len`.  The state is
`none` after a violation, and otherwise says whether the last move of the cursor was a
`Scan` that took it forward by one.  A `Scan` and an access must read inside
`[0, len-1]`; a `Back` must come after such a `Scan`, with no other `Scan` or `Back` in
between, and not at cursor 0. -/
def checkStep (len : Nat) : Option Bool → Event → Option Bool
  | none, _ => none
  | some _, .scan b a => if 0 ≤ a ∧ a < len then some (decide (a = b + 1)) else none
  | some armed, .back b => if armed = true ∧ 1 ≤ b then some false else none
  | some armed, .access i => if 0 ≤ i ∧ i < len then some armed else none

/-- The check of a whole log, from the start of a run. -/
def monitor (len : Nat) (log : List Event) : Option Bool :=
  log.foldl (checkStep len) (some false)

/-- The log has no violation: every token access is inside the token list and every
`Back` directly follows a `Scan` that moved the cursor forward by one. -/
def legal (len : Nat) (log : List Event) : Bool :=
  (monitor len log).isSome

/-- The state is inside the token list `toks`, with the cursor on a token, and its log
is legal. -/
def Inside (toks : List Token) (s : Traced) : Prop :=
  ∃ pre post, s.interp = mk pre post ∧ pre ≠ [] ∧ pre ++ post = toks
    ∧ legal toks.length s.log = true

/-- The outcome is no panic, its log is legal, and a returned tree comes in a state
inside the token list. -/
def TGood (toks : List Token) : TOutcome → Prop
  | .ok _ s => Inside toks s
  | .error _ s => legal toks.length s.log = true
  | .panic => False
  | .timeout => True

/-- The state is on token `u`, between `pre` and `post` of the token list `toks`, and the
check of its log stands at `m`. -/
def At (toks pre : List Token) (u : Token) (post : List Token) (s : Traced) (m : Bool) : Prop :=
  s.interp = mk (pre ++ [u]) post ∧ pre ++ [u] ++ post = toks
    ∧ monitor toks.length s.log = some m

/-- The event reads inside a token list of length `len`, and is no `Back` at cursor 0. -/
def Event.inRange (len : Nat) : Event → Prop
  | .scan _ a => 0 ≤ a ∧ a < len
  | .back b => 1 ≤ b
  | .access i => 0 ≤ i ∧ i < len

/-! ## The cursor on a split token list -/

theorem cur_mk_snoc (pre post : List Token) (t : Token) :
    (mk (pre ++ [t]) post).cur = some t := by
  have h : (0 : Int) ≤ ((pre ++ [t]).length : Int) - 1 := by
    simp only [List.length_append, List.length_singleton]; push_cast; omega
  have h2 : ((((pre ++ [t]).length : Int) - 1).toNat) = pre.length := by
    simp only [List.length_append, List.length_singleton]; push_cast; omega
  simp only [Interpreter.cur, mk, h, if_true, h2]
  rw [List.append_assoc, List.get?_eq_getElem?, List.getElem?_append_right (le_refl _)]
  simp

theorem scan_mk (pre post : List Token) (t : Token) :
    (mk pre (t :: post)).Scan = some (t.Typ, mk (pre ++ [t]) post) := by
  have hadv : (mk pre (t :: post)).advance = mk (pre ++ [t]) post := by
    have h : ¬ ((pre.length : Int) - 1 + 1 ≥ ((pre ++ t :: post).length : Int)) := by
      simp only [List.length_append, List.length_cons]; push_cast; omega
    simp only [Interpreter.advance, mk, h, if_false]
    simp
  simp only [Interpreter.Scan, hadv, cur_mk_snoc, Option.map_some']

theorem scan_mk_end (pre : List Token) (t : Token) :
    (mk (pre ++ [t]) []).Scan = some (t.Typ, mk (pre ++ [t]) []) := by
  have hadv : (mk (pre ++ [t]) []).advance = mk (pre ++ [t]) [] := by
    have h : (((pre ++ [t]).length : Int) - 1 + 1 ≥ (((pre ++ [t]) ++ []).length : Int)) := by
      simp
    simp only [Interpreter.advance, mk, h, if_true]
    simp
  simp only [Interpreter.Scan, hadv, cur_mk_snoc, Option.map_some']

theorem back_mk (pre post : List Token) (t : Token) :
    (mk (pre ++ [t]) post).Back = mk pre (t :: post) := by
  simp [Interpreter.Back, mk]

theorem text_mk (pre post : List Token) (t : Token) :
    (mk (pre ++ [t]) post).TokenText = some t.Val := by
  simp only [Interpreter.TokenText, cur_mk_snoc, Option.map_some']

theorem column_mk (pre post : List Token) (t : Token) :
    (mk (pre ++ [t]) post).Column = some t.Pos := by
  simp only [Interpreter.Column, cur_mk_snoc, Option.map_some']

theorem scan_settle (pre post : List Token) (p : Token) :
    (settle pre (p :: post)).Scan = some (p.Typ, mk (pre ++ [p]) post) := by
  cases post with
  | nil =>
    by_cases h : p.Typ = scanner.EOF
    · simp only [settle, h, if_true]
      rw [scan_mk_end, h]
    · simp only [settle, h, if_false]
      exact scan_mk pre [] p
  | cons q post => exact scan_mk pre (q :: post) p

theorem settle_of_ne (pre post : List Token) (p : Token) (h : p.Typ ≠ scanner.EOF) :
    settle pre (p :: post) = mk pre (p :: post) := by
  cases post with
  | nil => simp only [settle, h, if_false]
  | cons q post => rfl

theorem settle_eof (pre : List Token) (p : Token) (h : p.Typ = scanner.EOF) :
    settle pre [p] = mk (pre ++ [p]) [] := by
  simp only [settle, h, if_true]

/-! ## One step of each rule -/

theorem parseExpr_succ (n : Nat) (s : Interpreter) :
    parseExpr (n + 1) s
      = operatorTail "parseTerm" "+" "-" "parseExpr" (parseExpr n) (parseTerm n s) := by
  rw [parseExpr]
  cases h : parseTerm n s <;> simp only [operatorTail]
  rename_i lhs s1
  cases h1 : s1.Scan with
  | none => rfl
  | some q =>
    obtain ⟨tok, s2⟩ := q
    simp only
    split
    · rfl
    · cases h2 : s2.TokenText with
      | none => rfl
      | some op =>
        simp only
        split
        · cases h3 : parseExpr n s2 <;> simp only [combine]
        · rfl

theorem parseTerm_succ (n : Nat) (s : Interpreter) :
    parseTerm (n + 1) s
      = operatorTail "parseFactor" "*" "/" "parseTerm" (parseTerm n) (parseFactor n s) := by
  rw [parseTerm]
  cases h : parseFactor n s <;> simp only [operatorTail]
  rename_i lhs s1
  cases h1 : s1.Scan with
  | none => rfl
  | some q =>
    obtain ⟨tok, s2⟩ := q
    simp only
    split
    · rfl
    · cases h2 : s2.TokenText with
      | none => rfl
      | some op =>
        simp only
        split
        · cases h3 : parseTerm n s2 <;> simp only [combine]
        · rfl

theorem parseFactor_succ (n : Nat) (pre post : List Token) (t : Token) :
    parseFactor (n + 1) (mk pre (t :: post))
      = if t.Typ = scanner.Int then .ok (.NumExprAST t.Val scanner.Int) (mk (pre ++ [t]) post)
        else if t.Typ = scanner.Float then
          .ok (.NumExprAST t.Val scanner.Float) (mk (pre ++ [t]) post)
        else if t.Val = "(" then closeParen (parseExpr n (mk (pre ++ [t]) post))
        else if t.Val = "-" then negate (parseFactor n (mk (pre ++ [t]) post))
        else if t.Typ = scanner.Ident then
          .ok (.NumExprAST t.Val scanner.Ident) (mk (pre ++ [t]) post)
        else .error (errNeedFactor t.Pos t.Val) (mk (pre ++ [t]) post) := by
  rw [parseFactor]
  simp only [scan_mk, text_mk, column_mk]
  split
  · rfl
  · split
    · rfl
    · split
      · cases h : parseExpr n (mk (pre ++ [t]) post) <;> simp only [closeParen]
      · split
        · cases h : parseFactor n (mk (pre ++ [t]) post) <;> simp only [negate]
        · rfl

theorem operatorTail_ok (sub o1 o2 self : String) (recur : Interpreter → Outcome)
    (lhs : Expr) (pre post : List Token) (p : Token) :
    operatorTail sub o1 o2 self recur (.ok lhs (settle pre (p :: post)))
      = if p.Typ = scanner.EOF then .ok lhs (mk (pre ++ [p]) post)
        else if p.Val = o1 ∨ p.Val = o2 then combine self p.Val lhs (recur (mk (pre ++ [p]) post))
        else .ok lhs (mk pre (p :: post)) := by
  simp only [operatorTail, scan_settle, text_mk, back_mk]

theorem operatorTail_ok_mk (sub o1 o2 self : String) (recur : Interpreter → Outcome)
    (lhs : Expr) (pre post : List Token) (p : Token) :
    operatorTail sub o1 o2 self recur (.ok lhs (mk pre (p :: post)))
      = if p.Typ = scanner.EOF then .ok lhs (mk (pre ++ [p]) post)
        else if p.Val = o1 ∨ p.Val = o2 then combine self p.Val lhs (recur (mk (pre ++ [p]) post))
        else .ok lhs (mk pre (p :: post)) := by
  simp only [operatorTail, scan_mk, text_mk, back_mk]

theorem closeParen_ok (expr : Expr) (pre post : List Token) (r : Token) :
    closeParen (.ok expr (settle pre (r :: post)))
      = if r.Val ≠ ")" then .error (errNeedParen r.Pos r.Val) (mk (pre ++ [r]) post)
        else .ok expr (mk (pre ++ [r]) post) := by
  simp only [closeParen, scan_settle, text_mk, column_mk]

/-! ## A larger recursion budget changes no result -/

theorem parseFactor_succ_body (n : Nat) (s : Interpreter) :
    parseFactor (n + 1) s = factorBody (parseExpr n) (parseFactor n) s := by
  rw [parseFactor, factorBody]
  cases s.Scan with
  | none => rfl
  | some q =>
    obtain ⟨tok, s1⟩ := q
    simp only
    split
    · rfl
    · split
      · rfl
      · cases s1.TokenText with
        | none => rfl
        | some text =>
          simp only
          split
          · cases parseExpr n s1 <;> simp only [closeParen]
          · split
            · cases parseFactor n s1 <;> simp only [negate]
            · rfl

theorem parseStmt_body (n : Nat) (s : Interpreter) :
    parseStmt n s = stmtBody (parseExpr n) s := by
  rw [parseStmt, stmtBody]
  cases s.Scan with
  | none => rfl
  | some q =>
    obtain ⟨tok, s1⟩ := q
    simp only
    split
    · rfl
    · split
      · cases s1.TokenText with
        | none => rfl
        | some ident =>
          simp only
          cases s1.Scan with
          | none => rfl
          | some q2 =>
            obtain ⟨tok2, s2⟩ := q2
            simp only
            split
            · rfl
            · cases s2.TokenText with
              | none => rfl
              | some text =>
                simp only
                split
                · cases parseExpr n s2 <;> simp only [finishStmt]
                · rfl
      · rfl

theorem operatorTail_mono {sub o1 o2 self : String} {recur recur' : Interpreter → Outcome}
    (hr : Refines recur recur') {r r' : Outcome} (h : r = .timeout ∨ r' = r) :
    operatorTail sub o1 o2 self recur r = .timeout
      ∨ operatorTail sub o1 o2 self recur' r' = operatorTail sub o1 o2 self recur r := by
  rcases h with h | h
  · left; rw [h]; rfl
  · rw [h]
    cases r with
    | ok lhs s1 =>
      simp only [operatorTail]
      cases s1.Scan with
      | none => exact .inr rfl
      | some q =>
        obtain ⟨tok, s2⟩ := q
        simp only
        split
        · exact .inr rfl
        · cases s2.TokenText with
          | none => exact .inr rfl
          | some op =>
            simp only
            split
            · rcases hr s2 with h2 | h2
              · left; rw [h2]; rfl
              · right; rw [h2]
            · exact .inr rfl
    | error err s1 => exact .inr rfl
    | panic => exact .inr rfl
    | timeout => exact .inr rfl

theorem factorBody_mono {recE recE' recF recF' : Interpreter → Outcome}
    (hE : Refines recE recE') (hF : Refines recF recF') :
    Refines (factorBody recE recF) (factorBody recE' recF') := by
  intro s
  simp only [factorBody]
  cases s.Scan with
  | none => exact .inr rfl
  | some q =>
    obtain ⟨tok, s1⟩ := q
    simp only
    split
    · exact .inr rfl
    · split
      · exact .inr rfl
      · cases s1.TokenText with
        | none => exact .inr rfl
        | some text =>
          simp only
          split
          · rcases hE s1 with h | h
            · left; rw [h]; rfl
            · right; rw [h]
          · split
            · rcases hF s1 with h | h
              · left; rw [h]; rfl
              · right; rw [h]
            · exact .inr rfl

theorem stmtBody_mono {recE recE' : Interpreter → Outcome} (hE : Refines recE recE') :
    Refines (stmtBody recE) (stmtBody recE') := by
  intro s
  simp only [stmtBody]
  cases s.Scan with
  | none => exact .inr rfl
  | some q =>
    obtain ⟨tok, s1⟩ := q
    simp only
    split
    · exact .inr rfl
    · split
      · cases s1.TokenText with
        | none => exact .inr rfl
        | some ident =>
          simp only
          cases s1.Scan with
          | none => exact .inr rfl
          | some q2 =>
            obtain ⟨tok2, s2⟩ := q2
            simp only
            split
            · exact .inr rfl
            · cases s2.TokenText with
              | none => exact .inr rfl
              | some text =>
                simp only
                split
                · rcases hE s2 with h | h
                  · left; rw [h]; rfl
                  · right; rw [h]
                · exact .inr rfl
      · exact .inr rfl

theorem refines_succ (n : Nat) :
    Refines (parseFactor n) (parseFactor (n + 1)) ∧ Refines (parseTerm n) (parseTerm (n + 1))
      ∧ Refines (parseExpr n) (parseExpr (n + 1)) := by
  induction n with
  | zero =>
    refine ⟨fun s => .inl ?_, fun s => .inl ?_, fun s => .inl ?_⟩
    · rw [parseFactor]
    · rw [parseTerm]
    · rw [parseExpr]
  | succ n ih =>
    obtain ⟨ihF, ihT, ihE⟩ := ih
    refine ⟨fun s => ?_, fun s => ?_, fun s => ?_⟩
    · rw [parseFactor_succ_body, parseFactor_succ_body]
      exact factorBody_mono ihE ihF s
    · rw [parseTerm_succ, parseTerm_succ]
      exact operatorTail_mono ihT (ihF s)
    · rw [parseExpr_succ, parseExpr_succ]
      exact operatorTail_mono ihE (ihT s)

theorem refines_le {n m : Nat} (h : n ≤ m) : Refines (parseExpr n) (parseExpr m) := by
  induction h with
  | refl => exact fun s => .inr rfl
  | @step k _ ih =>
    intro s
    rcases ih s with h1 | h1
    · exact .inl h1
    · rcases (refines_succ k).2.2 s with h2 | h2
      · exact .inl (by rw [← h1, h2])
      · exact .inr (by rw [h2, h1])

/-- A result of `parseStmt` other than the exhaustion of the budget is the result for
every larger budget. -/
theorem parseStmt_mono {n m : Nat} {s : Interpreter} {r : Outcome} (h : parseStmt n s = r)
    (hr : r ≠ .timeout) (hnm : n ≤ m) : parseStmt m s = r := by
  rw [parseStmt_body] at h ⊢
  rcases stmtBody_mono (refines_le hnm) s with h1 | h1
  · exact absurd (h ▸ h1) hr
  · rw [h1, h]

/-! ## Completeness: the rules follow every derivation of `Parses` -/

theorem Returns.of_succ {rule : Nat → Interpreter → Outcome} {s : Interpreter} {r : Outcome}
    (h : ∀ n, rule (n + 1) s = r) : Returns rule s r := by
  refine ⟨1, fun n hn => ?_⟩
  obtain ⟨k, rfl⟩ : ∃ k, n = k + 1 := ⟨n - 1, by omega⟩
  exact h k

theorem Returns.step {sub rule : Nat → Interpreter → Outcome} {s1 s : Interpreter}
    {r1 r : Outcome} (h1 : Returns sub s1 r1)
    (h : ∀ n, sub n s1 = r1 → rule (n + 1) s = r) : Returns rule s r := by
  obtain ⟨N, hN⟩ := h1
  refine ⟨N + 1, fun n hn => ?_⟩
  obtain ⟨k, rfl⟩ : ∃ k, n = k + 1 := ⟨n - 1, by omega⟩
  exact h k (hN k (by omega))

theorem Returns.step2 {f1 f2 rule : Nat → Interpreter → Outcome} {s1 s2 s : Interpreter}
    {r1 r2 r : Outcome} (h1 : Returns f1 s1 r1) (h2 : Returns f2 s2 r2)
    (h : ∀ n, f1 n s1 = r1 → f2 n s2 = r2 → rule (n + 1) s = r) : Returns rule s r := by
  obtain ⟨N1, hN1⟩ := h1
  obtain ⟨N2, hN2⟩ := h2
  refine ⟨max N1 N2 + 1, fun n hn => ?_⟩
  obtain ⟨k, rfl⟩ : ∃ k, n = k + 1 := ⟨n - 1, by omega⟩
  have hk : max N1 N2 ≤ k := by omega
  exact h k (hN1 k (le_trans (le_max_left _ _) hk)) (hN2 k (le_trans (le_max_right _ _) hk))

theorem settle_follow (pre rest : List Token) (p : Token)
    (h : p.Typ = scanner.EOF → rest = []) :
    (if p.Typ = scanner.EOF then mk (pre ++ [p]) rest else mk pre (p :: rest))
      = settle pre (p :: rest) := by
  by_cases hp : p.Typ = scanner.EOF
  · rw [if_pos hp, h hp, settle_eof _ _ hp]
  · rw [if_neg hp, settle_of_ne _ _ _ hp]

theorem complete {c : Cat} {ts : List Token} {e : Expr} (h : Parses c ts e) :
    Complete c ts e := by
  induction h with
  | int t ht =>
    intro pre post
    exact Returns.of_succ fun n => by
      rw [List.singleton_append, parseFactor_succ, if_pos ht]
  | float t ht =>
    intro pre post
    have h1 : t.Typ ≠ scanner.Int := by rw [ht]; decide
    exact Returns.of_succ fun n => by
      rw [List.singleton_append, parseFactor_succ, if_neg h1, if_pos ht]
  | paren l r ts e hl hr hlI hlF hrE _ ih =>
    intro pre post
    have h1 := ih (pre ++ [l]) r post (fun h => absurd h hrE)
      (fun _ => by rw [hr]; decide)
    refine Returns.step h1 fun n hn => ?_
    have e1 : l :: (ts ++ [r]) ++ post = l :: (ts ++ r :: post) := by simp
    have e2 : pre ++ l :: (ts ++ [r]) = pre ++ [l] ++ ts ++ [r] := by simp
    rw [e1, e2, parseFactor_succ, if_neg hlI, if_neg hlF, if_pos hl, hn, closeParen_ok,
      if_neg (not_not.mpr hr)]
  | neg m ts e hm hmI hmF _ ih =>
    intro pre post
    have h1 := ih (pre ++ [m]) post
    refine Returns.step h1 fun n hn => ?_
    have hm2 : m.Val ≠ "(" := by rw [hm]; decide
    have e1 : m :: ts ++ post = m :: (ts ++ post) := by simp
    have e2 : pre ++ m :: ts = pre ++ [m] ++ ts := by simp
    rw [e1, e2, parseFactor_succ, if_neg hmI, if_neg hmF, if_neg hm2, if_pos hm, hn, negate]
  | ident t ht h1 h2 =>
    intro pre post
    have hI : t.Typ ≠ scanner.Int := by rw [ht]; decide
    have hF : t.Typ ≠ scanner.Float := by rw [ht]; decide
    exact Returns.of_succ fun n => by
      rw [List.singleton_append, parseFactor_succ, if_neg hI, if_neg hF, if_neg h1, if_neg h2,
        if_pos ht]
  | factor ts e _ ih =>
    intro pre p rest hE hO
    refine Returns.step (ih pre (p :: rest)) fun n hn => ?_
    rw [parseTerm_succ, hn, operatorTail_ok_mk, ← settle_follow _ _ _ hE]
    by_cases hp : p.Typ = scanner.EOF
    · rw [if_pos hp, if_pos hp]
    · rw [if_neg hp, if_neg hp, if_neg (by have := hO hp; tauto)]
  | mul o ts1 ts2 e1 e2 ho hoE _ _ ih1 ih2 =>
    intro pre p rest hE hO
    have h1 := ih1 pre (o :: (ts2 ++ p :: rest))
    have h2 := ih2 (pre ++ ts1 ++ [o]) p rest hE hO
    refine Returns.step2 h1 h2 fun n hn1 hn2 => ?_
    have e1 : ts1 ++ o :: ts2 ++ p :: rest = ts1 ++ o :: (ts2 ++ p :: rest) := by simp
    have e2 : pre ++ (ts1 ++ o :: ts2) = pre ++ ts1 ++ [o] ++ ts2 := by simp
    rw [e1, e2, parseTerm_succ, hn1, operatorTail_ok_mk, if_neg hoE, if_pos ho, hn2, combine]
  | term ts e _ ih =>
    intro pre p rest hE hO
    refine Returns.step (ih pre p rest hE (fun hp => ⟨(hO hp).1, (hO hp).2.1⟩)) fun n hn => ?_
    rw [parseExpr_succ, hn, operatorTail_ok, ← settle_follow _ _ _ hE]
    by_cases hp : p.Typ = scanner.EOF
    · rw [if_pos hp, if_pos hp]
    · rw [if_neg hp, if_neg hp, if_neg (by have := hO hp; tauto)]
  | add o ts1 ts2 e1 e2 ho hoE _ _ ih1 ih2 =>
    intro pre p rest hE hO
    have ho2 : o.Val ≠ "*" ∧ o.Val ≠ "/" := by
      rcases ho with h | h <;> rw [h] <;> decide
    have h1 := ih1 pre o (ts2 ++ p :: rest) (fun h => absurd h hoE) (fun _ => ho2)
    have h2 := ih2 (pre ++ ts1 ++ [o]) p rest hE hO
    refine Returns.step2 h1 h2 fun n hn1 hn2 => ?_
    have e1 : ts1 ++ o :: ts2 ++ p :: rest = ts1 ++ o :: (ts2 ++ p :: rest) := by simp
    have e2 : pre ++ (ts1 ++ o :: ts2) = pre ++ ts1 ++ [o] ++ ts2 := by simp
    rw [e1, e2, parseExpr_succ, hn1, operatorTail_ok, if_neg hoE, if_pos ho, hn2, combine]

/-! ## The statement rule -/

theorem parseStmt_eq (n : Nat) (pre rest : List Token) (x q : Token) :
    parseStmt n (mk pre (x :: q :: rest))
      = if x.Typ = scanner.EOF then .error errEOF (mk (pre ++ [x]) (q :: rest))
        else if x.Typ = scanner.Ident then
          if q.Typ = scanner.EOF then .error errEOF (mk (pre ++ [x] ++ [q]) rest)
          else if q.Val = "=" then finishStmt x.Val (parseExpr n (mk (pre ++ [x] ++ [q]) rest))
          else .error (errNeedAssign q.Pos q.Val) (mk (pre ++ [x] ++ [q]) rest)
        else .error (errInvalid x.Pos x.Val) (mk (pre ++ [x]) (q :: rest)) := by
  rw [parseStmt]
  simp only [scan_mk, text_mk, column_mk]
  split
  · rfl
  · split
    · split
      · rfl
      · split
        · cases h : parseExpr n (mk (pre ++ [x] ++ [q]) rest) <;> simp only [finishStmt]
        · rfl
    · rfl

theorem finishStmt_ok (ident : String) (rhs : Expr) (pre post : List Token) (p : Token) :
    finishStmt ident (.ok rhs (settle pre (p :: post)))
      = if p.Typ ≠ scanner.EOF then .error (errNext p.Val) (mk (pre ++ [p]) post)
        else .ok (.BinExprAST "=" (.NumExprAST ident scanner.Ident) rhs) (mk (pre ++ [p]) post) := by
  simp only [finishStmt, scan_settle, text_mk]

theorem start_eq_mk (sentinel : Token) (toks : List Token) :
    (⟨sentinel :: toks, 0⟩ : Interpreter) = mk [sentinel] toks := by
  simp [mk]

theorem mk_nil_eq (pre : List Token) :
    mk pre [] = ⟨pre, (pre.length : Int) - 1⟩ := by
  simp [mk]

/-! ## The two kinds of derivation agree on well-formed tokens -/

theorem Parses.derives {c : Cat} {ts : List Token} {e : Expr} (h : Parses c ts e) :
    Derives c ts e := by
  induction h with
  | int t ht => exact .int t ht
  | float t ht => exact .float t ht
  | paren l r ts e hl hr _ _ _ _ ih => exact .paren l r ts e hl hr ih
  | neg m ts e hm _ _ _ ih => exact .neg m ts e hm ih
  | ident t ht _ _ => exact .ident t ht
  | factor ts e _ ih => exact .factor ts e ih
  | mul o ts1 ts2 e1 e2 ho _ _ _ ih1 ih2 => exact .mul o ts1 ts2 e1 e2 ho ih1 ih2
  | term ts e _ ih => exact .term ts e ih
  | add o ts1 ts2 e1 e2 ho _ _ _ ih1 ih2 => exact .add o ts1 ts2 e1 e2 ho ih1 ih2

theorem WellFormedToken.not_literal {t : Token} (h : WellFormedToken t) (ht : isOpText t.Val) :
    t.Typ ≠ scanner.Ident ∧ t.Typ ≠ scanner.Int ∧ t.Typ ≠ scanner.Float := by
  refine ⟨fun h1 => h.2 (Or.inl h1) ht, fun h1 => h.2 (Or.inr (Or.inl h1)) ht,
    fun h1 => h.2 (Or.inr (Or.inr h1)) ht⟩

theorem Derives.parses {c : Cat} {ts : List Token} {e : Expr} (h : Derives c ts e)
    (hwf : ∀ t ∈ ts, WellFormedToken t) : Parses c ts e := by
  induction h with
  | int t ht => exact .int t ht
  | float t ht => exact .float t ht
  | paren l r ts e hl hr _ ih =>
    have hl' := (hwf l (by simp)).not_literal (by rw [hl]; decide)
    exact .paren l r ts e hl hr hl'.2.1 hl'.2.2 (hwf r (by simp)).1
      (ih fun t ht => hwf t (by simp [ht]))
  | neg m ts e hm _ ih =>
    have hm' := (hwf m (by simp)).not_literal (by rw [hm]; decide)
    exact .neg m ts e hm hm'.2.1 hm'.2.2 (ih fun t ht => hwf t (by simp [ht]))
  | ident t ht =>
    have h := (hwf t (by simp)).2 (Or.inl ht)
    refine .ident t ht (fun h1 => h ?_) (fun h1 => h ?_) <;> rw [h1] <;> decide
  | factor ts e _ ih => exact .factor ts e (ih hwf)
  | mul o ts1 ts2 e1 e2 ho _ _ ih1 ih2 =>
    exact .mul o ts1 ts2 e1 e2 ho (hwf o (by simp)).1 (ih1 fun t ht => hwf t (by simp [ht]))
      (ih2 fun t ht => hwf t (by simp [ht]))
  | term ts e _ ih => exact .term ts e (ih hwf)
  | add o ts1 ts2 e1 e2 ho _ _ ih1 ih2 =>
    exact .add o ts1 ts2 e1 e2 ho (hwf o (by simp)).1 (ih1 fun t ht => hwf t (by simp [ht]))
      (ih2 fun t ht => hwf t (by simp [ht]))

/-- The statement rule follows a derivation of the right-hand side: on
`pre ++ x :: q :: ts ++ [eof]` with the cursor at the end of `pre`, it returns the
assignment tree and leaves the cursor on the end-of-input token. -/
theorem parseStmt_parses (pre ts : List Token) (x q eof : Token) (rhs : Expr)
    (hx : x.Typ = scanner.Ident) (hq : q.Val = "=") (hqE : q.Typ ≠ scanner.EOF)
    (heof : eof.Typ = scanner.EOF) (h : Parses .expression ts rhs) :
    Returns parseStmt (mk pre (x :: q :: (ts ++ [eof])))
      (.ok (.BinExprAST "=" (.NumExprAST x.Val scanner.Ident) rhs)
        (mk (pre ++ x :: q :: (ts ++ [eof])) [])) := by
  have h1 := complete h (pre ++ [x] ++ [q]) eof [] (fun _ => rfl) (fun h => absurd heof h)
  obtain ⟨N, hN⟩ := h1
  refine ⟨N, fun n hn => ?_⟩
  have hxE : x.Typ ≠ scanner.EOF := by rw [hx]; decide
  have e1 : pre ++ x :: q :: (ts ++ [eof]) = pre ++ [x] ++ [q] ++ ts ++ [eof] := by simp
  rw [parseStmt_eq, if_neg hxE, if_pos hx, if_neg hqE, if_pos hq, hN n hn, finishStmt_ok,
    if_neg (not_not.mpr heof), e1]

/-! ## Soundness: on a well-formed list the rules accept only derivations -/

theorem WFRest.of_append (mid : List Token) (eof : Token)
    (hwf : ∀ t ∈ mid, WellFormedToken t) (heof : eof.Typ = scanner.EOF) (htext : eof.Val = "") :
    WFRest (mid ++ [eof]) := by
  induction mid with
  | nil => exact ⟨heof, htext⟩
  | cons t mid ih =>
    have h1 := ih fun u hu => hwf u (by simp [hu])
    cases mid with
    | nil => exact ⟨hwf t (by simp), h1⟩
    | cons u mid => exact ⟨hwf t (by simp), h1⟩

theorem WFRest.exists_cons {post : List Token} (h : WFRest post) :
    ∃ p rest, post = p :: rest := by
  cases post with
  | nil => exact absurd h (by simp [WFRest])
  | cons p rest => exact ⟨p, rest, rfl⟩

theorem WFRest.tail {t : Token} {post : List Token} (h : WFRest (t :: post))
    (ht : t.Typ ≠ scanner.EOF) : WellFormedToken t ∧ WFRest post := by
  cases post with
  | nil => exact absurd h.1 ht
  | cons u rest => exact h

theorem WFRest.last {t : Token} {post : List Token} (h : WFRest (t :: post))
    (ht : t.Typ = scanner.EOF) : post = [] ∧ t.Val = "" := by
  cases post with
  | nil => exact ⟨rfl, h.2⟩
  | cons u rest => exact absurd ht h.1.1

theorem WFRest.text {t : Token} {post : List Token} (h : WFRest (t :: post))
    (ht : t.Val ≠ "") : t.Typ ≠ scanner.EOF :=
  fun h1 => ht (h.last h1).2

theorem combine_eq_ok {rule op : String} {lhs e : Expr} {r : Outcome} {s' : Interpreter}
    (h : combine rule op lhs r = .ok e s') :
    ∃ rhs, r = .ok rhs s' ∧ e = .BinExprAST op lhs rhs := by
  cases r with
  | ok rhs s =>
    simp only [combine, Outcome.ok.injEq] at h
    exact ⟨rhs, by rw [h.2], h.1.symm⟩
  | error err s => simp [combine] at h
  | panic => simp [combine] at h
  | timeout => simp [combine] at h

theorem operatorTail_eq_ok {sub o1 o2 self : String} {recur : Interpreter → Outcome}
    {r : Outcome} {e : Expr} {s' : Interpreter}
    (h : operatorTail sub o1 o2 self recur r = .ok e s') : ∃ lhs s1, r = .ok lhs s1 := by
  cases r with
  | ok lhs s1 => exact ⟨lhs, s1, rfl⟩
  | error err s => simp [operatorTail] at h
  | panic => simp [operatorTail] at h
  | timeout => simp [operatorTail] at h

theorem closeParen_eq_ok {r : Outcome} {e : Expr} {s' : Interpreter}
    (h : closeParen r = .ok e s') : ∃ expr s2, r = .ok expr s2 := by
  cases r with
  | ok expr s2 => exact ⟨expr, s2, rfl⟩
  | error err s => simp [closeParen] at h
  | panic => simp [closeParen] at h
  | timeout => simp [closeParen] at h

theorem negate_eq_ok {r : Outcome} {e : Expr} {s' : Interpreter}
    (h : negate r = .ok e s') : ∃ rhs, r = .ok rhs s' ∧ e = .UnaryExprAST "-" rhs := by
  cases r with
  | ok rhs s =>
    simp only [negate, Outcome.ok.injEq] at h
    exact ⟨rhs, by rw [h.2], h.1.symm⟩
  | error err s => simp [negate] at h
  | panic => simp [negate] at h
  | timeout => simp [negate] at h

theorem finishStmt_eq_ok {ident : String} {r : Outcome} {e : Expr} {s' : Interpreter}
    (h : finishStmt ident r = .ok e s') : ∃ rhs s3, r = .ok rhs s3 := by
  cases r with
  | ok rhs s3 => exact ⟨rhs, s3, rfl⟩
  | error err s => simp [finishStmt] at h
  | panic => simp [finishStmt] at h
  | timeout => simp [finishStmt] at h

theorem sound_factor (n : Nat) (ihF : SoundF n) (ihE : SoundE n) : SoundF (n + 1) := by
  intro pre post e s' hwf h
  obtain ⟨t, post0, rfl⟩ := hwf.exists_cons
  rw [parseFactor_succ] at h
  split at h
  · rename_i hI
    simp only [Outcome.ok.injEq] at h
    have hE : t.Typ ≠ scanner.EOF := by rw [hI]; decide
    exact ⟨[t], post0, rfl, h.1 ▸ .int t hI, (hwf.tail hE).2, h.2.symm⟩
  · rename_i hI
    split at h
    · rename_i hF
      simp only [Outcome.ok.injEq] at h
      have hE : t.Typ ≠ scanner.EOF := by rw [hF]; decide
      exact ⟨[t], post0, rfl, h.1 ▸ .float t hF, (hwf.tail hE).2, h.2.symm⟩
    · rename_i hF
      split at h
      · rename_i hl
        have hE : t.Typ ≠ scanner.EOF := hwf.text (by rw [hl]; decide)
        obtain ⟨expr, s2, h2⟩ := closeParen_eq_ok h
        obtain ⟨ts, post1, rfl, hP, hwf1, rfl⟩ := ihE (pre ++ [t]) post0 expr s2 (hwf.tail hE).2 h2
        obtain ⟨r, post2, rfl⟩ := hwf1.exists_cons
        rw [h2, closeParen_ok] at h
        split at h
        · simp at h
        · rename_i hr
          have hr : r.Val = ")" := not_not.mp hr
          have hrE : r.Typ ≠ scanner.EOF := hwf1.text (by rw [hr]; decide)
          simp only [Outcome.ok.injEq] at h
          refine ⟨t :: (ts ++ [r]), post2, by simp, h.1 ▸ .paren t r ts expr hl hr hI hF hrE hP,
            (hwf1.tail hrE).2, ?_⟩
          rw [← h.2]
          simp
      · rename_i hl
        split at h
        · rename_i hm
          have hE : t.Typ ≠ scanner.EOF := hwf.text (by rw [hm]; decide)
          obtain ⟨rhs, h2, rfl⟩ := negate_eq_ok h
          obtain ⟨ts, post1, rfl, hP, hwf1, rfl⟩ :=
            ihF (pre ++ [t]) post0 rhs s' (hwf.tail hE).2 h2
          exact ⟨t :: ts, post1, by simp, .neg t ts rhs hm hI hF hP, hwf1, by simp⟩
        · rename_i hm
          split at h
          · rename_i hId
            simp only [Outcome.ok.injEq] at h
            have hE : t.Typ ≠ scanner.EOF := by rw [hId]; decide
            exact ⟨[t], post0, rfl, h.1 ▸ .ident t hId hl hm, (hwf.tail hE).2, h.2.symm⟩
          · simp at h

theorem sound_term (n : Nat) (ihF : SoundF n) (ihT : SoundT n) : SoundT (n + 1) := by
  intro pre post e s' hwf h
  rw [parseTerm_succ] at h
  obtain ⟨lhs, s1, h1⟩ := operatorTail_eq_ok h
  obtain ⟨ts1, post1, rfl, hP1, hwf1, rfl⟩ := ihF pre post lhs s1 hwf h1
  obtain ⟨p, rest, rfl⟩ := hwf1.exists_cons
  rw [h1, operatorTail_ok_mk] at h
  split at h
  · rename_i hp
    simp only [Outcome.ok.injEq] at h
    obtain ⟨rfl, -⟩ := hwf1.last hp
    exact ⟨ts1, [p], rfl, h.1 ▸ .factor ts1 lhs hP1, hwf1, by rw [settle_eof _ _ hp, h.2]⟩
  · rename_i hp
    split at h
    · rename_i ho
      obtain ⟨rhs, h2, rfl⟩ := combine_eq_ok h
      obtain ⟨ts2, post2, rfl, hP2, hwf2, rfl⟩ :=
        ihT (pre ++ ts1 ++ [p]) rest rhs s' (hwf1.tail hp).2 h2
      exact ⟨ts1 ++ p :: ts2, post2, by simp, .mul p ts1 ts2 lhs rhs ho hp hP1 hP2, hwf2,
        by simp⟩
    · simp only [Outcome.ok.injEq] at h
      exact ⟨ts1, p :: rest, rfl, h.1 ▸ .factor ts1 lhs hP1, hwf1,
        by rw [settle_of_ne _ _ _ hp, h.2]⟩

theorem sound_expr (n : Nat) (ihT : SoundT n) (ihE : SoundE n) : SoundE (n + 1) := by
  intro pre post e s' hwf h
  rw [parseExpr_succ] at h
  obtain ⟨lhs, s1, h1⟩ := operatorTail_eq_ok h
  obtain ⟨ts1, post1, rfl, hP1, hwf1, rfl⟩ := ihT pre post lhs s1 hwf h1
  obtain ⟨p, rest, rfl⟩ := hwf1.exists_cons
  rw [h1, operatorTail_ok] at h
  split at h
  · rename_i hp
    simp only [Outcome.ok.injEq] at h
    obtain ⟨rfl, -⟩ := hwf1.last hp
    exact ⟨ts1, [p], rfl, h.1 ▸ .term ts1 lhs hP1, hwf1, by rw [settle_eof _ _ hp, h.2]⟩
  · rename_i hp
    split at h
    · rename_i ho
      obtain ⟨rhs, h2, rfl⟩ := combine_eq_ok h
      obtain ⟨ts2, post2, rfl, hP2, hwf2, rfl⟩ :=
        ihE (pre ++ ts1 ++ [p]) rest rhs s' (hwf1.tail hp).2 h2
      exact ⟨ts1 ++ p :: ts2, post2, by simp, .add p ts1 ts2 lhs rhs ho hp hP1 hP2, hwf2,
        by simp⟩
    · simp only [Outcome.ok.injEq] at h
      exact ⟨ts1, p :: rest, rfl, h.1 ▸ .term ts1 lhs hP1, hwf1,
        by rw [settle_of_ne _ _ _ hp, h.2]⟩

theorem sound (n : Nat) : SoundF n ∧ SoundT n ∧ SoundE n := by
  induction n with
  | zero =>
    refine ⟨?_, ?_, ?_⟩ <;> intro pre post e s' _ h
    · simp [parseFactor] at h
    · simp [parseTerm] at h
    · simp [parseExpr] at h
  | succ n ih =>
    exact ⟨sound_factor n ih.1 ih.2.2, sound_term n ih.1 ih.2.1, sound_expr n ih.2.1 ih.2.2⟩

/-- The statement rule accepts only statements: if it returns a tree on
`pre ++ x :: q :: ts ++ [eof]`, read from the end of `pre`, where `ts` is well formed,
then `x` is an identifier, `q` is `=` and `ts` has a derivation with the returned
right-hand side. -/
theorem rhs_of_accepts (n : Nat) (pre ts : List Token) (x q eof : Token) (e : Expr)
    (s' : Interpreter) (hwf : ∀ t ∈ ts, WellFormedToken t) (heof : eof.Typ = scanner.EOF)
    (htext : eof.Val = "") (h : parseStmt n (mk pre (x :: q :: (ts ++ [eof]))) = .ok e s') :
    ∃ rhs, x.Typ = scanner.Ident ∧ q.Val = "=" ∧ q.Typ ≠ scanner.EOF ∧
      Parses .expression ts rhs ∧
      e = .BinExprAST "=" (.NumExprAST x.Val scanner.Ident) rhs := by
  rw [parseStmt_eq] at h
  split at h
  · simp at h
  · split at h
    · rename_i hx
      split at h
      · simp at h
      · rename_i hqE
        split at h
        · rename_i hq
          obtain ⟨rhs, s3, h3⟩ := finishStmt_eq_ok h
          obtain ⟨ts1, post1, h4, hP, hwf1, rfl⟩ :=
            (sound n).2.2 (pre ++ [x] ++ [q]) (ts ++ [eof]) rhs s3
              (WFRest.of_append ts eof hwf heof htext) h3
          obtain ⟨p, rest, rfl⟩ := hwf1.exists_cons
          rw [h3, finishStmt_ok] at h
          split at h
          · simp at h
          · rename_i hp
            have hp : p.Typ = scanner.EOF := not_not.mp hp
            obtain ⟨rfl, -⟩ := hwf1.last hp
            simp only [Outcome.ok.injEq] at h
            have h5 : ts = ts1 := (List.append_inj' h4 rfl).1
            exact ⟨rhs, hx, hq, hqE, h5 ▸ hP, h.1.symm⟩
        · simp at h
    · simp at h

/-- The statement rule accepts only statements, for any well-formed list
`pre ++ mid ++ [eof]` read from the end of `pre`. -/
theorem parseStmt_sound (n : Nat) (pre mid : List Token) (eof : Token) (e : Expr)
    (s' : Interpreter) (hwf : ∀ t ∈ mid, WellFormedToken t) (heof : eof.Typ = scanner.EOF)
    (htext : eof.Val = "") (h : parseStmt n (mk pre (mid ++ [eof])) = .ok e s') :
    ∃ x q ts rhs, mid = x :: q :: ts ∧ x.Typ = scanner.Ident ∧ q.Val = "=" ∧
      q.Typ ≠ scanner.EOF ∧ Parses .expression ts rhs ∧
      e = .BinExprAST "=" (.NumExprAST x.Val scanner.Ident) rhs := by
  cases mid with
  | nil =>
    simp only [List.nil_append, parseStmt, scan_mk, heof, if_true] at h
    simp at h
  | cons x mid =>
    cases mid with
    | nil =>
      have e1 : [x] ++ [eof] = x :: eof :: [] := rfl
      rw [e1, parseStmt_eq] at h
      simp only [heof, if_true] at h
      split at h
      · simp at h
      · split at h <;> simp at h
    | cons q ts =>
      obtain ⟨rhs, h1⟩ := rhs_of_accepts n pre ts x q eof e s'
        (fun t ht => hwf t (by simp [ht])) heof htext h
      exact ⟨x, q, ts, rhs, rfl, h1⟩

/-- Acceptance from the start state: with the sentinel in front and an end-of-input
token behind, a statement whose right-hand side has a derivation of `Parses` is
accepted, and the cursor ends on the end-of-input token. -/
theorem accepts_of_parses (sentinel x q eof : Token) (ts : List Token) (rhs : Expr)
    (hx : x.Typ = scanner.Ident) (hq : q.Val = "=") (hqE : q.Typ ≠ scanner.EOF)
    (heof : eof.Typ = scanner.EOF) (h : Parses .expression ts rhs) :
    ∃ N, ∀ n, N ≤ n →
      parseStmt n ⟨sentinel :: x :: q :: (ts ++ [eof]), 0⟩
        = .ok (.BinExprAST "=" (.NumExprAST x.Val scanner.Ident) rhs)
            ⟨sentinel :: x :: q :: (ts ++ [eof]), (ts.length : Int) + 3⟩ := by
  obtain ⟨N, hN⟩ := parseStmt_parses [sentinel] ts x q eof rhs hx hq hqE heof h
  refine ⟨N, fun n hn => ?_⟩
  have e1 : (([sentinel] ++ x :: q :: (ts ++ [eof])).length : Int) - 1
      = (ts.length : Int) + 3 := by
    simp only [List.singleton_append, List.length_cons, List.length_append, List.length_nil]
    push_cast
    omega
  rw [start_eq_mk, hN n hn, mk_nil_eq, e1]
  rfl

/-- Acceptance seen from the grammar: a tree returned from the start state on a
well-formed list is the tree of a statement. -/
theorem statement_of_accepts (sentinel eof : Token) (mid : List Token) (n : Nat) (e : Expr)
    (s' : Interpreter) (hwf : ∀ t ∈ mid, WellFormedToken t) (heof : eof.Typ = scanner.EOF)
    (htext : eof.Val = "") (h : parseStmt n ⟨sentinel :: (mid ++ [eof]), 0⟩ = .ok e s') :
    Statement mid e := by
  rw [start_eq_mk] at h
  obtain ⟨x, q, ts, rhs, rfl, hx, hq, -, hP, rfl⟩ :=
    parseStmt_sound n [sentinel] mid eof e s' hwf heof htext h
  exact .assign x q ts rhs hx hq hP.derives

/-! ## Completeness and soundness of `parseStmt` -/

/-- C1: completeness of `parseStmt` with respect to the grammar.  On a well-formed
token list (a sentinel, then well-formed tokens `mid`, then one `EOF` token with empty
text) whose tokens `mid` form a statement of the grammar with tree `e`, `parseStmt`
started at cursor 0 returns, for every large enough recursion budget, no error and the
tree `e`, which is a `BinExprAST` with `Op` `"="` whose `LHS` is the `NumExprAST` of
the first token's text with type `Ident`; the cursor ends on the `EOF` token. -/
theorem parseStmt_complete (sentinel eof : Token) (mid : List Token) (e : Expr)
    (hwf : ∀ t ∈ mid, WellFormedToken t) (heof : eof.Typ = scanner.EOF) (htext : eof.Val = "")
    (h : Statement mid e) :
    (∃ x rhs, mid.head? = some x ∧
      e = .BinExprAST "=" (.NumExprAST x.Val scanner.Ident) rhs) ∧
    ∃ N, ∀ n, N ≤ n →
      parseStmt n ⟨sentinel :: (mid ++ [eof]), 0⟩
        = .ok e ⟨sentinel :: (mid ++ [eof]), (mid.length : Int) + 1⟩ := by
  have _ := htext
  cases h with
  | assign x q ts rhs hx hq hd =>
    refine ⟨⟨x, rhs, rfl, rfl⟩, ?_⟩
    have hP := hd.parses fun t ht => hwf t (by simp [ht])
    have e1 : (((x :: q :: ts).length : Nat) : Int) + 1 = (ts.length : Int) + 3 := by
      simp only [List.length_cons]
      push_cast
      omega
    rw [e1]
    exact accepts_of_parses sentinel x q eof ts rhs hx hq (hwf q (by simp)).1 heof hP

/-- Witness of C1 on the tokens of `A=2+3*4`. -/
theorem parseStmt_complete_witness :
    ∃ N, ∀ n, N ≤ n →
      parseStmt n ⟨[⟨0, "", 0⟩, ⟨2, "A", scanner.Ident⟩, ⟨3, "=", 61⟩, ⟨4, "2", scanner.Int⟩,
          ⟨5, "+", 43⟩, ⟨6, "3", scanner.Int⟩, ⟨7, "*", 42⟩, ⟨8, "4", scanner.Int⟩,
          ⟨8, "", scanner.EOF⟩], 0⟩
        = .ok (.BinExprAST "=" (.NumExprAST "A" scanner.Ident)
            (.BinExprAST "+" (.NumExprAST "2" scanner.Int)
              (.BinExprAST "*" (.NumExprAST "3" scanner.Int) (.NumExprAST "4" scanner.Int))))
          ⟨[⟨0, "", 0⟩, ⟨2, "A", scanner.Ident⟩, ⟨3, "=", 61⟩, ⟨4, "2", scanner.Int⟩,
            ⟨5, "+", 43⟩, ⟨6, "3", scanner.Int⟩, ⟨7, "*", 42⟩, ⟨8, "4", scanner.Int⟩,
            ⟨8, "", scanner.EOF⟩], 8⟩ :=
  (parseStmt_complete ⟨0, "", 0⟩ ⟨8, "", scanner.EOF⟩
    [⟨2, "A", scanner.Ident⟩, ⟨3, "=", 61⟩, ⟨4, "2", scanner.Int⟩, ⟨5, "+", 43⟩,
      ⟨6, "3", scanner.Int⟩, ⟨7, "*", 42⟩, ⟨8, "4", scanner.Int⟩]
    _ (by decide) rfl rfl
    (.assign ⟨2, "A", scanner.Ident⟩ ⟨3, "=", 61⟩ _ _ rfl rfl
      (.add ⟨5, "+", 43⟩ [⟨4, "2", scanner.Int⟩] _ _ _ (.inl rfl)
        (.factor _ _ (.int ⟨4, "2", scanner.Int⟩ rfl))
        (.term _ _ (.mul ⟨7, "*", 42⟩ [⟨6, "3", scanner.Int⟩] _ _ _ (.inl rfl)
          (.int ⟨6, "3", scanner.Int⟩ rfl)
          (.factor _ _ (.int ⟨8, "4", scanner.Int⟩ rfl))))))).2

/-- C2: soundness of `parseStmt` with respect to the grammar.  On a well-formed token
list (a sentinel, then well-formed tokens `mid`, then one `EOF` token with empty text),
if `parseStmt` started at cursor 0 returns a tree, with whatever recursion budget, then
`mid` is a statement of the grammar and the returned tree is the tree of its
derivation: a literal token gives `NumExprAST` with its text and kind, `"-" factor`
gives `UnaryExprAST`, an operator gives `BinExprAST` of the left and right part, a
parenthesis gives the tree of the inner expression, and the statement gives
`BinExprAST "="` of the identifier and the expression. -/
theorem parseStmt_sound_grammar (sentinel eof : Token) (mid : List Token) (n : Nat)
    (e : Expr) (s' : Interpreter) (hwf : ∀ t ∈ mid, WellFormedToken t)
    (heof : eof.Typ = scanner.EOF) (htext : eof.Val = "")
    (h : parseStmt n ⟨sentinel :: (mid ++ [eof]), 0⟩ = .ok e s') :
    Statement mid e :=
  statement_of_accepts sentinel eof mid n e s' hwf heof htext h

/-- Witness of C2 on the tokens of `B=(8/10)+A`. -/
theorem parseStmt_sound_grammar_witness :
    Statement [⟨2, "B", scanner.Ident⟩, ⟨3, "=", 61⟩, ⟨4, "(", 40⟩, ⟨5, "8", scanner.Int⟩,
        ⟨6, "/", 47⟩, ⟨8, "10", scanner.Int⟩, ⟨9, ")", 41⟩, ⟨10, "+", 43⟩,
        ⟨11, "A", scanner.Ident⟩]
      (.BinExprAST "=" (.NumExprAST "B" scanner.Ident)
        (.BinExprAST "+"
          (.BinExprAST "/" (.NumExprAST "8" scanner.Int) (.NumExprAST "10" scanner.Int))
          (.NumExprAST "A" scanner.Ident))) :=
  parseStmt_sound_grammar ⟨0, "", 0⟩ ⟨11, "", scanner.EOF⟩
    [⟨2, "B", scanner.Ident⟩, ⟨3, "=", 61⟩, ⟨4, "(", 40⟩, ⟨5, "8", scanner.Int⟩,
      ⟨6, "/", 47⟩, ⟨8, "10", scanner.Int⟩, ⟨9, ")", 41⟩, ⟨10, "+", 43⟩,
      ⟨11, "A", scanner.Ident⟩]
    12 _ _ (by decide) rfl rfl rfl

/-! ## Shapes of trees: chains, precedence, parentheses, unary minus -/

theorem PlainLiteral.of_wellFormed {t : Token} (h : isLiteral t ∧ ¬ isOpText t.Val) :
    PlainLiteral t := by
  refine ⟨h.1, fun _ => ⟨fun h1 => h.2 ?_, fun h1 => h.2 ?_⟩⟩ <;> rw [h1] <;> decide

theorem leaf_parses {t : Token} (h : PlainLiteral t) : Parses .factor [t] (leaf t) := by
  obtain ⟨h1 | h1 | h1, h2⟩ := h
  · have := Parses.ident t h1 (h2 h1).1 (h2 h1).2
    rwa [← h1] at this
  · have := Parses.int t h1
    rwa [← h1] at this
  · have := Parses.float t h1
    rwa [← h1] at this

theorem chain_parses_add (l : Token) (ps : List (Token × Token)) (hl : PlainLiteral l)
    (hls : ∀ p ∈ ps, PlainLiteral p.2) (hoE : ∀ p ∈ ps, p.1.Typ ≠ scanner.EOF)
    (hops : ∀ p ∈ ps, p.1.Val = "+" ∨ p.1.Val = "-") :
    Parses .expression (chainTokens l ps) (chainTree l ps) := by
  induction ps generalizing l with
  | nil => exact .term _ _ (.factor _ _ (leaf_parses hl))
  | cons p ps ih =>
    obtain ⟨o, l'⟩ := p
    have h2 := ih l' (hls (o, l') (by simp)) (fun p hp => hls p (by simp [hp]))
      (fun p hp => hoE p (by simp [hp])) (fun p hp => hops p (by simp [hp]))
    exact .add o [l] (chainTokens l' ps) (leaf l) (chainTree l' ps) (hops (o, l') (by simp))
      (hoE (o, l') (by simp)) (.factor _ _ (leaf_parses hl)) h2

theorem chain_parses_mul (l : Token) (ps : List (Token × Token)) (hl : PlainLiteral l)
    (hls : ∀ p ∈ ps, PlainLiteral p.2) (hoE : ∀ p ∈ ps, p.1.Typ ≠ scanner.EOF)
    (hops : ∀ p ∈ ps, p.1.Val = "*" ∨ p.1.Val = "/") :
    Parses .term (chainTokens l ps) (chainTree l ps) := by
  induction ps generalizing l with
  | nil => exact .factor _ _ (leaf_parses hl)
  | cons p ps ih =>
    obtain ⟨o, l'⟩ := p
    have h2 := ih l' (hls (o, l') (by simp)) (fun p hp => hls p (by simp [hp]))
      (fun p hp => hoE p (by simp [hp])) (fun p hp => hops p (by simp [hp]))
    exact .mul o [l] (chainTokens l' ps) (leaf l) (chainTree l' ps) (hops (o, l') (by simp))
      (hoE (o, l') (by simp)) (leaf_parses hl) h2

theorem negations_parses (ms : List Token) (c : Token)
    (hms : ∀ m ∈ ms, m.Val = "-" ∧ m.Typ ≠ scanner.Int ∧ m.Typ ≠ scanner.Float)
    (hc : PlainLiteral c) : Parses .factor (ms ++ [c]) (negations ms.length (leaf c)) := by
  induction ms with
  | nil => exact leaf_parses hc
  | cons m ms ih =>
    obtain ⟨hm, hmI, hmF⟩ := hms m (by simp)
    exact .neg m (ms ++ [c]) _ hm hmI hmF (ih fun m' hm' => hms m' (by simp [hm']))

/-- An error of `parseStmt` for one budget excludes a tree for every budget. -/
theorem never_ok_of_error {k : Nat} {s s1 : Interpreter} {err : GoError}
    (h : parseStmt k s = .error err s1) (n : Nat) (e : Expr) (s' : Interpreter) :
    parseStmt n s ≠ .ok e s' := by
  intro h2
  have h3 := parseStmt_mono h (by simp) (le_max_left k n)
  have h4 := parseStmt_mono h2 (by simp) (le_max_right k n)
  rw [h3] at h4
  simp at h4

/-- C3: right-associativity of operator chains.  For literal tokens `l1 .. ln` (kind
`Int`, `Float` or `Ident`, text none of `= + - * / ( )`) and operator tokens
`o1 .. o(n-1)` (kind not `EOF`) that are all additive or all multiplicative,
`parseStmt` on `X = l1 o1 l2 ... ln` followed by the `EOF` token succeeds, for every
large enough recursion budget, with the right-hand side
`BinExprAST{o1, l1, BinExprAST{o2, l2, ...}}`.  The chain is given by `l1` and the
pairs `(oi, l(i+1))`; `n ≥ 2` is a non-empty list of pairs. -/
theorem chain_right_assoc (sentinel x q eof l1 : Token) (ps : List (Token × Token))
    (hx : x.Typ = scanner.Ident) (hq : q.Val = "=") (hqE : q.Typ ≠ scanner.EOF)
    (heof : eof.Typ = scanner.EOF)
    (hl1 : isLiteral l1 ∧ ¬ isOpText l1.Val)
    (hls : ∀ p ∈ ps, isLiteral p.2 ∧ ¬ isOpText p.2.Val)
    (hoE : ∀ p ∈ ps, p.1.Typ ≠ scanner.EOF)
    (hops : (∀ p ∈ ps, p.1.Val = "+" ∨ p.1.Val = "-")
      ∨ (∀ p ∈ ps, p.1.Val = "*" ∨ p.1.Val = "/")) :
    ∃ N, ∀ n, N ≤ n →
      parseStmt n ⟨sentinel :: x :: q :: (chainTokens l1 ps ++ [eof]), 0⟩
        = .ok (.BinExprAST "=" (.NumExprAST x.Val scanner.Ident) (chainTree l1 ps))
            ⟨sentinel :: x :: q :: (chainTokens l1 ps ++ [eof]),
              ((chainTokens l1 ps).length : Int) + 3⟩ := by
  have hl1' := PlainLiteral.of_wellFormed hl1
  have hls' : ∀ p ∈ ps, PlainLiteral p.2 := fun p hp => .of_wellFormed (hls p hp)
  rcases hops with hops | hops
  · exact accepts_of_parses sentinel x q eof _ _ hx hq hqE heof
      (chain_parses_add l1 ps hl1' hls' hoE hops)
  · exact accepts_of_parses sentinel x q eof _ _ hx hq hqE heof
      (.term _ _ (chain_parses_mul l1 ps hl1' hls' hoE hops))

/-- Witness of C3: `A=10-3-2` yields the tree of `10-(3-2)`. -/
theorem chain_right_assoc_witness :
    ∃ N, ∀ n, N ≤ n →
      parseStmt n ⟨[⟨0, "", 0⟩, ⟨2, "A", scanner.Ident⟩, ⟨3, "=", 61⟩, ⟨5, "10", scanner.Int⟩,
          ⟨6, "-", 45⟩, ⟨7, "3", scanner.Int⟩, ⟨8, "-", 45⟩, ⟨9, "2", scanner.Int⟩,
          ⟨9, "", scanner.EOF⟩], 0⟩
        = .ok (.BinExprAST "=" (.NumExprAST "A" scanner.Ident)
            (.BinExprAST "-" (.NumExprAST "10" scanner.Int)
              (.BinExprAST "-" (.NumExprAST "3" scanner.Int) (.NumExprAST "2" scanner.Int))))
          ⟨[⟨0, "", 0⟩, ⟨2, "A", scanner.Ident⟩, ⟨3, "=", 61⟩, ⟨5, "10", scanner.Int⟩,
            ⟨6, "-", 45⟩, ⟨7, "3", scanner.Int⟩, ⟨8, "-", 45⟩, ⟨9, "2", scanner.Int⟩,
            ⟨9, "", scanner.EOF⟩], 8⟩ :=
  chain_right_assoc ⟨0, "", 0⟩ ⟨2, "A", scanner.Ident⟩ ⟨3, "=", 61⟩ ⟨9, "", scanner.EOF⟩
    ⟨5, "10", scanner.Int⟩
    [(⟨6, "-", 45⟩, ⟨7, "3", scanner.Int⟩), (⟨8, "-", 45⟩, ⟨9, "2", scanner.Int⟩)]
    rfl rfl (by decide) rfl (by decide) (by decide) (by decide) (.inl (by decide))

/-- C4, as amended: precedence of multiplicative over additive operators.  For literal
tokens `a`, `b`, `c` (kind `Int`, `Float` or `Ident`; a literal of kind `Ident` has a
text other than `(` and `-`), an additive operator token `p`, a multiplicative
operator token `m` (kinds not `EOF`) and an `Ident` token `x`: `parseStmt` on
`x = a p b m c` succeeds with right-hand side `BinExprAST{p, a, BinExprAST{m, b, c}}`,
and on `x = a m b p c` with right-hand side `BinExprAST{p, BinExprAST{m, a, b}, c}`. -/
theorem precedence_mul_over_add (sentinel x q eof a b c p m : Token)
    (hx : x.Typ = scanner.Ident) (hq : q.Val = "=") (hqE : q.Typ ≠ scanner.EOF)
    (heof : eof.Typ = scanner.EOF)
    (ha : PlainLiteral a) (hb : PlainLiteral b) (hc : PlainLiteral c)
    (hp : p.Val = "+" ∨ p.Val = "-") (hpE : p.Typ ≠ scanner.EOF)
    (hm : m.Val = "*" ∨ m.Val = "/") (hmE : m.Typ ≠ scanner.EOF) :
    (∃ N, ∀ n, N ≤ n →
      parseStmt n ⟨[sentinel, x, q, a, p, b, m, c, eof], 0⟩
        = .ok (.BinExprAST "=" (.NumExprAST x.Val scanner.Ident)
            (.BinExprAST p.Val (leaf a) (.BinExprAST m.Val (leaf b) (leaf c))))
          ⟨[sentinel, x, q, a, p, b, m, c, eof], 8⟩) ∧
    (∃ N, ∀ n, N ≤ n →
      parseStmt n ⟨[sentinel, x, q, a, m, b, p, c, eof], 0⟩
        = .ok (.BinExprAST "=" (.NumExprAST x.Val scanner.Ident)
            (.BinExprAST p.Val (.BinExprAST m.Val (leaf a) (leaf b)) (leaf c)))
          ⟨[sentinel, x, q, a, m, b, p, c, eof], 8⟩) := by
  constructor
  · exact accepts_of_parses sentinel x q eof [a, p, b, m, c] _ hx hq hqE heof
      (.add p [a] [b, m, c] _ _ hp hpE (.factor _ _ (leaf_parses ha))
        (.term _ _ (.mul m [b] [c] _ _ hm hmE (leaf_parses hb) (.factor _ _ (leaf_parses hc)))))
  · exact accepts_of_parses sentinel x q eof [a, m, b, p, c] _ hx hq hqE heof
      (.add p [a, m, b] [c] _ _ hp hpE
        (.mul m [a] [b] _ _ hm hmE (leaf_parses ha) (.factor _ _ (leaf_parses hb)))
        (.term _ _ (.factor _ _ (leaf_parses hc))))

/-- Witness of C4, as amended: `A=2+3*4` has `3*4` as the right operand beneath `+`, and
`A=2*3+4` has `2*3` as the left operand. -/
theorem precedence_mul_over_add_witness :
    (∃ N, ∀ n, N ≤ n →
      parseStmt n ⟨[⟨0, "", 0⟩, ⟨2, "A", scanner.Ident⟩, ⟨3, "=", 61⟩, ⟨4, "2", scanner.Int⟩,
          ⟨5, "+", 43⟩, ⟨6, "3", scanner.Int⟩, ⟨7, "*", 42⟩, ⟨8, "4", scanner.Int⟩,
          ⟨8, "", scanner.EOF⟩], 0⟩
        = .ok (.BinExprAST "=" (.NumExprAST "A" scanner.Ident)
            (.BinExprAST "+" (.NumExprAST "2" scanner.Int)
              (.BinExprAST "*" (.NumExprAST "3" scanner.Int) (.NumExprAST "4" scanner.Int))))
          ⟨[⟨0, "", 0⟩, ⟨2, "A", scanner.Ident⟩, ⟨3, "=", 61⟩, ⟨4, "2", scanner.Int⟩,
            ⟨5, "+", 43⟩, ⟨6, "3", scanner.Int⟩, ⟨7, "*", 42⟩, ⟨8, "4", scanner.Int⟩,
            ⟨8, "", scanner.EOF⟩], 8⟩) ∧
    (∃ N, ∀ n, N ≤ n →
      parseStmt n ⟨[⟨0, "", 0⟩, ⟨2, "A", scanner.Ident⟩, ⟨3, "=", 61⟩, ⟨4, "2", scanner.Int⟩,
          ⟨7, "*", 42⟩, ⟨6, "3", scanner.Int⟩, ⟨5, "+", 43⟩, ⟨8, "4", scanner.Int⟩,
          ⟨8, "", scanner.EOF⟩], 0⟩
        = .ok (.BinExprAST "=" (.NumExprAST "A" scanner.Ident)
            (.BinExprAST "+"
              (.BinExprAST "*" (.NumExprAST "2" scanner.Int) (.NumExprAST "3" scanner.Int))
              (.NumExprAST "4" scanner.Int)))
          ⟨[⟨0, "", 0⟩, ⟨2, "A", scanner.Ident⟩, ⟨3, "=", 61⟩, ⟨4, "2", scanner.Int⟩,
            ⟨7, "*", 42⟩, ⟨6, "3", scanner.Int⟩, ⟨5, "+", 43⟩, ⟨8, "4", scanner.Int⟩,
            ⟨8, "", scanner.EOF⟩], 8⟩) :=
  precedence_mul_over_add ⟨0, "", 0⟩ ⟨2, "A", scanner.Ident⟩ ⟨3, "=", 61⟩ ⟨8, "", scanner.EOF⟩
    ⟨4, "2", scanner.Int⟩ ⟨6, "3", scanner.Int⟩ ⟨8, "4", scanner.Int⟩ ⟨5, "+", 43⟩ ⟨7, "*", 42⟩
    rfl rfl (by decide) rfl (by decide) (by decide) (by decide) (.inl rfl) (by decide)
    (.inl rfl) (by decide)

/-- Counterexample to C4 as stated: the token of kind `Ident` with text `-` is a
literal token by its kind, and with it as `a` in `A = a + 3 * 4` no recursion budget
makes `parseStmt` return a tree (`parseFactor` reads `a` as a unary minus). -/
theorem precedence_counterexample :
    isLiteral ⟨4, "-", scanner.Ident⟩ ∧
    ∀ n e s',
      parseStmt n ⟨[⟨0, "", 0⟩, ⟨2, "A", scanner.Ident⟩, ⟨3, "=", 61⟩,
          ⟨4, "-", scanner.Ident⟩, ⟨5, "+", 43⟩, ⟨6, "3", scanner.Int⟩, ⟨7, "*", 42⟩,
          ⟨8, "4", scanner.Int⟩, ⟨8, "", scanner.EOF⟩], 0⟩ ≠ .ok e s' :=
  ⟨by decide, @never_ok_of_error 12 _ _ _ rfl⟩

/-- C5, as amended: a parenthesised sub-expression becomes, as a whole, one operand.
For a well-formed token sequence `ts` such that `parseStmt` accepts `x = ts` with
right-hand side `e`, tokens `lp` with text `(` (kind not `Int` or `Float`) and `rp` with
text `)` (kind not `EOF`), an operator token `o` with text `+`, `-`, `*` or `/` (kind
not `EOF`) and a literal token `c` (kind `Int`, `Float` or `Ident`; if the kind is
`Ident` the text is neither `(` nor `-`), `parseStmt` on `x = ( ts ) o c` succeeds with
right-hand side `BinExprAST{o, e, c}`. -/
theorem paren_operand (sentinel x q eof lp rp o c : Token) (ts : List Token) (e : Expr)
    (n0 : Nat) (s0 : Interpreter)
    (hwf : ∀ t ∈ ts, WellFormedToken t) (heof : eof.Typ = scanner.EOF) (htext : eof.Val = "")
    (hacc : parseStmt n0 ⟨sentinel :: x :: q :: (ts ++ [eof]), 0⟩
      = .ok (.BinExprAST "=" (.NumExprAST x.Val scanner.Ident) e) s0)
    (hlp : lp.Val = "(" ∧ lp.Typ ≠ scanner.Int ∧ lp.Typ ≠ scanner.Float)
    (hrp : rp.Val = ")" ∧ rp.Typ ≠ scanner.EOF)
    (ho : o.Val = "+" ∨ o.Val = "-" ∨ o.Val = "*" ∨ o.Val = "/") (hoE : o.Typ ≠ scanner.EOF)
    (hc : PlainLiteral c) :
    ∃ N, ∀ n, N ≤ n →
      parseStmt n ⟨sentinel :: x :: q :: (lp :: (ts ++ [rp]) ++ [o, c] ++ [eof]), 0⟩
        = .ok (.BinExprAST "=" (.NumExprAST x.Val scanner.Ident)
            (.BinExprAST o.Val e (leaf c)))
          ⟨sentinel :: x :: q :: (lp :: (ts ++ [rp]) ++ [o, c] ++ [eof]),
            ((lp :: (ts ++ [rp]) ++ [o, c]).length : Int) + 3⟩ := by
  rw [start_eq_mk] at hacc
  obtain ⟨rhs, hx, hq, hqE, hP, he⟩ := rhs_of_accepts n0 [sentinel] ts x q eof _ s0 hwf heof
    htext hacc
  simp only [Expr.BinExprAST.injEq, true_and] at he
  subst he
  have hF : Parses .factor (lp :: (ts ++ [rp])) e :=
    .paren lp rp ts e hlp.1 hrp.1 hlp.2.1 hlp.2.2 hrp.2 hP
  have hC : Parses .factor [c] (leaf c) := leaf_parses hc
  rcases ho with ho | ho | ho | ho
  · exact accepts_of_parses sentinel x q eof _ _ hx hq hqE heof
      (.add o _ [c] _ _ (.inl ho) hoE (.factor _ _ hF) (.term _ _ (.factor _ _ hC)))
  · exact accepts_of_parses sentinel x q eof _ _ hx hq hqE heof
      (.add o _ [c] _ _ (.inr ho) hoE (.factor _ _ hF) (.term _ _ (.factor _ _ hC)))
  · exact accepts_of_parses sentinel x q eof _ _ hx hq hqE heof
      (.term _ _ (.mul o _ [c] _ _ (.inl ho) hoE hF (.factor _ _ hC)))
  · exact accepts_of_parses sentinel x q eof _ _ hx hq hqE heof
      (.term _ _ (.mul o _ [c] _ _ (.inr ho) hoE hF (.factor _ _ hC)))

/-- Witness of C5, as amended: `A=(8/10)+9` has the division as the left operand of
`+`. -/
theorem paren_operand_witness :
    ∃ N, ∀ n, N ≤ n →
      parseStmt n ⟨[⟨0, "", 0⟩, ⟨2, "A", scanner.Ident⟩, ⟨3, "=", 61⟩, ⟨4, "(", 40⟩,
          ⟨5, "8", scanner.Int⟩, ⟨6, "/", 47⟩, ⟨8, "10", scanner.Int⟩, ⟨9, ")", 41⟩,
          ⟨10, "+", 43⟩, ⟨11, "9", scanner.Int⟩, ⟨11, "", scanner.EOF⟩], 0⟩
        = .ok (.BinExprAST "=" (.NumExprAST "A" scanner.Ident)
            (.BinExprAST "+"
              (.BinExprAST "/" (.NumExprAST "8" scanner.Int) (.NumExprAST "10" scanner.Int))
              (.NumExprAST "9" scanner.Int)))
          ⟨[⟨0, "", 0⟩, ⟨2, "A", scanner.Ident⟩, ⟨3, "=", 61⟩, ⟨4, "(", 40⟩,
            ⟨5, "8", scanner.Int⟩, ⟨6, "/", 47⟩, ⟨8, "10", scanner.Int⟩, ⟨9, ")", 41⟩,
            ⟨10, "+", 43⟩, ⟨11, "9", scanner.Int⟩, ⟨11, "", scanner.EOF⟩], 10⟩ :=
  paren_operand ⟨0, "", 0⟩ ⟨2, "A", scanner.Ident⟩ ⟨3, "=", 61⟩ ⟨11, "", scanner.EOF⟩
    ⟨4, "(", 40⟩ ⟨9, ")", 41⟩ ⟨10, "+", 43⟩ ⟨11, "9", scanner.Int⟩
    [⟨5, "8", scanner.Int⟩, ⟨6, "/", 47⟩, ⟨8, "10", scanner.Int⟩]
    (.BinExprAST "/" (.NumExprAST "8" scanner.Int) (.NumExprAST "10" scanner.Int))
    8 _ (by decide) rfl rfl rfl (by decide) (by decide) (.inl rfl) (by decide) (by decide)

/-- Counterexample to C5 as stated: `parseStmt` accepts `A = 8` with right-hand side
`8`, the token of kind `Ident` with text `-` is a literal token by its kind, and with it
as `c` in `A = ( 8 ) + c` no recursion budget makes `parseStmt` return a tree. -/
theorem paren_operand_counterexample :
    (∃ s0, parseStmt 8 ⟨[⟨0, "", 0⟩, ⟨2, "A", scanner.Ident⟩, ⟨3, "=", 61⟩,
        ⟨4, "8", scanner.Int⟩, ⟨4, "", scanner.EOF⟩], 0⟩
      = .ok (.BinExprAST "=" (.NumExprAST "A" scanner.Ident) (.NumExprAST "8" scanner.Int))
          s0) ∧
    isLiteral ⟨8, "-", scanner.Ident⟩ ∧
    ∀ n e s',
      parseStmt n ⟨[⟨0, "", 0⟩, ⟨2, "A", scanner.Ident⟩, ⟨3, "=", 61⟩, ⟨4, "(", 40⟩,
          ⟨5, "8", scanner.Int⟩, ⟨6, ")", 41⟩, ⟨7, "+", 43⟩, ⟨8, "-", scanner.Ident⟩,
          ⟨8, "", scanner.EOF⟩], 0⟩ ≠ .ok e s' :=
  ⟨⟨_, rfl⟩, by decide, @never_ok_of_error 12 _ _ _ rfl⟩

/-- C6, as amended: unary minus chains nest.  For tokens `ms` with text `-` (kind not
`Int` or `Float`), a literal token `c` (kind `Int`, `Float` or `Ident`; if the kind is
`Ident` the text is neither `(` nor `-`) and an `Ident` token `x`, `parseStmt` on `x =`
followed by `ms`, `c` and the `EOF` token succeeds, and its right-hand side is the leaf
of `c` below exactly as many `UnaryExprAST` nodes with `Op` `"-"` as `ms` has tokens. -/
theorem unary_chain (sentinel x q eof c : Token) (ms : List Token)
    (hx : x.Typ = scanner.Ident) (hq : q.Val = "=") (hqE : q.Typ ≠ scanner.EOF)
    (heof : eof.Typ = scanner.EOF)
    (hms : ∀ m ∈ ms, m.Val = "-" ∧ m.Typ ≠ scanner.Int ∧ m.Typ ≠ scanner.Float)
    (hc : PlainLiteral c) :
    ∃ N, ∀ n, N ≤ n →
      parseStmt n ⟨sentinel :: x :: q :: (ms ++ [c] ++ [eof]), 0⟩
        = .ok (.BinExprAST "=" (.NumExprAST x.Val scanner.Ident)
            (negations ms.length (leaf c)))
          ⟨sentinel :: x :: q :: (ms ++ [c] ++ [eof]), ((ms ++ [c]).length : Int) + 3⟩ :=
  accepts_of_parses sentinel x q eof _ _ hx hq hqE heof
    (.term _ _ (.factor _ _ (negations_parses ms c hms hc)))

/-- Witness of C6, as amended: `A=--5` gives
`UnaryExprAST{"-", UnaryExprAST{"-", NumExprAST{"5", Int}}}`. -/
theorem unary_chain_witness :
    ∃ N, ∀ n, N ≤ n →
      parseStmt n ⟨[⟨0, "", 0⟩, ⟨2, "A", scanner.Ident⟩, ⟨3, "=", 61⟩, ⟨4, "-", 45⟩,
          ⟨5, "-", 45⟩, ⟨6, "5", scanner.Int⟩, ⟨6, "", scanner.EOF⟩], 0⟩
        = .ok (.BinExprAST "=" (.NumExprAST "A" scanner.Ident)
            (.UnaryExprAST "-" (.UnaryExprAST "-" (.NumExprAST "5" scanner.Int))))
          ⟨[⟨0, "", 0⟩, ⟨2, "A", scanner.Ident⟩, ⟨3, "=", 61⟩, ⟨4, "-", 45⟩,
            ⟨5, "-", 45⟩, ⟨6, "5", scanner.Int⟩, ⟨6, "", scanner.EOF⟩], 6⟩ :=
  unary_chain ⟨0, "", 0⟩ ⟨2, "A", scanner.Ident⟩ ⟨3, "=", 61⟩ ⟨6, "", scanner.EOF⟩
    ⟨6, "5", scanner.Int⟩ [⟨4, "-", 45⟩, ⟨5, "-", 45⟩]
    rfl rfl (by decide) rfl (by decide) (by decide)

/-- Counterexample to C6 as stated, on two inputs.  The token of kind `Ident` with text
`-` is a literal token by its kind, and with it as `c` in `A = - c` no recursion budget
makes `parseStmt` return a tree.  The token of kind `Int` with text `-` is a token with
text `-`, and with it as the minus sign in `A = - 5` no recursion budget makes
`parseStmt` return a tree either. -/
theorem unary_chain_counterexample :
    (isLiteral ⟨5, "-", scanner.Ident⟩ ∧
      ∀ n e s',
        parseStmt n ⟨[⟨0, "", 0⟩, ⟨2, "A", scanner.Ident⟩, ⟨3, "=", 61⟩, ⟨4, "-", 45⟩,
            ⟨5, "-", scanner.Ident⟩, ⟨5, "", scanner.EOF⟩], 0⟩ ≠ .ok e s') ∧
    ((⟨4, "-", scanner.Int⟩ : Token).Val = "-" ∧
      ∀ n e s',
        parseStmt n ⟨[⟨0, "", 0⟩, ⟨2, "A", scanner.Ident⟩, ⟨3, "=", 61⟩,
            ⟨4, "-", scanner.Int⟩, ⟨5, "5", scanner.Int⟩, ⟨5, "", scanner.EOF⟩], 0⟩
          ≠ .ok e s') :=
  ⟨⟨by decide, @never_ok_of_error 12 _ _ _ rfl⟩, ⟨rfl, @never_ok_of_error 12 _ _ _ rfl⟩⟩

/-! ## Errors: trailing tokens, dangling operators, a missing `=` -/

/-- After a complete right-hand side, a token that is neither `EOF` nor an arithmetic
operator is reported by `parseStmt`, whatever follows it. -/
theorem parseStmt_trailing (pre ts rest : List Token) (x q t : Token) (rhs : Expr)
    (hx : x.Typ = scanner.Ident) (hq : q.Val = "=") (hqE : q.Typ ≠ scanner.EOF)
    (h : Parses .expression ts rhs) (htE : t.Typ ≠ scanner.EOF)
    (ht : t.Val ≠ "*" ∧ t.Val ≠ "/" ∧ t.Val ≠ "+" ∧ t.Val ≠ "-") :
    Returns parseStmt (mk pre (x :: q :: (ts ++ t :: rest)))
      (.error (errNext t.Val) (mk (pre ++ x :: q :: (ts ++ [t])) rest)) := by
  obtain ⟨N, hN⟩ := complete h (pre ++ [x] ++ [q]) t rest (fun h => absurd h htE) (fun _ => ht)
  refine ⟨N, fun n hn => ?_⟩
  have hxE : x.Typ ≠ scanner.EOF := by rw [hx]; decide
  have e1 : pre ++ x :: q :: (ts ++ [t]) = pre ++ [x] ++ [q] ++ ts ++ [t] := by simp
  rw [parseStmt_eq, if_neg hxE, if_pos hx, if_neg hqE, if_pos hq, hN n hn, finishStmt_ok,
    if_pos htE, e1]

theorem FailsAt.factor_eof (pre rest : List Token) (eof : Token)
    (heof : eof.Typ = scanner.EOF) (htext : eof.Val = "") :
    FailsAt (errNeedFactor eof.Pos "") parseFactor (mk pre (eof :: rest)) := by
  refine ⟨errNeedFactor eof.Pos "", mk (pre ++ [eof]) rest, rfl, Returns.of_succ fun n => ?_⟩
  have h1 : eof.Typ ≠ scanner.Int := by rw [heof]; decide
  have h2 : eof.Typ ≠ scanner.Float := by rw [heof]; decide
  have h3 : eof.Typ ≠ scanner.Ident := by rw [heof]; decide
  have h4 : eof.Val ≠ "(" := by rw [htext]; decide
  have h5 : eof.Val ≠ "-" := by rw [htext]; decide
  rw [parseFactor_succ, if_neg h1, if_neg h2, if_neg h4, if_neg h5, if_neg h3, htext]

theorem FailsAt.term_of_factor {inner : GoError} {s : Interpreter}
    (h : FailsAt inner parseFactor s) : FailsAt inner parseTerm s := by
  obtain ⟨err, s', hin, hR⟩ := h
  refine ⟨wrapErr "parseFactor" err, s', hin, Returns.step hR fun n hn => ?_⟩
  rw [parseTerm_succ, hn, operatorTail]

theorem FailsAt.expr_of_term {inner : GoError} {s : Interpreter}
    (h : FailsAt inner parseTerm s) : FailsAt inner parseExpr s := by
  obtain ⟨err, s', hin, hR⟩ := h
  refine ⟨wrapErr "parseTerm" err, s', hin, Returns.step hR fun n hn => ?_⟩
  rw [parseExpr_succ, hn, operatorTail]

theorem FailsAt.term_after {inner : GoError} {s : Interpreter} {lhs : Expr}
    {pre post : List Token} {t : Token}
    (h1 : Returns parseFactor s (.ok lhs (mk pre (t :: post)))) (htE : t.Typ ≠ scanner.EOF)
    (ht : t.Val = "*" ∨ t.Val = "/") (h2 : FailsAt inner parseTerm (mk (pre ++ [t]) post)) :
    FailsAt inner parseTerm s := by
  obtain ⟨err, s', hin, hR⟩ := h2
  refine ⟨wrapErr "parseTerm" err, s', hin, Returns.step2 h1 hR fun n hn1 hn2 => ?_⟩
  rw [parseTerm_succ, hn1, operatorTail_ok_mk, if_neg htE, if_pos ht, hn2, combine]

theorem FailsAt.expr_after {inner : GoError} {s : Interpreter} {lhs : Expr}
    {pre post : List Token} {t : Token}
    (h1 : Returns parseTerm s (.ok lhs (settle pre (t :: post)))) (htE : t.Typ ≠ scanner.EOF)
    (ht : t.Val = "+" ∨ t.Val = "-") (h2 : FailsAt inner parseExpr (mk (pre ++ [t]) post)) :
    FailsAt inner parseExpr s := by
  obtain ⟨err, s', hin, hR⟩ := h2
  refine ⟨wrapErr "parseExpr" err, s', hin, Returns.step2 h1 hR fun n hn1 hn2 => ?_⟩
  rw [parseExpr_succ, hn1, operatorTail_ok, if_neg htE, if_pos ht, hn2, combine]

theorem FailsAt.stmt_of_expr {inner : GoError} {pre rest : List Token} {x q : Token}
    (hx : x.Typ = scanner.Ident) (hq : q.Val = "=") (hqE : q.Typ ≠ scanner.EOF)
    (h : FailsAt inner parseExpr (mk (pre ++ [x] ++ [q]) rest)) :
    FailsAt inner parseStmt (mk pre (x :: q :: rest)) := by
  obtain ⟨err, s', hin, N, hN⟩ := h
  refine ⟨wrapErr "parseExpr" err, s', hin, N, fun n hn => ?_⟩
  have hxE : x.Typ ≠ scanner.EOF := by rw [hx]; decide
  rw [parseStmt_eq, if_neg hxE, if_pos hx, if_neg hqE, if_pos hq, hN n hn, finishStmt]

theorem dangles (eof : Token) (heof : eof.Typ = scanner.EOF) (htext : eof.Val = "")
    {c : Cat} {ts : List Token} {e : Expr} (h : Parses c ts e) : Dangles eof c ts := by
  induction h with
  | int t ht => trivial
  | float t ht => trivial
  | paren l r ts e hl hr hlI hlF hrE _ ih => trivial
  | neg m ts e hm hmI hmF _ ih => trivial
  | ident t ht h1 h2 => trivial
  | factor ts e hF _ =>
    intro pre t htE ht
    have h1 := complete hF pre [t, eof]
    exact .term_after h1 htE ht (.term_of_factor (.factor_eof _ [] eof heof htext))
  | mul o ts1 ts2 e1 e2 ho hoE hF _ _ ih2 =>
    intro pre t htE ht
    have h1 := complete hF pre (o :: (ts2 ++ [t, eof]))
    have e1 : ts1 ++ o :: ts2 ++ [t, eof] = ts1 ++ o :: (ts2 ++ [t, eof]) := by simp
    rw [e1]
    exact .term_after h1 hoE ho (ih2 (pre ++ ts1 ++ [o]) t htE ht)
  | term ts e hT ih =>
    intro pre t htE ht
    rcases ht with ht | ht | ht | ht
    · have ht2 : t.Val ≠ "*" ∧ t.Val ≠ "/" := by rw [ht]; decide
      have h1 := complete hT pre t [eof] (fun h => absurd h htE) (fun _ => ht2)
      exact .expr_after h1 htE (.inl ht)
        (.expr_of_term (.term_of_factor (.factor_eof _ [] eof heof htext)))
    · have ht2 : t.Val ≠ "*" ∧ t.Val ≠ "/" := by rw [ht]; decide
      have h1 := complete hT pre t [eof] (fun h => absurd h htE) (fun _ => ht2)
      exact .expr_after h1 htE (.inr ht)
        (.expr_of_term (.term_of_factor (.factor_eof _ [] eof heof htext)))
    · exact .expr_of_term (ih pre t htE (.inl ht))
    · exact .expr_of_term (ih pre t htE (.inr ht))
  | add o ts1 ts2 e1 e2 ho hoE hT _ _ ih2 =>
    intro pre t htE ht
    have ho2 : o.Val ≠ "*" ∧ o.Val ≠ "/" := by
      rcases ho with h | h <;> rw [h] <;> decide
    have h1 := complete hT pre o (ts2 ++ [t, eof]) (fun h => absurd h hoE) (fun _ => ho2)
    have e1 : ts1 ++ o :: ts2 ++ [t, eof] = ts1 ++ o :: (ts2 ++ [t, eof]) := by simp
    rw [e1]
    exact .expr_after h1 hoE ho (ih2 (pre ++ ts1 ++ [o]) t htE ht)

/-- C8: trailing tokens are rejected, never skipped.  For a well-formed token list that
`parseStmt` accepts and a token `t` whose kind is not `EOF` and whose text is none of
`+ - * /`, the list with `t` inserted immediately before the final `EOF` token makes
`parseStmt` return, for every large enough recursion budget, no tree and the error
`unexcept next token("<text of t>")`, with the cursor on `t`. -/
theorem trailing_token_rejected (sentinel eof t : Token) (mid : List Token) (n0 : Nat)
    (e : Expr) (s0 : Interpreter) (hwf : ∀ u ∈ mid, WellFormedToken u)
    (heof : eof.Typ = scanner.EOF) (htext : eof.Val = "")
    (hacc : parseStmt n0 ⟨sentinel :: (mid ++ [eof]), 0⟩ = .ok e s0)
    (htE : t.Typ ≠ scanner.EOF)
    (ht : t.Val ≠ "+" ∧ t.Val ≠ "-" ∧ t.Val ≠ "*" ∧ t.Val ≠ "/") :
    ∃ N, ∀ n, N ≤ n →
      parseStmt n ⟨sentinel :: (mid ++ [t] ++ [eof]), 0⟩
        = .error (.plain ("unexcept next token(\"" ++ t.Val ++ "\")"))
            ⟨sentinel :: (mid ++ [t] ++ [eof]), (mid.length : Int) + 1⟩ := by
  rw [start_eq_mk] at hacc
  obtain ⟨x, q, ts, rhs, rfl, hx, hq, hqE, hP, -⟩ :=
    parseStmt_sound n0 [sentinel] mid eof e s0 hwf heof htext hacc
  obtain ⟨N, hN⟩ := parseStmt_trailing [sentinel] ts [eof] x q t rhs hx hq hqE hP htE
    ⟨ht.2.2.1, ht.2.2.2, ht.1, ht.2.1⟩
  refine ⟨N, fun n hn => ?_⟩
  have e1 : (⟨sentinel :: (x :: q :: ts ++ [t] ++ [eof]), 0⟩ : Interpreter)
      = mk [sentinel] (x :: q :: (ts ++ t :: [eof])) := by
    rw [start_eq_mk]; simp
  have e2 : mk ([sentinel] ++ x :: q :: (ts ++ [t])) [eof]
      = ⟨sentinel :: (x :: q :: ts ++ [t] ++ [eof]), ((x :: q :: ts).length : Int) + 1⟩ := by
    have e3 : ((([sentinel] ++ x :: q :: (ts ++ [t])).length : Nat) : Int) - 1
        = ((x :: q :: ts).length : Int) + 1 := by
      simp only [List.singleton_append, List.length_cons, List.length_append, List.length_nil]
      push_cast
      omega
    rw [mk, e3]
    simp
  rw [e1, hN n hn, e2]
  rfl

/-- Witness of C8 on the tokens of `A=5 6`. -/
theorem trailing_token_rejected_witness :
    ∃ N, ∀ n, N ≤ n →
      parseStmt n ⟨[⟨0, "", 0⟩, ⟨2, "A", scanner.Ident⟩, ⟨3, "=", 61⟩, ⟨4, "5", scanner.Int⟩,
          ⟨6, "6", scanner.Int⟩, ⟨6, "", scanner.EOF⟩], 0⟩
        = .error (.plain "unexcept next token(\"6\")")
            ⟨[⟨0, "", 0⟩, ⟨2, "A", scanner.Ident⟩, ⟨3, "=", 61⟩, ⟨4, "5", scanner.Int⟩,
              ⟨6, "6", scanner.Int⟩, ⟨6, "", scanner.EOF⟩], 4⟩ :=
  trailing_token_rejected ⟨0, "", 0⟩ ⟨6, "", scanner.EOF⟩ ⟨6, "6", scanner.Int⟩
    [⟨2, "A", scanner.Ident⟩, ⟨3, "=", 61⟩, ⟨4, "5", scanner.Int⟩] 8 _ _
    (by decide) rfl rfl rfl (by decide) (by decide)

/-- C9: a dangling binary operator is an error.  For a well-formed token list that
`parseStmt` accepts and an operator token `t` (kind not `EOF`) with text `+`, `-`, `*`
or `/`, the list with `t` inserted immediately before the final `EOF` token makes
`parseStmt` return, for every large enough recursion budget, one error and no tree; the
innermost error is the one of `parseFactor`, `invalid token("") need
"number | ( | - | ident"`, at the column of the `EOF` token. -/
theorem dangling_operator (sentinel eof t : Token) (mid : List Token) (n0 : Nat)
    (e : Expr) (s0 : Interpreter) (hwf : ∀ u ∈ mid, WellFormedToken u)
    (heof : eof.Typ = scanner.EOF) (htext : eof.Val = "")
    (hacc : parseStmt n0 ⟨sentinel :: (mid ++ [eof]), 0⟩ = .ok e s0)
    (htE : t.Typ ≠ scanner.EOF)
    (ht : t.Val = "+" ∨ t.Val = "-" ∨ t.Val = "*" ∨ t.Val = "/") :
    ∃ err s', err.innermost = errNeedFactor eof.Pos "" ∧
      ∃ N, ∀ n, N ≤ n →
        parseStmt n ⟨sentinel :: (mid ++ [t] ++ [eof]), 0⟩ = .error err s' := by
  rw [start_eq_mk] at hacc
  obtain ⟨x, q, ts, rhs, rfl, hx, hq, hqE, hP, -⟩ :=
    parseStmt_sound n0 [sentinel] mid eof e s0 hwf heof htext hacc
  have h1 := dangles eof heof htext hP ([sentinel] ++ [x] ++ [q]) t htE ht
  obtain ⟨err, s', hin, hR⟩ := FailsAt.stmt_of_expr hx hq hqE h1
  have e1 : (⟨sentinel :: (x :: q :: ts ++ [t] ++ [eof]), 0⟩ : Interpreter)
      = mk [sentinel] (x :: q :: (ts ++ [t, eof])) := by
    rw [start_eq_mk]; simp
  rw [e1]
  exact ⟨err, s', hin, hR⟩

/-- Witness of C9 on the tokens of `A=5+`. -/
theorem dangling_operator_witness :
    ∃ err s',
      err.innermost = .plain "pos(5) invalid token(\"\") need \"number | ( | - | ident\"" ∧
      ∃ N, ∀ n, N ≤ n →
        parseStmt n ⟨[⟨0, "", 0⟩, ⟨2, "A", scanner.Ident⟩, ⟨3, "=", 61⟩,
          ⟨4, "5", scanner.Int⟩, ⟨5, "+", 43⟩, ⟨5, "", scanner.EOF⟩], 0⟩ = .error err s' :=
  dangling_operator ⟨0, "", 0⟩ ⟨5, "", scanner.EOF⟩ ⟨5, "+", 43⟩
    [⟨2, "A", scanner.Ident⟩, ⟨3, "=", 61⟩, ⟨4, "5", scanner.Int⟩] 8 _ _
    (by decide) rfl rfl rfl (by decide) (.inl rfl)

/-- C10: a missing `=` is reported as such.  For a token list whose first token after
the sentinel has kind `Ident` and whose second token has a kind other than `EOF` and a
text other than `=`, `parseStmt` started at cursor 0 returns, with any recursion budget
and whatever tokens follow, no tree and exactly the error
`pos(<column of the second token>) invalid token("<text of the second token>") need "="`,
with the cursor on the second token. -/
theorem missing_assign (sentinel x q : Token) (rest : List Token) (n : Nat)
    (hx : x.Typ = scanner.Ident) (hqE : q.Typ ≠ scanner.EOF) (hq : q.Val ≠ "=") :
    parseStmt n ⟨sentinel :: x :: q :: rest, 0⟩
      = .error (.plain ("pos(" ++ toString q.Pos ++ ") invalid token(\"" ++ q.Val
          ++ "\") need \"=\"")) ⟨sentinel :: x :: q :: rest, 2⟩ := by
  have hxE : x.Typ ≠ scanner.EOF := by rw [hx]; decide
  rw [start_eq_mk, parseStmt_eq, if_neg hxE, if_pos hx, if_neg hqE, if_neg hq]
  rfl

/-- Witness of C10 on the tokens of `A 5`. -/
theorem missing_assign_witness :
    parseStmt 0 ⟨[⟨0, "", 0⟩, ⟨2, "A", scanner.Ident⟩, ⟨4, "5", scanner.Int⟩,
        ⟨4, "", scanner.EOF⟩], 0⟩
      = .error (.plain "pos(4) invalid token(\"5\") need \"=\"")
          ⟨[⟨0, "", 0⟩, ⟨2, "A", scanner.Ident⟩, ⟨4, "5", scanner.Int⟩,
            ⟨4, "", scanner.EOF⟩], 2⟩ :=
  missing_assign ⟨0, "", 0⟩ ⟨2, "A", scanner.Ident⟩ ⟨4, "5", scanner.Int⟩
    [⟨4, "", scanner.EOF⟩] 0 rfl (by decide) (by decide)

/-! ## The trees the rules return, on any token list -/

theorem closeParen_all {P : Expr → Prop} {r : Outcome} (h : r.All P) :
    (closeParen r).All P := by
  cases r with
  | ok expr s2 =>
    simp only [closeParen]
    cases s2.Scan with
    | none => trivial
    | some q =>
      obtain ⟨tok, s3⟩ := q
      simp only
      cases s3.TokenText with
      | none => trivial
      | some close =>
        simp only
        split
        · cases s3.Column <;> trivial
        · exact h
  | error err s => trivial
  | panic => trivial
  | timeout => trivial

theorem operatorTail_all {P : Expr → Prop} {sub o1 o2 self : String}
    {recur : Interpreter → Outcome} {r : Outcome}
    (hbin : ∀ op lhs rhs, op = o1 ∨ op = o2 → P lhs → P rhs → P (.BinExprAST op lhs rhs))
    (hrec : ∀ s, (recur s).All P) (h : r.All P) :
    (operatorTail sub o1 o2 self recur r).All P := by
  cases r with
  | ok lhs s1 =>
    simp only [operatorTail]
    cases s1.Scan with
    | none => trivial
    | some q =>
      obtain ⟨tok, s2⟩ := q
      simp only
      split
      · exact h
      · cases s2.TokenText with
        | none => trivial
        | some op =>
          simp only
          split
          · rename_i hop
            have h2 := hrec s2
            cases h3 : recur s2 with
            | ok rhs s3 =>
              rw [h3] at h2
              exact hbin op lhs rhs hop h h2
            | error err s3 => trivial
            | panic => trivial
            | timeout => trivial
          · exact h
  | error err s => trivial
  | panic => trivial
  | timeout => trivial

theorem factorBody_producible {recE recF : Interpreter → Outcome}
    (hE : ∀ s, (recE s).All Producible) (hF : ∀ s, (recF s).All Producible)
    (s : Interpreter) : (factorBody recE recF s).All Producible := by
  simp only [factorBody]
  cases s.Scan with
  | none => trivial
  | some q =>
    obtain ⟨tok, s1⟩ := q
    simp only
    split
    · cases s1.TokenText with
      | none => trivial
      | some text => exact .inl rfl
    · split
      · cases s1.TokenText with
        | none => trivial
        | some text => exact .inr (.inl rfl)
      · cases s1.TokenText with
        | none => trivial
        | some text =>
          simp only
          split
          · exact closeParen_all (hE s1)
          · rename_i hl
            split
            · have h2 := hF s1
              cases h3 : recF s1 with
              | ok rhs s2 =>
                rw [h3] at h2
                exact ⟨rfl, h2⟩
              | error err s2 => trivial
              | panic => trivial
              | timeout => trivial
            · rename_i hm
              split
              · exact .inr (.inr ⟨rfl, hl, hm⟩)
              · cases s1.Column <;> trivial

theorem producible (n : Nat) :
    (∀ s, (parseFactor n s).All Producible) ∧ (∀ s, (parseTerm n s).All Producible)
      ∧ (∀ s, (parseExpr n s).All Producible) := by
  induction n with
  | zero =>
    refine ⟨fun s => ?_, fun s => ?_, fun s => ?_⟩
    · rw [parseFactor]; trivial
    · rw [parseTerm]; trivial
    · rw [parseExpr]; trivial
  | succ n ih =>
    obtain ⟨ihF, ihT, ihE⟩ := ih
    refine ⟨fun s => ?_, fun s => ?_, fun s => ?_⟩
    · rw [parseFactor_succ_body]
      exact factorBody_producible ihE ihF s
    · rw [parseTerm_succ]
      exact operatorTail_all
        (fun op lhs rhs hop hl hr => ⟨by rcases hop with h | h <;> simp [h], hl, hr⟩) ihT (ihF s)
    · rw [parseExpr_succ]
      exact operatorTail_all
        (fun op lhs rhs hop hl hr => ⟨by rcases hop with h | h <;> simp [h], hl, hr⟩) ihE (ihT s)

/-- Every tree that `parseStmt` returns, on any token list and from any cursor, is an
assignment to an identifier of a tree that the expression rules can return. -/
theorem parseStmt_producible (n : Nat) (s : Interpreter) :
    (parseStmt n s).All fun e =>
      ∃ ident rhs, e = .BinExprAST "=" (.NumExprAST ident scanner.Ident) rhs ∧ Producible rhs := by
  rw [parseStmt_body]
  simp only [stmtBody]
  cases s.Scan with
  | none => trivial
  | some q =>
    obtain ⟨tok, s1⟩ := q
    simp only
    split
    · trivial
    · split
      · cases s1.TokenText with
        | none => trivial
        | some ident =>
          simp only
          cases s1.Scan with
          | none => trivial
          | some q2 =>
            obtain ⟨tok2, s2⟩ := q2
            simp only
            split
            · trivial
            · cases s2.TokenText with
              | none => trivial
              | some text =>
                simp only
                split
                · have h2 := (producible n).2.2 s2
                  cases h3 : parseExpr n s2 with
                  | ok rhs s3 =>
                    rw [h3] at h2
                    simp only [finishStmt]
                    cases s3.Scan with
                    | none => trivial
                    | some q3 =>
                      obtain ⟨tok3, s4⟩ := q3
                      simp only
                      split
                      · cases s4.TokenText <;> trivial
                      · exact ⟨ident, rhs, rfl, h2⟩
                  | error err s3 => trivial
                  | panic => trivial
                  | timeout => trivial
                · cases s2.Column <;> trivial
      · split <;> trivial

/-! ## Round trip through the serialiser -/

theorem punct_kind (v : String) :
    (punct v).Typ ≠ scanner.EOF ∧ (punct v).Typ ≠ scanner.Int
      ∧ (punct v).Typ ≠ scanner.Float := by
  simp only [punct, scanner.EOF, scanner.Int, scanner.Float]
  omega

theorem num_parses {v : String} {t : Int} (h : Producible (.NumExprAST v t)) :
    Parses .factor [⟨0, v, t⟩] (.NumExprAST v t) := by
  rcases h with h | h | ⟨h, h1, h2⟩
  · subst h; exact .int ⟨0, v, scanner.Int⟩ rfl
  · subst h; exact .float ⟨0, v, scanner.Float⟩ rfl
  · subst h; exact .ident ⟨0, v, scanner.Ident⟩ rfl h1 h2

theorem operand_parses {e : Expr} (hp : Producible e)
    (h : Parses .expression (serialise e) e) :
    Parses .factor (parenthesise e (serialise e)) e := by
  cases e with
  | NumExprAST v t => exact num_parses hp
  | UnaryExprAST op rhs =>
    exact .paren (punct "(") (punct ")") _ _ rfl rfl (punct_kind "(").2.1 (punct_kind "(").2.2
      (punct_kind ")").1 h
  | BinExprAST op lhs rhs =>
    exact .paren (punct "(") (punct ")") _ _ rfl rfl (punct_kind "(").2.1 (punct_kind "(").2.2
      (punct_kind ")").1 h

theorem serialise_parses {e : Expr} (hp : Producible e) :
    Parses .expression (serialise e) e := by
  induction e with
  | NumExprAST v t => exact .term _ _ (.factor _ _ (num_parses hp))
  | UnaryExprAST op rhs ih =>
    obtain ⟨rfl, hr⟩ := hp
    exact .term _ _ (.factor _ _ (.neg (punct "-") _ _ rfl (punct_kind "-").2.1
      (punct_kind "-").2.2 (operand_parses hr (ih hr))))
  | BinExprAST op lhs rhs ihl ihr =>
    obtain ⟨hop, hl, hr⟩ := hp
    have h1 := operand_parses hl (ihl hl)
    have h2 := operand_parses hr (ihr hr)
    rcases hop with hop | hop | hop | hop
    · exact .add (punct op) _ _ _ _ (.inl hop) (punct_kind op).1 (.factor _ _ h1)
        (.term _ _ (.factor _ _ h2))
    · exact .add (punct op) _ _ _ _ (.inr hop) (punct_kind op).1 (.factor _ _ h1)
        (.term _ _ (.factor _ _ h2))
    · exact .term _ _ (.mul (punct op) _ _ _ _ (.inl hop) (punct_kind op).1 h1 (.factor _ _ h2))
    · exact .term _ _ (.mul (punct op) _ _ _ _ (.inr hop) (punct_kind op).1 h1 (.factor _ _ h2))

/-- C7: round trip through infix tokens.  For every token list that `parseStmt`
accepts, whatever the recursion budget, serialising the returned tree back to infix
tokens (the identifier, `=`, and the right-hand side written with its operators and
literals, compound operands parenthesised, between the sentinel and an `EOF` token)
and running `parseStmt` on those tokens yields, for every large enough recursion
budget, a tree equal to the first one. -/
theorem round_trip (toks : List Token) (n : Nat) (e : Expr) (s' : Interpreter)
    (h : parseStmt n ⟨toks, 0⟩ = .ok e s') :
    ∃ N, ∀ m, N ≤ m → ∃ s'', parseStmt m ⟨serialiseStmt e, 0⟩ = .ok e s'' := by
  have h1 := parseStmt_producible n ⟨toks, 0⟩
  rw [h] at h1
  obtain ⟨ident, rhs, rfl, hp⟩ := h1
  obtain ⟨N, hN⟩ := accepts_of_parses ⟨0, "", 0⟩ ⟨0, ident, scanner.Ident⟩ (punct "=")
    ⟨0, "", scanner.EOF⟩ (serialise rhs) rhs rfl rfl (punct_kind "=").1 rfl
    (serialise_parses hp)
  exact ⟨N, fun m hm => ⟨_, hN m hm⟩⟩

/-- Witness of C7 on the tokens of `B=(8/10)+A+9`, the formula of `main`. -/
theorem round_trip_witness :
    ∃ N, ∀ m, N ≤ m → ∃ s'',
      parseStmt m ⟨serialiseStmt
        (.BinExprAST "=" (.NumExprAST "B" scanner.Ident)
          (.BinExprAST "+"
            (.BinExprAST "/" (.NumExprAST "8" scanner.Int) (.NumExprAST "10" scanner.Int))
            (.BinExprAST "+" (.NumExprAST "A" scanner.Ident) (.NumExprAST "9" scanner.Int)))),
        0⟩
      = .ok (.BinExprAST "=" (.NumExprAST "B" scanner.Ident)
          (.BinExprAST "+"
            (.BinExprAST "/" (.NumExprAST "8" scanner.Int) (.NumExprAST "10" scanner.Int))
            (.BinExprAST "+" (.NumExprAST "A" scanner.Ident) (.NumExprAST "9" scanner.Int))))
        s'' :=
  round_trip [⟨0, "", 0⟩, ⟨2, "B", scanner.Ident⟩, ⟨3, "=", 61⟩, ⟨4, "(", 40⟩,
      ⟨5, "8", scanner.Int⟩, ⟨6, "/", 47⟩, ⟨8, "10", scanner.Int⟩, ⟨9, ")", 41⟩,
      ⟨10, "+", 43⟩, ⟨11, "A", scanner.Ident⟩, ⟨12, "+", 43⟩, ⟨13, "9", scanner.Int⟩,
      ⟨13, "", scanner.EOF⟩] 14 _ _ rfl

/-! ## An unclosed parenthesis -/

theorem FailsAt.factor_unclosed {pre ts : List Token} {lp eof : Token} {e : Expr}
    (hl : lp.Val = "(") (hlI : lp.Typ ≠ scanner.Int) (hlF : lp.Typ ≠ scanner.Float)
    (heof : eof.Typ = scanner.EOF) (htext : eof.Val = "") (h : Parses .expression ts e) :
    FailsAt (errNeedParen eof.Pos "") parseFactor (mk pre (lp :: (ts ++ [eof]))) := by
  have h1 := complete h (pre ++ [lp]) eof [] (fun _ => rfl) (fun h => absurd heof h)
  refine ⟨errNeedParen eof.Pos "", mk (pre ++ [lp] ++ ts ++ [eof]) [], rfl,
    Returns.step h1 fun n hn => ?_⟩
  have h2 : eof.Val ≠ ")" := by rw [htext]; decide
  rw [parseFactor_succ, if_neg hlI, if_neg hlF, if_pos hl, hn, closeParen_ok, if_pos h2, htext]

/-- C11: an unclosed parenthesis is an error.  For a well-formed token sequence `ts`
such that `parseStmt` accepts `x = ts`, and a token `lp` with text `(` (kind not `Int`
or `Float`), `parseStmt` on `x = ( ts` followed directly by the `EOF` token returns, for
every large enough recursion budget, no tree and one error whose innermost cause is
`pos(<column of the EOF token>) invalid token("") need ")"`. -/
theorem unclosed_paren (sentinel x q eof lp : Token) (ts : List Token) (e : Expr)
    (n0 : Nat) (s0 : Interpreter)
    (hwf : ∀ t ∈ ts, WellFormedToken t) (heof : eof.Typ = scanner.EOF) (htext : eof.Val = "")
    (hacc : parseStmt n0 ⟨sentinel :: x :: q :: (ts ++ [eof]), 0⟩ = .ok e s0)
    (hlp : lp.Val = "(" ∧ lp.Typ ≠ scanner.Int ∧ lp.Typ ≠ scanner.Float) :
    ∃ err s', err.innermost = errNeedParen eof.Pos "" ∧
      ∃ N, ∀ n, N ≤ n →
        parseStmt n ⟨sentinel :: x :: q :: (lp :: ts ++ [eof]), 0⟩ = .error err s' := by
  rw [start_eq_mk] at hacc
  obtain ⟨rhs, hx, hq, hqE, hP, -⟩ := rhs_of_accepts n0 [sentinel] ts x q eof _ s0 hwf heof
    htext hacc
  have h1 : FailsAt (errNeedParen eof.Pos "") parseFactor
      (mk ([sentinel] ++ [x] ++ [q]) (lp :: (ts ++ [eof]))) :=
    .factor_unclosed hlp.1 hlp.2.1 hlp.2.2 heof htext hP
  obtain ⟨err, s', hin, hR⟩ := FailsAt.stmt_of_expr hx hq hqE (.expr_of_term (.term_of_factor h1))
  rw [start_eq_mk]
  exact ⟨err, s', hin, hR⟩

/-- Witness of C11 on the tokens of `A=(5`. -/
theorem unclosed_paren_witness :
    ∃ err s',
      err.innermost = .plain "pos(6) invalid token(\"\") need \")\"" ∧
      ∃ N, ∀ n, N ≤ n →
        parseStmt n ⟨[⟨0, "", 0⟩, ⟨2, "A", scanner.Ident⟩, ⟨3, "=", 61⟩, ⟨4, "(", 40⟩,
          ⟨5, "5", scanner.Int⟩, ⟨6, "", scanner.EOF⟩], 0⟩ = .error err s' :=
  unclosed_paren ⟨0, "", 0⟩ ⟨2, "A", scanner.Ident⟩ ⟨3, "=", 61⟩ ⟨6, "", scanner.EOF⟩
    ⟨4, "(", 40⟩ [⟨5, "5", scanner.Int⟩] _ 8 _ (by decide) rfl rfl rfl (by decide)

/-! ## The shape of every returned tree -/

theorem Producible.belowRoot {e : Expr} (h : Producible e) : BelowRoot e := by
  induction e with
  | NumExprAST v t =>
    rcases h with h | h | h
    · exact .inl h
    · exact .inr (.inl h)
    · exact .inr (.inr h.1)
  | UnaryExprAST op rhs ih =>
    obtain ⟨rfl, hr⟩ := h
    exact ⟨by decide, rfl, ih hr⟩
  | BinExprAST op lhs rhs ihl ihr =>
    obtain ⟨hop, hl, hr⟩ := h
    refine ⟨?_, hop, ihl hl, ihr hr⟩
    rcases hop with h | h | h | h <;> rw [h] <;> decide

/-- C13: shape invariant of every returned tree.  For every token list and every
recursion budget, if `parseStmt` started at cursor 0 returns a tree, then the root is a
`BinExprAST` with `Op` `"="` whose `LHS` is a `NumExprAST` of type `Ident`, and below
the root no node has `Op` `"="`, every `BinExprAST` has `Op` in `+ - * /`, every
`UnaryExprAST` has `Op` `"-"` and every `NumExprAST` has type `Int`, `Float` or
`Ident`. -/
theorem shape_invariant (toks : List Token) (n : Nat) (e : Expr) (s' : Interpreter)
    (h : parseStmt n ⟨toks, 0⟩ = .ok e s') :
    ∃ ident rhs, e = .BinExprAST "=" (.NumExprAST ident scanner.Ident) rhs ∧ BelowRoot rhs := by
  have h1 := parseStmt_producible n ⟨toks, 0⟩
  rw [h] at h1
  obtain ⟨ident, rhs, he, hp⟩ := h1
  exact ⟨ident, rhs, he, hp.belowRoot⟩

/-- Witness of C13 on the tokens of `A=-(2+3)*B`. -/
theorem shape_invariant_witness :
    ∃ ident rhs,
      Expr.BinExprAST "=" (.NumExprAST "A" scanner.Ident)
          (.BinExprAST "*"
            (.UnaryExprAST "-"
              (.BinExprAST "+" (.NumExprAST "2" scanner.Int) (.NumExprAST "3" scanner.Int)))
            (.NumExprAST "B" scanner.Ident))
        = .BinExprAST "=" (.NumExprAST ident scanner.Ident) rhs ∧ BelowRoot rhs :=
  shape_invariant [⟨0, "", 0⟩, ⟨2, "A", scanner.Ident⟩, ⟨3, "=", 61⟩, ⟨4, "-", 45⟩,
      ⟨5, "(", 40⟩, ⟨6, "2", scanner.Int⟩, ⟨7, "+", 43⟩, ⟨8, "3", scanner.Int⟩, ⟨9, ")", 41⟩,
      ⟨10, "*", 42⟩, ⟨11, "B", scanner.Ident⟩, ⟨11, "", scanner.EOF⟩] 14 _ _ rfl

/-! ## `Scan`, `Back` and `Init` on their own -/

theorem start_last_eq_mk (pre : List Token) (t : Token) :
    (⟨pre ++ [t], (pre.length : Int)⟩ : Interpreter) = mk (pre ++ [t]) [] := by
  simp [mk]

theorem scanKinds_fixed (k : Nat) (s : Interpreter) (tok : Int) (h : s.Scan = some (tok, s)) :
    scanKinds k s = some (List.replicate k tok) := by
  induction k with
  | zero => rfl
  | succ k ih => simp only [scanKinds, h, ih, Option.map_some', List.replicate_succ]

/-- C15: `Scan` at the end is a no-op.  In every interpreter state with a non-empty token
list `pre ++ [t]` and the cursor on the last token `t`, `Scan` leaves the cursor and the
token list unchanged and returns the kind of `t`; hence any number `k` of further `Scan`
calls all return the kind of `t`, which is `EOF` when `t` has kind `EOF`. -/
theorem scan_at_end (pre : List Token) (t : Token) :
    (⟨pre ++ [t], (pre.length : Int)⟩ : Interpreter).Scan
        = some (t.Typ, ⟨pre ++ [t], (pre.length : Int)⟩) ∧
    ∀ k, scanKinds k ⟨pre ++ [t], (pre.length : Int)⟩ = some (List.replicate k t.Typ) := by
  have h : (⟨pre ++ [t], (pre.length : Int)⟩ : Interpreter).Scan
      = some (t.Typ, ⟨pre ++ [t], (pre.length : Int)⟩) := by
    rw [start_last_eq_mk, scan_mk_end]
  exact ⟨h, fun k => scanKinds_fixed k _ _ h⟩

/-- Counterexample to C16 as stated: with two tokens and the cursor on the last one,
which is within `[0, len(tokens)-1]`, `Scan` leaves the cursor where it is and `Back`
then moves it to the first token. -/
theorem scan_back_counterexample :
    (0 : Int) ≤ 1 ∧ (1 : Int) ≤ (([⟨2, "A", scanner.Ident⟩, ⟨2, "", scanner.EOF⟩] :
      List Token).length : Int) - 1 ∧
    (Interpreter.Scan ⟨[⟨2, "A", scanner.Ident⟩, ⟨2, "", scanner.EOF⟩], 1⟩).map
        (fun r => r.2.Back)
      = some ⟨[⟨2, "A", scanner.Ident⟩, ⟨2, "", scanner.EOF⟩], 0⟩ := by
  decide

/-- C16, as amended: `Back` undoes a `Scan` that moved the cursor.  For every
interpreter state whose cursor is within `[0, len(tokens)-2]`, `Scan` returns and `Back`
after it leaves the interpreter in the state it started in. -/
theorem scan_back (s : Interpreter) (h0 : 0 ≤ s.tokenIndex)
    (h1 : s.tokenIndex + 1 < s.tokens.length) :
    ∃ tok s2, s.Scan = some (tok, s2) ∧ s2.Back = s := by
  have hadv : s.advance = ⟨s.tokens, s.tokenIndex + 1⟩ := by
    have h : ¬ (s.tokenIndex + 1 ≥ (s.tokens.length : Int)) := by omega
    simp only [Interpreter.advance, h, if_false]
  have hlt : (s.tokenIndex + 1).toNat < s.tokens.length := by omega
  have hcur : s.advance.cur = some (s.tokens.get ⟨(s.tokenIndex + 1).toNat, hlt⟩) := by
    have h : (0 : Int) ≤ s.tokenIndex + 1 := by omega
    rw [hadv]
    simp only [Interpreter.cur, h, if_true]
    exact List.get?_eq_get hlt
  refine ⟨(s.tokens.get ⟨(s.tokenIndex + 1).toNat, hlt⟩).Typ, s.advance, ?_, ?_⟩
  · simp only [Interpreter.Scan, hcur, Option.map_some']
  · rw [hadv]
    simp [Interpreter.Back]

/-- Witness of C16, as amended, on the tokens of `A`, with the cursor on the sentinel. -/
theorem scan_back_witness :
    ∃ tok s2,
      Interpreter.Scan ⟨[⟨0, "", 0⟩, ⟨2, "A", scanner.Ident⟩, ⟨2, "", scanner.EOF⟩], 0⟩
        = some (tok, s2) ∧
      s2.Back = ⟨[⟨0, "", 0⟩, ⟨2, "A", scanner.Ident⟩, ⟨2, "", scanner.EOF⟩], 0⟩ :=
  scan_back ⟨[⟨0, "", 0⟩, ⟨2, "A", scanner.Ident⟩, ⟨2, "", scanner.EOF⟩], 0⟩
    (by decide) (by decide)

/-- The part of C20 that holds, and the part that fails: after `Init` the token list is
the one sentinel token, and the cursor is what it was before. -/
theorem init_keeps_cursor (interp : Interpreter) :
    interp.Init.tokens = [⟨0, "", 0⟩] ∧ interp.Init.tokenIndex = interp.tokenIndex :=
  ⟨rfl, rfl⟩

/-- C20 fails on the state that the parse of `A=2+3*4` leaves behind (nine tokens,
cursor 8): after `Init` the cursor is still 8, outside `[0, len(tokens)-1] = [0, 0]`; and
when `myparser` then loads the tokens of `A=5`, `parseStmt` starts behind them, lands on
the `EOF` token and reports `unexcept EOF`, whereas from a fresh interpreter the same
tokens are accepted. -/
theorem init_stale_cursor :
    (Interpreter.Init ⟨[⟨0, "", 0⟩, ⟨2, "A", scanner.Ident⟩, ⟨3, "=", 61⟩,
        ⟨4, "2", scanner.Int⟩, ⟨5, "+", 43⟩, ⟨6, "3", scanner.Int⟩, ⟨7, "*", 42⟩,
        ⟨8, "4", scanner.Int⟩, ⟨8, "", scanner.EOF⟩], 8⟩)
      = ⟨[⟨0, "", 0⟩], 8⟩ ∧
    ¬ ((8 : Int) ≤ (([⟨0, "", 0⟩] : List Token).length : Int) - 1) ∧
    parseStmt 8 (load ⟨[⟨0, "", 0⟩, ⟨2, "A", scanner.Ident⟩, ⟨3, "=", 61⟩,
        ⟨4, "2", scanner.Int⟩, ⟨5, "+", 43⟩, ⟨6, "3", scanner.Int⟩, ⟨7, "*", 42⟩,
        ⟨8, "4", scanner.Int⟩, ⟨8, "", scanner.EOF⟩], 8⟩
        [⟨2, "A", scanner.Ident⟩, ⟨3, "=", 61⟩, ⟨4, "5", scanner.Int⟩, ⟨4, "", scanner.EOF⟩])
      = .error (.plain "unexcept EOF")
          ⟨[⟨0, "", 0⟩, ⟨2, "A", scanner.Ident⟩, ⟨3, "=", 61⟩, ⟨4, "5", scanner.Int⟩,
            ⟨4, "", scanner.EOF⟩], 4⟩ ∧
    parseStmt 8 (load ⟨[], 0⟩
        [⟨2, "A", scanner.Ident⟩, ⟨3, "=", 61⟩, ⟨4, "5", scanner.Int⟩, ⟨4, "", scanner.EOF⟩])
      = .ok (.BinExprAST "=" (.NumExprAST "A" scanner.Ident) (.NumExprAST "5" scanner.Int))
          ⟨[⟨0, "", 0⟩, ⟨2, "A", scanner.Ident⟩, ⟨3, "=", 61⟩, ⟨4, "5", scanner.Int⟩,
            ⟨4, "", scanner.EOF⟩], 4⟩ := by
  refine ⟨rfl, by decide, rfl, rfl⟩

/-! ## Termination: every recursive call starts behind one more token -/

theorem snoc_cases (l : List Token) : l = [] ∨ ∃ p u, l = p ++ [u] := by
  rcases List.eq_nil_or_concat l with h | ⟨p, u, h⟩
  · exact .inl h
  · exact .inr ⟨p, u, by rw [h, List.concat_eq_append]⟩

theorem EndsFinal.cons_of {l : List Token} (h : EndsFinal l) : ∃ t rest, l = t :: rest := by
  obtain ⟨mid, eof, rfl, -, -⟩ := h
  cases mid with
  | nil => exact ⟨eof, [], rfl⟩
  | cons t mid => exact ⟨t, mid ++ [eof], rfl⟩

theorem EndsFinal.single {pre : List Token} {u : Token} (h : EndsFinal (pre ++ [u])) :
    u.Typ = scanner.EOF ∧ u.Val = "" := by
  obtain ⟨mid, eof, h1, h2, h3⟩ := h
  obtain ⟨-, h4⟩ := List.append_inj' h1 rfl
  simp only [List.cons.injEq, and_true] at h4
  subst h4
  exact ⟨h2, h3⟩

theorem EndsFinal.rest {pre rest : List Token} {u : Token} (h : EndsFinal (pre ++ u :: rest))
    (hu : u.Typ ≠ scanner.EOF ∨ u.Val ≠ "") : EndsFinal rest := by
  obtain ⟨mid, eof, h1, h2, h3⟩ := h
  rcases snoc_cases rest with rfl | ⟨rest', v, rfl⟩
  · obtain ⟨-, h4⟩ := List.append_inj' h1 rfl
    simp only [List.cons.injEq, and_true] at h4
    subst h4
    rcases hu with hu | hu
    · exact absurd h2 hu
    · exact absurd h3 hu
  · have h5 : pre ++ u :: (rest' ++ [v]) = (pre ++ u :: rest') ++ [v] := by simp
    rw [h5] at h1
    obtain ⟨-, h4⟩ := List.append_inj' h1 rfl
    simp only [List.cons.injEq, and_true] at h4
    subst h4
    exact ⟨rest', v, rfl, h2, h3⟩

theorem Progress.mono {k k' : Nat} {toks : List Token} {r : Outcome} (h : Progress k toks r)
    (hk : k' ≤ k) : Progress k' toks r := by
  cases r with
  | ok e s' =>
    obtain ⟨pre', post', h1, h2, h3⟩ := h
    exact ⟨pre', post', h1, h2, by omega⟩
  | error err s' => trivial
  | panic => exact h
  | timeout => exact h

theorem combine_progress {k : Nat} {toks : List Token} {rule op : String} {lhs : Expr}
    {r : Outcome} (h : Progress k toks r) : Progress k toks (combine rule op lhs r) := by
  cases r with
  | ok e s' => exact h
  | error err s' => trivial
  | panic => exact h
  | timeout => exact h

theorem negate_progress {k : Nat} {toks : List Token} {r : Outcome} (h : Progress k toks r) :
    Progress k toks (negate r) := by
  cases r with
  | ok e s' => exact h
  | error err s' => trivial
  | panic => exact h
  | timeout => exact h

theorem closeParen_progress {k : Nat} {toks : List Token} {r : Outcome}
    (h : Progress k toks r) : Progress k toks (closeParen r) := by
  cases r with
  | ok e s' =>
    obtain ⟨pre', post', rfl, h2, h3⟩ := h
    cases post' with
    | nil =>
      rcases snoc_cases pre' with rfl | ⟨p, u, rfl⟩
      · simp at h3
      · simp only [closeParen, scan_mk_end, text_mk, column_mk]
        split
        · trivial
        · exact ⟨p ++ [u], [], rfl, h2, h3⟩
    | cons u rest =>
      simp only [closeParen, scan_mk, text_mk, column_mk]
      split
      · trivial
      · exact ⟨pre' ++ [u], rest, rfl, by rw [← h2]; simp, by simp; omega⟩
  | error err s' => trivial
  | panic => exact h
  | timeout => exact h

theorem operatorTail_progress {k : Nat} {toks : List Token} {sub o1 o2 self : String}
    {recur : Interpreter → Outcome} {r : Outcome} (hfin : EndsFinal toks)
    (ho1 : o1 ≠ "") (ho2 : o2 ≠ "") (h : Progress k toks r)
    (hrec : ∀ pre2 post2, pre2 ++ post2 = toks → k + 2 ≤ pre2.length → EndsFinal post2 →
      Progress k toks (recur (mk pre2 post2))) :
    Progress k toks (operatorTail sub o1 o2 self recur r) := by
  cases r with
  | ok lhs s' =>
    obtain ⟨pre', post', rfl, h2, h3⟩ := h
    cases post' with
    | nil =>
      rcases snoc_cases pre' with rfl | ⟨p, u, rfl⟩
      · simp at h3
      · have hu : u.Typ = scanner.EOF := by
          rw [List.append_nil] at h2
          rw [← h2] at hfin
          exact hfin.single.1
        simp only [operatorTail, scan_mk_end, hu, if_true]
        exact ⟨p ++ [u], [], rfl, h2, h3⟩
    | cons u rest =>
      have e1 : pre' ++ [u] ++ rest = toks := by rw [← h2]; simp
      simp only [operatorTail, scan_mk, text_mk, back_mk]
      split
      · exact ⟨pre' ++ [u], rest, rfl, e1, by simp; omega⟩
      · rename_i hu
        split
        · rename_i hop
          have hu2 : u.Val ≠ "" := by
            rcases hop with h | h <;> rw [h] <;> assumption
          refine combine_progress (hrec (pre' ++ [u]) rest e1 (by simp; omega) ?_)
          rw [← h2] at hfin
          exact hfin.rest (.inr hu2)
        · exact ⟨pre', u :: rest, rfl, h2, h3⟩
  | error err s' => trivial
  | panic => exact h
  | timeout => exact h

theorem term_factor (n : Nat) (ihF : TermF n) (ihE : TermE n) : TermF (n + 1) := by
  intro pre post hfin hn
  obtain ⟨t, post0, rfl⟩ := hfin.cons_of
  have hlen : (t :: post0).length = post0.length + 1 := rfl
  have e1 : pre ++ t :: post0 = pre ++ [t] ++ post0 := by simp
  rw [parseFactor_succ]
  split
  · exact ⟨pre ++ [t], post0, rfl, e1.symm, by simp⟩
  · split
    · exact ⟨pre ++ [t], post0, rfl, e1.symm, by simp⟩
    · split
      · rename_i hl
        have hfin0 : EndsFinal post0 :=
          @EndsFinal.rest [] _ _ hfin (.inr (by rw [hl]; decide))
        have h1 := ihE (pre ++ [t]) post0 hfin0 (by omega)
        rw [e1]
        exact closeParen_progress (h1.mono (by simp))
      · split
        · rename_i hm
          have hfin0 : EndsFinal post0 :=
            @EndsFinal.rest [] _ _ hfin (.inr (by rw [hm]; decide))
          have h1 := ihF (pre ++ [t]) post0 hfin0 (by omega)
          rw [e1]
          exact negate_progress (h1.mono (by simp))
        · split
          · exact ⟨pre ++ [t], post0, rfl, e1.symm, by simp⟩
          · trivial

theorem endsFinal_append (pre : List Token) {post : List Token} (h : EndsFinal post) :
    EndsFinal (pre ++ post) := by
  obtain ⟨mid, eof, rfl, h2, h3⟩ := h
  exact ⟨pre ++ mid, eof, by simp, h2, h3⟩

theorem term_term (n : Nat) (ihF : TermF n) (ihT : TermT n) : TermT (n + 1) := by
  intro pre post hfin hn
  rw [parseTerm_succ]
  refine operatorTail_progress (endsFinal_append pre hfin) (by decide) (by decide)
    (ihF pre post hfin (by omega)) fun pre2 post2 h2 hlen hfin2 => ?_
  have hl : pre2.length + post2.length = pre.length + post.length := by
    rw [← List.length_append, ← List.length_append, h2]
  rw [← h2]
  exact (ihT pre2 post2 hfin2 (by omega)).mono (by omega)

theorem term_expr (n : Nat) (ihT : TermT n) (ihE : TermE n) : TermE (n + 1) := by
  intro pre post hfin hn
  rw [parseExpr_succ]
  refine operatorTail_progress (endsFinal_append pre hfin) (by decide) (by decide)
    (ihT pre post hfin (by omega)) fun pre2 post2 h2 hlen hfin2 => ?_
  have hl : pre2.length + post2.length = pre.length + post.length := by
    rw [← List.length_append, ← List.length_append, h2]
  rw [← h2]
  exact (ihE pre2 post2 hfin2 (by omega)).mono (by omega)

theorem terminates (n : Nat) : TermF n ∧ TermT n ∧ TermE n := by
  induction n with
  | zero =>
    refine ⟨?_, ?_, ?_⟩ <;> intro pre post hfin hn
    · obtain ⟨t, rest, rfl⟩ := hfin.cons_of
      simp at hn
    · omega
    · omega
  | succ n ih =>
    exact ⟨term_factor n ih.1 ih.2.2, term_term n ih.1 ih.2.1, term_expr n ih.2.1 ih.2.2⟩

theorem finishStmt_progress {k : Nat} {toks : List Token} {ident : String} {r : Outcome}
    (h : Progress k toks r) : Progress k toks (finishStmt ident r) := by
  cases r with
  | ok e s' =>
    obtain ⟨pre', post', rfl, h2, h3⟩ := h
    cases post' with
    | nil =>
      rcases snoc_cases pre' with rfl | ⟨p, u, rfl⟩
      · simp at h3
      · simp only [finishStmt, scan_mk_end, text_mk]
        split
        · trivial
        · exact ⟨p ++ [u], [], rfl, h2, h3⟩
    | cons u rest =>
      simp only [finishStmt, scan_mk, text_mk]
      split
      · trivial
      · exact ⟨pre' ++ [u], rest, rfl, by rw [← h2]; simp, by simp; omega⟩
  | error err s' => trivial
  | panic => exact h
  | timeout => exact h

/-- With budget three times the number of tokens, `parseStmt` started on the first token
of a list that ends in an `EOF` token with empty text returns a tree or an error. -/
theorem parseStmt_progress (sentinel : Token) (rest : List Token)
    (hfin : EndsFinal (sentinel :: rest)) (n : Nat) (hn : 3 * (rest.length + 1) ≤ n) :
    Progress 0 (sentinel :: rest) (parseStmt n (mk [sentinel] rest)) := by
  cases rest with
  | nil =>
    have h1 := (@EndsFinal.single [] _ hfin).1
    have e1 : mk [sentinel] [] = mk ([] ++ [sentinel]) [] := rfl
    simp only [parseStmt, e1, scan_mk_end, h1, if_true]
    trivial
  | cons x rest =>
    cases rest with
    | nil =>
      have h1 := (@EndsFinal.single [sentinel] _ hfin).1
      simp only [parseStmt, scan_mk, h1, if_true]
      trivial
    | cons q rest =>
      rw [parseStmt_eq]
      split
      · trivial
      · split
        · split
          · trivial
          · split
            · rename_i hq
              have hfin2 : EndsFinal rest :=
                @EndsFinal.rest [sentinel, x] _ _ hfin (.inr (by rw [hq]; decide))
              simp only [List.length_cons] at hn
              have h1 := (terminates n).2.2 ([sentinel] ++ [x] ++ [q]) rest hfin2 (by omega)
              exact finishStmt_progress (h1.mono (Nat.zero_le _))
            · trivial
        · trivial

/-- C17: termination.  For every token list that ends in an `EOF` token with empty text
(`mid ++ [eof]`; two tokens or more when `mid` is not empty), `parseStmt` started at
cursor 0 terminates: with every recursion budget of at least three times the number of
tokens it returns a tree or an error, and neither exhausts the budget nor panics.  The
bound comes from the cursor: each recursive call of a rule starts behind at least one
more token than the call that makes it. -/
theorem parseStmt_terminates (mid : List Token) (eof : Token) (heof : eof.Typ = scanner.EOF)
    (htext : eof.Val = "") (n : Nat) (hn : 3 * (mid.length + 1) ≤ n) :
    (∃ e s', parseStmt n ⟨mid ++ [eof], 0⟩ = .ok e s') ∨
      (∃ err s', parseStmt n ⟨mid ++ [eof], 0⟩ = .error err s') := by
  have hfin : EndsFinal (mid ++ [eof]) := ⟨mid, eof, rfl, heof, htext⟩
  obtain ⟨sentinel, rest, h⟩ := hfin.cons_of
  have hl : rest.length + 1 = mid.length + 1 := by
    have := congrArg List.length h
    simp only [List.length_append, List.length_cons, List.length_nil] at this
    omega
  rw [h, start_eq_mk]
  rw [h] at hfin
  have h1 := parseStmt_progress sentinel rest hfin n (by omega)
  cases h2 : parseStmt n (mk [sentinel] rest) with
  | ok e s' => exact .inl ⟨e, s', rfl⟩
  | error err s' => exact .inr ⟨err, s', rfl⟩
  | panic => rw [h2] at h1; exact absurd h1 id
  | timeout => rw [h2] at h1; exact absurd h1 id

/-- Witness of C17 on the tokens of `A=((2`, where the rules are five calls deep when
the error is found. -/
theorem parseStmt_terminates_witness :
    (∃ e s', parseStmt 21 ⟨[⟨0, "", 0⟩, ⟨2, "A", scanner.Ident⟩, ⟨3, "=", 61⟩, ⟨4, "(", 40⟩,
        ⟨5, "(", 40⟩, ⟨6, "2", scanner.Int⟩] ++ [⟨6, "", scanner.EOF⟩], 0⟩ = .ok e s') ∨
      (∃ err s', parseStmt 21 ⟨[⟨0, "", 0⟩, ⟨2, "A", scanner.Ident⟩, ⟨3, "=", 61⟩,
        ⟨4, "(", 40⟩, ⟨5, "(", 40⟩, ⟨6, "2", scanner.Int⟩] ++ [⟨6, "", scanner.EOF⟩], 0⟩
          = .error err s') :=
  parseStmt_terminates [⟨0, "", 0⟩, ⟨2, "A", scanner.Ident⟩, ⟨3, "=", 61⟩, ⟨4, "(", 40⟩,
    ⟨5, "(", 40⟩, ⟨6, "2", scanner.Int⟩] ⟨6, "", scanner.EOF⟩ rfl rfl 21 (by decide)

/-! ## The tree keeps every literal, in source order -/

theorem literals_literal {t : Token} (h : isLiteral t) (ts : List Token) :
    literals (t :: ts) = (t.Val, t.Typ) :: literals ts := by
  simp only [literals, h, if_true]

theorem literals_nonliteral {t : Token} (h : ¬ isLiteral t) (ts : List Token) :
    literals (t :: ts) = literals ts := by
  simp only [literals, h, if_false]

theorem literals_append (a b : List Token) : literals (a ++ b) = literals a ++ literals b := by
  induction a with
  | nil => rfl
  | cons t a ih =>
    by_cases ht : isLiteral t
    · rw [List.cons_append, literals_literal ht, literals_literal ht, ih, List.cons_append]
    · rw [List.cons_append, literals_nonliteral ht, literals_nonliteral ht, ih]

theorem literals_punct {t : Token} (h : WellFormedToken t) (ht : isOpText t.Val)
    (ts : List Token) : literals (t :: ts) = literals ts := by
  have h1 : ¬ isLiteral t := by
    have := h.not_literal ht
    rintro (h2 | h2 | h2)
    · exact this.1 h2
    · exact this.2.1 h2
    · exact this.2.2 h2
  simp only [literals, h1, if_false]

theorem Derives.leaves_eq {c : Cat} {ts : List Token} {e : Expr} (h : Derives c ts e)
    (hwf : ∀ t ∈ ts, WellFormedToken t) : leaves e = literals ts := by
  induction h with
  | int t ht => rw [literals_literal (.inr (.inl ht)), ht]; rfl
  | float t ht => rw [literals_literal (.inr (.inr ht)), ht]; rfl
  | paren l r ts e hl hr _ ih =>
    rw [literals_punct (hwf l (by simp)) (by rw [hl]; decide), literals_append,
      literals_punct (hwf r (by simp)) (by rw [hr]; decide),
      ih fun t ht => hwf t (by simp [ht])]
    simp [literals]
  | neg m ts e hm _ ih =>
    rw [literals_punct (hwf m (by simp)) (by rw [hm]; decide)]
    exact ih fun t ht => hwf t (by simp [ht])
  | ident t ht => rw [literals_literal (.inl ht), ht]; rfl
  | factor ts e _ ih => exact ih hwf
  | mul o ts1 ts2 e1 e2 ho _ _ ih1 ih2 =>
    have ho' : isOpText o.Val := by rcases ho with h | h <;> rw [h] <;> decide
    rw [literals_append, literals_punct (hwf o (by simp)) ho', leaves,
      ih1 fun t ht => hwf t (by simp [ht]), ih2 fun t ht => hwf t (by simp [ht])]
  | term ts e _ ih => exact ih hwf
  | add o ts1 ts2 e1 e2 ho _ _ ih1 ih2 =>
    have ho' : isOpText o.Val := by rcases ho with h | h <;> rw [h] <;> decide
    rw [literals_append, literals_punct (hwf o (by simp)) ho', leaves,
      ih1 fun t ht => hwf t (by simp [ht]), ih2 fun t ht => hwf t (by simp [ht])]

/-- C18: the tree keeps every literal, in source order.  For a well-formed token list (a
sentinel, then well-formed tokens `mid`, then one `EOF` token with empty text) that
`parseStmt` accepts, the `NumExprAST` leaves of the returned tree, read left to right
with the root's `LHS` first, are exactly the tokens of `mid` of kind `Ident`, `Int` or
`Float` in input order, each leaf with its token's text as `Val` and its token's kind as
`Type`; they are the literals of the whole list when the sentinel is not of a literal
kind. -/
theorem leaves_in_order (sentinel eof : Token) (mid : List Token) (n : Nat) (e : Expr)
    (s' : Interpreter) (hwf : ∀ t ∈ mid, WellFormedToken t) (heof : eof.Typ = scanner.EOF)
    (htext : eof.Val = "") (h : parseStmt n ⟨sentinel :: (mid ++ [eof]), 0⟩ = .ok e s') :
    leaves e = literals mid ∧
      (¬ isLiteral sentinel → leaves e = literals (sentinel :: (mid ++ [eof]))) := by
  have h1 : leaves e = literals mid := by
    cases statement_of_accepts sentinel eof mid n e s' hwf heof htext h with
    | assign x q ts rhs hx hq hd =>
      rw [literals_literal (.inl hx), literals_punct (hwf q (by simp)) (by rw [hq]; decide),
        hx, ← hd.leaves_eq fun t ht => hwf t (by simp [ht])]
      rfl
  refine ⟨h1, fun hs => ?_⟩
  have h2 : ¬ isLiteral eof := by
    rintro (h3 | h3 | h3) <;> rw [heof] at h3 <;> exact absurd h3 (by decide)
  have h3 : literals [eof] = [] := literals_nonliteral h2 []
  rw [h1, literals_nonliteral hs, literals_append, h3, List.append_nil]

/-- Witness of C18 on the tokens of `B=(8/10)+A`. -/
theorem leaves_in_order_witness :
    leaves (.BinExprAST "=" (.NumExprAST "B" scanner.Ident)
        (.BinExprAST "+"
          (.BinExprAST "/" (.NumExprAST "8" scanner.Int) (.NumExprAST "10" scanner.Int))
          (.NumExprAST "A" scanner.Ident)))
      = [("B", scanner.Ident), ("8", scanner.Int), ("10", scanner.Int), ("A", scanner.Ident)] :=
  (leaves_in_order ⟨0, "", 0⟩ ⟨11, "", scanner.EOF⟩
    [⟨2, "B", scanner.Ident⟩, ⟨3, "=", 61⟩, ⟨4, "(", 40⟩, ⟨5, "8", scanner.Int⟩,
      ⟨6, "/", 47⟩, ⟨8, "10", scanner.Int⟩, ⟨9, ")", 41⟩, ⟨10, "+", 43⟩,
      ⟨11, "A", scanner.Ident⟩]
    12 _ _ (by decide) rfl rfl rfl).1.trans (by decide)

/-! ## The parse result does not depend on token positions -/

theorem advance_strip (s : Interpreter) : (strip s).advance = strip s.advance := by
  simp only [Interpreter.advance, strip, List.length_map]
  split <;> rfl

theorem cur_strip (s : Interpreter) : (strip s).cur = s.cur.map Token.unplaced := by
  simp only [Interpreter.cur, strip]
  split
  · simp [List.get?_eq_getElem?]
  · rfl

theorem scan_strip (s : Interpreter) :
    (strip s).Scan = s.Scan.map fun r => (r.1, strip r.2) := by
  simp only [Interpreter.Scan, advance_strip, cur_strip, Option.map_map]
  rfl

theorem text_strip (s : Interpreter) : (strip s).TokenText = s.TokenText := by
  simp only [Interpreter.TokenText, cur_strip, Option.map_map]
  rfl

theorem column_strip (s : Interpreter) : (strip s).Column = s.Column.map fun _ => 0 := by
  simp only [Interpreter.Column, cur_strip, Option.map_map]
  rfl

theorem back_strip (s : Interpreter) : (strip s).Back = strip s.Back := rfl

theorem combine_sim {rule op : String} {lhs : Expr} {r r' : Outcome} (h : Sim r r') :
    Sim (combine rule op lhs r) (combine rule op lhs r') := by
  cases r <;> cases r' <;> simp only [Sim] at h <;> simp only [combine, Sim]
  · exact ⟨by rw [h.1], h.2⟩
  · exact h

theorem negate_sim {r r' : Outcome} (h : Sim r r') : Sim (negate r) (negate r') := by
  cases r <;> cases r' <;> simp only [Sim] at h <;> simp only [negate, Sim]
  · exact ⟨by rw [h.1], h.2⟩
  · exact h

theorem closeParen_sim {r r' : Outcome} (h : Sim r r') :
    Sim (closeParen r) (closeParen r') := by
  cases r <;> cases r' <;> simp only [Sim] at h <;> try (simp only [closeParen, Sim]; done)
  · rename_i e s e' s'
    obtain ⟨rfl, rfl⟩ := h
    simp only [closeParen, scan_strip]
    cases s.Scan with
    | none => trivial
    | some q =>
      obtain ⟨tok, s3⟩ := q
      simp only [Option.map_some', text_strip, column_strip]
      cases s3.TokenText with
      | none => trivial
      | some close =>
        simp only
        split
        · cases s3.Column <;> simp [Sim]
        · exact ⟨rfl, rfl⟩
  · simp only [closeParen, Sim]
    exact h

theorem finishStmt_sim {ident : String} {r r' : Outcome} (h : Sim r r') :
    Sim (finishStmt ident r) (finishStmt ident r') := by
  cases r <;> cases r' <;> simp only [Sim] at h <;> try (simp only [finishStmt, Sim]; done)
  · rename_i e s e' s'
    obtain ⟨rfl, rfl⟩ := h
    simp only [finishStmt, scan_strip]
    cases s.Scan with
    | none => trivial
    | some q =>
      obtain ⟨tok, s4⟩ := q
      simp only [Option.map_some', text_strip]
      split
      · cases s4.TokenText <;> simp [Sim]
      · exact ⟨rfl, rfl⟩
  · simp only [finishStmt, Sim]
    exact h

theorem operatorTail_sim {sub o1 o2 self : String} {recur : Interpreter → Outcome}
    (hrec : ∀ s, Sim (recur s) (recur (strip s))) {r r' : Outcome} (h : Sim r r') :
    Sim (operatorTail sub o1 o2 self recur r) (operatorTail sub o1 o2 self recur r') := by
  cases r <;> cases r' <;> simp only [Sim] at h <;> try (simp only [operatorTail, Sim]; done)
  · rename_i e s e' s'
    obtain ⟨rfl, rfl⟩ := h
    simp only [operatorTail, scan_strip]
    cases s.Scan with
    | none => trivial
    | some q =>
      obtain ⟨tok, s2⟩ := q
      simp only [Option.map_some', text_strip, back_strip]
      split
      · exact ⟨rfl, rfl⟩
      · cases s2.TokenText with
        | none => trivial
        | some op =>
          simp only
          split
          · exact combine_sim (hrec s2)
          · exact ⟨rfl, rfl⟩
  · simp only [operatorTail, Sim]
    exact h

theorem factorBody_sim {recE recF : Interpreter → Outcome}
    (hE : ∀ s, Sim (recE s) (recE (strip s))) (hF : ∀ s, Sim (recF s) (recF (strip s)))
    (s : Interpreter) : Sim (factorBody recE recF s) (factorBody recE recF (strip s)) := by
  simp only [factorBody, scan_strip]
  cases s.Scan with
  | none => trivial
  | some q =>
    obtain ⟨tok, s1⟩ := q
    simp only [Option.map_some', text_strip, column_strip]
    split
    · cases s1.TokenText <;> simp [Sim]
    · split
      · cases s1.TokenText <;> simp [Sim]
      · cases s1.TokenText with
        | none => trivial
        | some text =>
          simp only
          split
          · exact closeParen_sim (hE s1)
          · split
            · exact negate_sim (hF s1)
            · split
              · exact ⟨rfl, rfl⟩
              · cases s1.Column <;> simp [Sim]

theorem stmtBody_sim {recE : Interpreter → Outcome}
    (hE : ∀ s, Sim (recE s) (recE (strip s))) (s : Interpreter) :
    Sim (stmtBody recE s) (stmtBody recE (strip s)) := by
  simp only [stmtBody, scan_strip]
  cases s.Scan with
  | none => trivial
  | some q =>
    obtain ⟨tok, s1⟩ := q
    simp only [Option.map_some', text_strip, column_strip, scan_strip]
    split
    · simp [Sim]
    · split
      · cases s1.TokenText with
        | none => trivial
        | some ident =>
          simp only
          cases s1.Scan with
          | none => trivial
          | some q2 =>
            obtain ⟨tok2, s2⟩ := q2
            simp only [Option.map_some', text_strip, column_strip]
            split
            · simp [Sim]
            · cases s2.TokenText with
              | none => trivial
              | some text =>
                simp only
                split
                · exact finishStmt_sim (hE s2)
                · cases s2.Column <;> simp [Sim]
      · cases s1.TokenText <;> cases s1.Column <;> simp [Sim]

theorem sim_rules (n : Nat) :
    (∀ s, Sim (parseFactor n s) (parseFactor n (strip s)))
      ∧ (∀ s, Sim (parseTerm n s) (parseTerm n (strip s)))
      ∧ (∀ s, Sim (parseExpr n s) (parseExpr n (strip s))) := by
  induction n with
  | zero =>
    refine ⟨fun s => ?_, fun s => ?_, fun s => ?_⟩
    · rw [parseFactor, parseFactor]; trivial
    · rw [parseTerm, parseTerm]; trivial
    · rw [parseExpr, parseExpr]; trivial
  | succ n ih =>
    obtain ⟨ihF, ihT, ihE⟩ := ih
    refine ⟨fun s => ?_, fun s => ?_, fun s => ?_⟩
    · rw [parseFactor_succ_body, parseFactor_succ_body]
      exact factorBody_sim ihE ihF s
    · rw [parseTerm_succ, parseTerm_succ]
      exact operatorTail_sim ihT (ihF s)
    · rw [parseExpr_succ, parseExpr_succ]
      exact operatorTail_sim ihE (ihT s)

theorem sim_stmt (n : Nat) (s : Interpreter) : Sim (parseStmt n s) (parseStmt n (strip s)) := by
  rw [parseStmt_body, parseStmt_body]
  exact stmtBody_sim (sim_rules n).2.2 s

theorem strip_eq_of_agree (toks1 toks2 : List Token) (i : Int)
    (h : toks1.map (fun t => (t.Val, t.Typ)) = toks2.map (fun t => (t.Val, t.Typ))) :
    strip ⟨toks1, i⟩ = strip ⟨toks2, i⟩ := by
  have h1 := congrArg (List.map fun p : String × Int => (⟨0, p.1, p.2⟩ : Token)) h
  simp only [List.map_map] at h1
  simp only [strip, Interpreter.mk.injEq, and_true]
  exact h1

theorem index_of_strip_eq {a b : Interpreter} (h : strip a = strip b) :
    a.tokenIndex = b.tokenIndex := by
  have h1 := congrArg Interpreter.tokenIndex h
  exact h1

/-- C19: the parse result does not depend on token positions.  For two token lists that
agree token by token on `Val` and `Type` (and so have the same length) and differ at
most in `Pos`, and for every recursion budget, `parseStmt` started at cursor 0 returns
on both a tree, the same one, or on both an error, or panics on both, or exhausts the
budget on both, with the cursor on the same index; and when the first list ends in an
`EOF` token with empty text and the budget is at least three times its length, it
succeeds on both with equal trees or fails on both with an error. -/
theorem position_independent (toks1 toks2 : List Token) (n : Nat)
    (h : toks1.map (fun t => (t.Val, t.Typ)) = toks2.map (fun t => (t.Val, t.Typ))) :
    ((∃ e s1 s2, parseStmt n ⟨toks1, 0⟩ = .ok e s1 ∧ parseStmt n ⟨toks2, 0⟩ = .ok e s2
        ∧ s1.tokenIndex = s2.tokenIndex) ∨
      (∃ err1 err2 s1 s2, parseStmt n ⟨toks1, 0⟩ = .error err1 s1
        ∧ parseStmt n ⟨toks2, 0⟩ = .error err2 s2 ∧ s1.tokenIndex = s2.tokenIndex) ∨
      (parseStmt n ⟨toks1, 0⟩ = .panic ∧ parseStmt n ⟨toks2, 0⟩ = .panic) ∨
      (parseStmt n ⟨toks1, 0⟩ = .timeout ∧ parseStmt n ⟨toks2, 0⟩ = .timeout)) ∧
    (∀ mid eof, toks1 = mid ++ [eof] → eof.Typ = scanner.EOF → eof.Val = "" →
      3 * toks1.length ≤ n →
      (∃ e s1 s2, parseStmt n ⟨toks1, 0⟩ = .ok e s1 ∧ parseStmt n ⟨toks2, 0⟩ = .ok e s2) ∨
      (∃ err1 err2 s1 s2, parseStmt n ⟨toks1, 0⟩ = .error err1 s1
        ∧ parseStmt n ⟨toks2, 0⟩ = .error err2 s2)) := by
  have h1 := sim_stmt n ⟨toks1, 0⟩
  have h2 := sim_stmt n ⟨toks2, 0⟩
  rw [strip_eq_of_agree toks1 toks2 0 h] at h1
  have key : (∃ e s1 s2, parseStmt n ⟨toks1, 0⟩ = .ok e s1 ∧ parseStmt n ⟨toks2, 0⟩ = .ok e s2
        ∧ s1.tokenIndex = s2.tokenIndex) ∨
      (∃ err1 err2 s1 s2, parseStmt n ⟨toks1, 0⟩ = .error err1 s1
        ∧ parseStmt n ⟨toks2, 0⟩ = .error err2 s2 ∧ s1.tokenIndex = s2.tokenIndex) ∨
      (parseStmt n ⟨toks1, 0⟩ = .panic ∧ parseStmt n ⟨toks2, 0⟩ = .panic) ∨
      (parseStmt n ⟨toks1, 0⟩ = .timeout ∧ parseStmt n ⟨toks2, 0⟩ = .timeout) := by
    generalize parseStmt n (strip ⟨toks2, 0⟩) = r0 at h1 h2
    generalize parseStmt n ⟨toks1, 0⟩ = r1 at h1
    generalize parseStmt n ⟨toks2, 0⟩ = r2 at h2
    cases r1 <;> cases r0 <;> simp only [Sim] at h1 <;> cases r2 <;> simp only [Sim] at h2
    · obtain ⟨rfl, rfl⟩ := h1
      obtain ⟨rfl, h4⟩ := h2
      exact .inl ⟨_, _, _, rfl, rfl, index_of_strip_eq h4⟩
    · subst h1
      exact .inr (.inl ⟨_, _, _, _, rfl, rfl, index_of_strip_eq h2⟩)
    · exact .inr (.inr (.inl ⟨rfl, rfl⟩))
    · exact .inr (.inr (.inr ⟨rfl, rfl⟩))
  refine ⟨key, fun mid eof hm heof htext hn => ?_⟩
  subst hm
  have hl : 3 * (mid.length + 1) ≤ n := by
    simp only [List.length_append, List.length_cons, List.length_nil] at hn
    omega
  rcases key with ⟨e, s1, s2, k1, k2, -⟩ | ⟨e1, e2, s1, s2, k1, k2, -⟩ | ⟨k1, -⟩ | ⟨k1, -⟩
  · exact .inl ⟨e, s1, s2, k1, k2⟩
  · exact .inr ⟨e1, e2, s1, s2, k1, k2⟩
  · rcases parseStmt_terminates mid eof heof htext n hl with ⟨e, s', k⟩ | ⟨e, s', k⟩ <;>
      rw [k1] at k <;> simp at k
  · rcases parseStmt_terminates mid eof heof htext n hl with ⟨e, s', k⟩ | ⟨e, s', k⟩ <;>
      rw [k1] at k <;> simp at k

/-! ## What the errors carry -/

theorem Located.carries {err : GoError} {t : Token} (h : Located err.innermost t) :
    CarriesPosVal err t := by
  rcases h with h | h | h | h
  · exact ⟨" need \"number | ( | - | ident\"", by
      rw [h]; exact (String.append_assoc _ "\")" " need \"number | ( | - | ident\"").symm⟩
  · exact ⟨" need \")\"", by
      rw [h]; exact (String.append_assoc _ "\")" " need \")\"").symm⟩
  · exact ⟨" need \"=\"", by
      rw [h]; exact (String.append_assoc _ "\")" " need \"=\"").symm⟩
  · exact ⟨"", by rw [h, String.append_empty]; rfl⟩

theorem closeParen_allErr {r : Outcome} (h : r.AllErr AtCursor) :
    (closeParen r).AllErr AtCursor := by
  cases r with
  | ok expr s2 =>
    simp only [closeParen]
    cases s2.Scan with
    | none => trivial
    | some q =>
      obtain ⟨tok, s3⟩ := q
      simp only
      cases hc : s3.cur with
      | none => simp only [Interpreter.TokenText, hc, Option.map_none']; trivial
      | some t =>
        simp only [Interpreter.TokenText, Interpreter.Column, hc, Option.map_some']
        split
        · exact ⟨t, hc, .inr (.inl rfl)⟩
        · trivial
  | error err s => exact h
  | panic => trivial
  | timeout => trivial

theorem negate_allErr {r : Outcome} (h : r.AllErr AtCursor) : (negate r).AllErr AtCursor := by
  cases r with
  | ok expr s2 => trivial
  | error err s => exact h
  | panic => trivial
  | timeout => trivial

theorem combine_allErr {rule op : String} {lhs : Expr} {r : Outcome}
    (h : r.AllErr AtCursor) : (combine rule op lhs r).AllErr AtCursor := by
  cases r with
  | ok expr s2 => trivial
  | error err s => exact h
  | panic => trivial
  | timeout => trivial

theorem operatorTail_allErr {sub o1 o2 self : String} {recur : Interpreter → Outcome}
    {r : Outcome} (hrec : ∀ s, (recur s).AllErr AtCursor) (h : r.AllErr AtCursor) :
    (operatorTail sub o1 o2 self recur r).AllErr AtCursor := by
  cases r with
  | ok lhs s1 =>
    simp only [operatorTail]
    cases s1.Scan with
    | none => trivial
    | some q =>
      obtain ⟨tok, s2⟩ := q
      simp only
      split
      · trivial
      · cases s2.TokenText with
        | none => trivial
        | some op =>
          simp only
          split
          · exact combine_allErr (hrec s2)
          · trivial
  | error err s => exact h
  | panic => trivial
  | timeout => trivial

theorem factorBody_allErr {recE recF : Interpreter → Outcome}
    (hE : ∀ s, (recE s).AllErr AtCursor) (hF : ∀ s, (recF s).AllErr AtCursor)
    (s : Interpreter) : (factorBody recE recF s).AllErr AtCursor := by
  simp only [factorBody]
  cases s.Scan with
  | none => trivial
  | some q =>
    obtain ⟨tok, s1⟩ := q
    simp only
    cases hc : s1.cur with
    | none =>
      simp only [Interpreter.TokenText, hc, Option.map_none']
      split
      · trivial
      · split <;> trivial
    | some t =>
      simp only [Interpreter.TokenText, Interpreter.Column, hc, Option.map_some']
      split
      · trivial
      · split
        · trivial
        · split
          · exact closeParen_allErr (hE s1)
          · split
            · exact negate_allErr (hF s1)
            · split
              · trivial
              · exact ⟨t, hc, .inl rfl⟩

theorem allErr_rules (n : Nat) :
    (∀ s, (parseFactor n s).AllErr AtCursor) ∧ (∀ s, (parseTerm n s).AllErr AtCursor)
      ∧ (∀ s, (parseExpr n s).AllErr AtCursor) := by
  induction n with
  | zero =>
    refine ⟨fun s => ?_, fun s => ?_, fun s => ?_⟩
    · rw [parseFactor]; trivial
    · rw [parseTerm]; trivial
    · rw [parseExpr]; trivial
  | succ n ih =>
    obtain ⟨ihF, ihT, ihE⟩ := ih
    refine ⟨fun s => ?_, fun s => ?_, fun s => ?_⟩
    · rw [parseFactor_succ_body]
      exact factorBody_allErr ihE ihF s
    · rw [parseTerm_succ]
      exact operatorTail_allErr ihT (ihF s)
    · rw [parseExpr_succ]
      exact operatorTail_allErr ihE (ihT s)

/-- Every error of `parseStmt`, on any token list and from any cursor, is
`unexcept EOF`, or `unexcept next token` with the text of the token under the cursor, or
has an innermost cause that names the column and the text of the token under the
cursor. -/
theorem parseStmt_allErr (n : Nat) (s : Interpreter) :
    (parseStmt n s).AllErr fun err s' =>
      err = errEOF ∨ ∃ t, s'.cur = some t ∧ (err = errNext t.Val ∨ Located err.innermost t) := by
  rw [parseStmt_body]
  simp only [stmtBody]
  cases s.Scan with
  | none => trivial
  | some q =>
    obtain ⟨tok, s1⟩ := q
    simp only
    cases hc1 : s1.cur with
    | none =>
      simp only [Interpreter.TokenText, Interpreter.Column, hc1, Option.map_none']
      split
      · exact .inl rfl
      · split <;> trivial
    | some t1 =>
      simp only [Interpreter.TokenText, Interpreter.Column, hc1, Option.map_some']
      split
      · exact .inl rfl
      · split
        · cases s1.Scan with
          | none => trivial
          | some q2 =>
            obtain ⟨tok2, s2⟩ := q2
            simp only
            split
            · exact .inl rfl
            · cases hc2 : s2.cur with
              | none => simp only [hc2, Option.map_none']; trivial
              | some t2 =>
                simp only [hc2, Option.map_some']
                split
                · have h2 := (allErr_rules n).2.2 s2
                  cases h3 : parseExpr n s2 with
                  | ok rhs s3 =>
                    simp only [finishStmt]
                    cases s3.Scan with
                    | none => trivial
                    | some q3 =>
                      obtain ⟨tok3, s4⟩ := q3
                      simp only
                      split
                      · cases hc4 : s4.cur with
                        | none => simp only [Interpreter.TokenText, hc4, Option.map_none']; trivial
                        | some t4 =>
                          simp only [Interpreter.TokenText, hc4, Option.map_some']
                          exact .inr ⟨t4, hc4, .inl rfl⟩
                      · trivial
                  | error err s3 =>
                    rw [h3] at h2
                    obtain ⟨t, ht, hl⟩ := h2
                    exact .inr ⟨t, ht, .inr hl⟩
                  | panic => trivial
                  | timeout => trivial
                · exact .inr ⟨t2, hc2, .inr (.inr (.inr (.inl rfl)))⟩
        · exact .inr ⟨t1, hc1, .inr (.inr (.inr (.inr rfl)))⟩

/-- Counterexample to C12 as stated: on the tokens of `A` the error of `parseStmt` is
`unexcept EOF`, found at the `EOF` token, and this message names no column and no text:
it does not start with `pos(<Pos>) invalid token("<Val>")`, for any token. -/
theorem errors_carry_counterexample :
    parseStmt 0 ⟨[⟨0, "", 0⟩, ⟨2, "A", scanner.Ident⟩, ⟨2, "", scanner.EOF⟩], 0⟩
      = .error (.plain "unexcept EOF")
          ⟨[⟨0, "", 0⟩, ⟨2, "A", scanner.Ident⟩, ⟨2, "", scanner.EOF⟩], 2⟩ ∧
    ∀ t, ¬ CarriesPosVal (.plain "unexcept EOF") t := by
  refine ⟨rfl, fun t h => ?_⟩
  obtain ⟨tail, h⟩ := h
  have h1 := congrArg String.data h
  simp only [GoError.innermost, GoError.Error, String.data_append, List.append_assoc] at h1
  have h2 := congrArg List.head? h1
  simp at h2

/-- C12, as amended: every error that `parseStmt` returns, on any token list and with
any recursion budget, is `unexcept EOF`, or is `unexcept next token("<Val>")` with the
text of the token at which parsing stopped, or has an innermost cause whose message
starts with `pos(<Pos>) invalid token("<Val>")`, the column and the text of the token at
which parsing stopped (the token under the cursor of the returned state). -/
theorem errors_carry (toks : List Token) (n : Nat) (err : GoError) (s' : Interpreter)
    (h : parseStmt n ⟨toks, 0⟩ = .error err s') :
    err = .plain "unexcept EOF" ∨
      ∃ t, s'.cur = some t ∧
        (err = .plain ("unexcept next token(\"" ++ t.Val ++ "\")") ∨ CarriesPosVal err t) := by
  have h1 := parseStmt_allErr n ⟨toks, 0⟩
  rw [h] at h1
  rcases h1 with h1 | ⟨t, ht, h2 | h2⟩
  · exact .inl h1
  · exact .inr ⟨t, ht, .inl h2⟩
  · exact .inr ⟨t, ht, .inr h2.carries⟩

/-- Witness of C12, as amended, on the tokens of `A=5+`: the innermost cause names column
5 and the empty text of the `EOF` token. -/
theorem errors_carry_witness :
    ∃ err s',
      parseStmt 8 ⟨[⟨0, "", 0⟩, ⟨2, "A", scanner.Ident⟩, ⟨3, "=", 61⟩, ⟨4, "5", scanner.Int⟩,
        ⟨5, "+", 43⟩, ⟨5, "", scanner.EOF⟩], 0⟩ = .error err s' ∧
      (err = .plain "unexcept EOF" ∨
        ∃ t, s'.cur = some t ∧
          (err = .plain ("unexcept next token(\"" ++ t.Val ++ "\")") ∨ CarriesPosVal err t)) :=
  ⟨_, _, rfl, errors_carry [⟨0, "", 0⟩, ⟨2, "A", scanner.Ident⟩, ⟨3, "=", 61⟩,
    ⟨4, "5", scanner.Int⟩, ⟨5, "+", 43⟩, ⟨5, "", scanner.EOF⟩] 8 _ _ rfl⟩

/-- Witness of C19 on the tokens of `A=2+3` and of `A = 2 + 3`. -/
theorem position_independent_witness :
    (∃ e s1 s2,
        parseStmt 21 ⟨[⟨0, "", 0⟩, ⟨2, "A", scanner.Ident⟩, ⟨3, "=", 61⟩,
          ⟨4, "2", scanner.Int⟩, ⟨5, "+", 43⟩, ⟨6, "3", scanner.Int⟩,
          ⟨6, "", scanner.EOF⟩], 0⟩ = .ok e s1 ∧
        parseStmt 21 ⟨[⟨0, "", 0⟩, ⟨2, "A", scanner.Ident⟩, ⟨4, "=", 61⟩,
          ⟨6, "2", scanner.Int⟩, ⟨8, "+", 43⟩, ⟨10, "3", scanner.Int⟩,
          ⟨10, "", scanner.EOF⟩], 0⟩ = .ok e s2) ∨
      (∃ err1 err2 s1 s2,
        parseStmt 21 ⟨[⟨0, "", 0⟩, ⟨2, "A", scanner.Ident⟩, ⟨3, "=", 61⟩,
          ⟨4, "2", scanner.Int⟩, ⟨5, "+", 43⟩, ⟨6, "3", scanner.Int⟩,
          ⟨6, "", scanner.EOF⟩], 0⟩ = .error err1 s1 ∧
        parseStmt 21 ⟨[⟨0, "", 0⟩, ⟨2, "A", scanner.Ident⟩, ⟨4, "=", 61⟩,
          ⟨6, "2", scanner.Int⟩, ⟨8, "+", 43⟩, ⟨10, "3", scanner.Int⟩,
          ⟨10, "", scanner.EOF⟩], 0⟩ = .error err2 s2) :=
  (position_independent
    [⟨0, "", 0⟩, ⟨2, "A", scanner.Ident⟩, ⟨3, "=", 61⟩, ⟨4, "2", scanner.Int⟩, ⟨5, "+", 43⟩,
      ⟨6, "3", scanner.Int⟩, ⟨6, "", scanner.EOF⟩]
    [⟨0, "", 0⟩, ⟨2, "A", scanner.Ident⟩, ⟨4, "=", 61⟩, ⟨6, "2", scanner.Int⟩, ⟨8, "+", 43⟩,
      ⟨10, "3", scanner.Int⟩, ⟨10, "", scanner.EOF⟩]
    21 rfl).2
    [⟨0, "", 0⟩, ⟨2, "A", scanner.Ident⟩, ⟨3, "=", 61⟩, ⟨4, "2", scanner.Int⟩, ⟨5, "+", 43⟩,
      ⟨6, "3", scanner.Int⟩] ⟨6, "", scanner.EOF⟩ rfl rfl rfl (by decide)

/-! ## The logged run is the run -/

theorem Traced.scan_eq (s : Traced) :
    s.Scan = s.interp.Scan.map fun r =>
      (r.1, ⟨r.2, s.log ++ [.scan s.interp.tokenIndex r.2.tokenIndex]⟩) := by
  simp only [Traced.Scan]
  cases s.interp.Scan <;> rfl

theorem Traced.text_eq (s : Traced) :
    s.TokenText = s.interp.TokenText.map fun v =>
      (v, ⟨s.interp, s.log ++ [.access s.interp.tokenIndex]⟩) := by
  simp only [Traced.TokenText]
  cases s.interp.TokenText <;> rfl

theorem Traced.column_eq (s : Traced) :
    s.Column = s.interp.Column.map fun c =>
      (c, ⟨s.interp, s.log ++ [.access s.interp.tokenIndex]⟩) := by
  simp only [Traced.Column]
  cases s.interp.Column <;> rfl

theorem tCombine_erase (rule op : String) (lhs : Expr) (r : TOutcome) :
    (tCombine rule op lhs r).erase = combine rule op lhs r.erase := by
  cases r <;> rfl

theorem tNegate_erase (r : TOutcome) : (tNegate r).erase = negate r.erase := by
  cases r <;> rfl

theorem tOperatorTail_erase {sub o1 o2 self : String} {trecur : Traced → TOutcome}
    {recur : Interpreter → Outcome} (hrec : ∀ s, (trecur s).erase = recur s.interp)
    (r : TOutcome) :
    (tOperatorTail sub o1 o2 self trecur r).erase
      = operatorTail sub o1 o2 self recur r.erase := by
  cases r with
  | ok lhs s1 =>
    simp only [tOperatorTail, operatorTail, TOutcome.erase, Traced.scan_eq]
    cases s1.interp.Scan with
    | none => rfl
    | some q =>
      obtain ⟨tok, s2⟩ := q
      simp only [Option.map_some']
      by_cases hE : tok = scanner.EOF
      · rw [if_pos hE, if_pos hE]
      · rw [if_neg hE, if_neg hE]
        simp only [Traced.text_eq]
        cases h : s2.TokenText with
        | none => rfl
        | some text =>
          simp only [Option.map_some']
          by_cases hop : text = o1 ∨ text = o2
          · rw [if_pos hop, if_pos hop]
            simp only [h, Option.map_some']
            have h2 := tCombine_erase self text lhs (trecur ⟨s2, s1.log
              ++ [Event.scan s1.interp.tokenIndex s2.tokenIndex] ++ [Event.access s2.tokenIndex]
              ++ [Event.access s2.tokenIndex]⟩)
            rw [hrec] at h2
            exact h2
          · rw [if_neg hop, if_neg hop]; rfl
  | error err s1 => rfl
  | panic => rfl
  | timeout => rfl

theorem tCloseParen_erase (r : TOutcome) : (tCloseParen r).erase = closeParen r.erase := by
  cases r with
  | ok expr s2 =>
    simp only [tCloseParen, closeParen, TOutcome.erase, Traced.scan_eq]
    cases s2.interp.Scan with
    | none => rfl
    | some q =>
      obtain ⟨tok, s3⟩ := q
      simp only [Option.map_some', Traced.text_eq, Traced.column_eq]
      cases h : s3.TokenText with
      | none => rfl
      | some close =>
        simp only [Option.map_some']
        by_cases hc : close ≠ ")"
        · rw [if_pos hc, if_pos hc]
          cases s3.Column with
          | none => rfl
          | some col => simp only [Option.map_some', h]
        · rw [if_neg hc, if_neg hc]
  | error err s1 => rfl
  | panic => rfl
  | timeout => rfl

theorem tFinishStmt_erase (ident : String) (r : TOutcome) :
    (tFinishStmt ident r).erase = finishStmt ident r.erase := by
  cases r with
  | ok rhs s3 =>
    simp only [tFinishStmt, finishStmt, TOutcome.erase, Traced.scan_eq]
    cases s3.interp.Scan with
    | none => rfl
    | some q =>
      obtain ⟨tok, s4⟩ := q
      simp only [Option.map_some', Traced.text_eq]
      by_cases hE : tok ≠ scanner.EOF
      · rw [if_pos hE, if_pos hE]
        cases s4.TokenText <;> rfl
      · rw [if_neg hE, if_neg hE]
  | error err s1 => rfl
  | panic => rfl
  | timeout => rfl

theorem tFactorBody_erase {trecE trecF : Traced → TOutcome} {recE recF : Interpreter → Outcome}
    (hE : ∀ s, (trecE s).erase = recE s.interp) (hF : ∀ s, (trecF s).erase = recF s.interp)
    (s : Traced) : (tFactorBody trecE trecF s).erase = factorBody recE recF s.interp := by
  simp only [tFactorBody, factorBody, Traced.scan_eq]
  cases s.interp.Scan with
  | none => rfl
  | some q =>
    obtain ⟨tok, s1⟩ := q
    simp only [Option.map_some', Traced.text_eq, Traced.column_eq]
    cases h : s1.TokenText with
    | none =>
      simp only [Option.map_none']
      by_cases h1 : tok = scanner.Int
      · rw [if_pos h1, if_pos h1]; rfl
      · rw [if_neg h1, if_neg h1]
        by_cases h2 : tok = scanner.Float
        · rw [if_pos h2, if_pos h2]; rfl
        · rw [if_neg h2, if_neg h2]; rfl
    | some text =>
      simp only [Option.map_some']
      by_cases h1 : tok = scanner.Int
      · rw [if_pos h1, if_pos h1]; rfl
      · rw [if_neg h1, if_neg h1]
        by_cases h2 : tok = scanner.Float
        · rw [if_pos h2, if_pos h2]; rfl
        · rw [if_neg h2, if_neg h2]
          by_cases h3 : text = "("
          · rw [if_pos h3, if_pos h3, tCloseParen_erase, hE]
          · rw [if_neg h3, if_neg h3]
            by_cases h4 : text = "-"
            · rw [if_pos h4, if_pos h4, tNegate_erase, hF]
            · rw [if_neg h4, if_neg h4]
              by_cases h5 : tok = scanner.Ident
              · rw [if_pos h5, if_pos h5]
                simp only [h, Option.map_some']
                rfl
              · rw [if_neg h5, if_neg h5]
                cases s1.Column with
                | none => rfl
                | some col =>
                  simp only [h, Option.map_some']
                  rfl

theorem tStmtBody_erase {trecE : Traced → TOutcome} {recE : Interpreter → Outcome}
    (hE : ∀ s, (trecE s).erase = recE s.interp) (s : Traced) :
    (tStmtBody trecE s).erase = stmtBody recE s.interp := by
  simp only [tStmtBody, stmtBody, Traced.scan_eq]
  cases s.interp.Scan with
  | none => rfl
  | some q =>
    obtain ⟨tok, s1⟩ := q
    simp only [Option.map_some', Traced.text_eq, Traced.column_eq, Traced.scan_eq]
    by_cases h1 : tok = scanner.EOF
    · rw [if_pos h1, if_pos h1]; rfl
    · rw [if_neg h1, if_neg h1]
      by_cases h2 : tok = scanner.Ident
      · rw [if_pos h2, if_pos h2]
        cases s1.TokenText with
        | none => rfl
        | some ident =>
          simp only [Option.map_some']
          cases s1.Scan with
          | none => rfl
          | some q2 =>
            obtain ⟨tok2, s3⟩ := q2
            simp only [Option.map_some']
            by_cases h3 : tok2 = scanner.EOF
            · rw [if_pos h3, if_pos h3]; rfl
            · rw [if_neg h3, if_neg h3]
              cases h4 : s3.TokenText with
              | none => rfl
              | some text =>
                simp only [Option.map_some']
                by_cases h5 : text = "="
                · rw [if_pos h5, if_pos h5, tFinishStmt_erase, hE]
                · rw [if_neg h5, if_neg h5]
                  cases s3.Column with
                  | none => rfl
                  | some col =>
                    simp only [h4, Option.map_some']
                    rfl
      · rw [if_neg h2, if_neg h2]
        cases h4 : s1.TokenText with
        | none => cases s1.Column <;> simp only [Option.map_some', Option.map_none', h4] <;> rfl
        | some text =>
          cases s1.Column with
          | none => rfl
          | some col =>
            simp only [h4, Option.map_some']
            rfl

theorem erase_rules (n : Nat) :
    (∀ s, (tparseFactor n s).erase = parseFactor n s.interp)
      ∧ (∀ s, (tparseTerm n s).erase = parseTerm n s.interp)
      ∧ (∀ s, (tparseExpr n s).erase = parseExpr n s.interp) := by
  induction n with
  | zero =>
    refine ⟨fun s => ?_, fun s => ?_, fun s => ?_⟩
    · rw [tparseFactor, parseFactor]; rfl
    · rw [tparseTerm, parseTerm]; rfl
    · rw [tparseExpr, parseExpr]; rfl
  | succ n ih =>
    obtain ⟨ihF, ihT, ihE⟩ := ih
    refine ⟨fun s => ?_, fun s => ?_, fun s => ?_⟩
    · rw [tparseFactor, parseFactor_succ_body]
      exact tFactorBody_erase ihE ihF s
    · rw [tparseTerm, parseTerm_succ, tOperatorTail_erase ihT, ihF]
    · rw [tparseExpr, parseExpr_succ, tOperatorTail_erase ihE, ihT]

/-- The logged `parseStmt` returns what `parseStmt` returns. -/
theorem tparseStmt_erase (n : Nat) (s : Traced) :
    (tparseStmt n s).erase = parseStmt n s.interp := by
  rw [tparseStmt, parseStmt_body]
  exact tStmtBody_erase (erase_rules n).2.2 s
/-! ## The cursor stays in range and every `Back` is legal -/

theorem monitor_snoc (len : Nat) (log : List Event) (ev : Event) :
    monitor len (log ++ [ev]) = checkStep len (monitor len log) ev := by
  simp only [monitor, List.foldl_append, List.foldl_cons, List.foldl_nil]

theorem At.inside {toks pre post : List Token} {u : Token} {s : Traced} {m : Bool}
    (h : At toks pre u post s m) : Inside toks s :=
  ⟨pre ++ [u], post, h.1, by simp, h.2.1, by simp only [legal, h.2.2, Option.isSome_some]⟩

theorem At.index {toks pre post : List Token} {u : Token} {s : Traced} {m : Bool}
    (h : At toks pre u post s m) :
    0 ≤ s.interp.tokenIndex ∧ s.interp.tokenIndex < toks.length
      ∧ s.interp.tokenIndex = pre.length := by
  obtain ⟨h1, h2, -⟩ := h
  rw [h1, ← h2]
  simp only [mk, List.length_append, List.length_cons, List.length_nil]
  push_cast
  omega

theorem At.read_text {toks pre post : List Token} {u : Token} {s : Traced} {m : Bool}
    (h : At toks pre u post s m) :
    ∃ s', s.TokenText = some (u.Val, s') ∧ At toks pre u post s' m := by
  have hi := h.index
  obtain ⟨h1, h2, h3⟩ := h
  refine ⟨⟨s.interp, s.log ++ [.access s.interp.tokenIndex]⟩, ?_, h1, h2, ?_⟩
  · rw [Traced.text_eq, h1, text_mk]; rfl
  · rw [monitor_snoc, h3]
    simp only [checkStep, hi.1, hi.2.1, and_self, if_true]

theorem At.read_column {toks pre post : List Token} {u : Token} {s : Traced} {m : Bool}
    (h : At toks pre u post s m) :
    ∃ s', s.Column = some (u.Pos, s') ∧ At toks pre u post s' m := by
  have hi := h.index
  obtain ⟨h1, h2, h3⟩ := h
  refine ⟨⟨s.interp, s.log ++ [.access s.interp.tokenIndex]⟩, ?_, h1, h2, ?_⟩
  · rw [Traced.column_eq, h1, column_mk]; rfl
  · rw [monitor_snoc, h3]
    simp only [checkStep, hi.1, hi.2.1, and_self, if_true]

theorem At.back {toks pre post : List Token} {u : Token} {s : Traced}
    (h : At toks pre u post s true) (hpre : pre ≠ []) : Inside toks s.Back := by
  have hi := h.index
  obtain ⟨h1, h2, h3⟩ := h
  refine ⟨pre, u :: post, ?_, hpre, by rw [← h2]; simp, ?_⟩
  · simp only [Traced.Back, h1, back_mk]
  · have hp : 1 ≤ pre.length := by
      cases pre with
      | nil => exact absurd rfl hpre
      | cons a l => simp
    have hb : (1 : Int) ≤ s.interp.tokenIndex := by rw [hi.2.2]; exact_mod_cast hp
    simp only [legal, Traced.Back, monitor_snoc, h3, checkStep, hb, and_self, if_true,
      Option.isSome_some]

theorem Inside.scan {toks : List Token} (hlast : ∀ p u, p ++ [u] = toks → u.Typ = scanner.EOF)
    {s : Traced} (h : Inside toks s) :
    ∃ u s1 pre post m, s.Scan = some (u.Typ, s1) ∧ At toks pre u post s1 m
      ∧ (u.Typ ≠ scanner.EOF → pre ≠ [] ∧ m = true) := by
  obtain ⟨pre, post, h1, hpre, h2, h3⟩ := h
  obtain ⟨m0, hm0⟩ := Option.isSome_iff_exists.mp h3
  cases post with
  | nil =>
    rcases snoc_cases pre with rfl | ⟨p, u, rfl⟩
    · exact absurd rfl hpre
    · have hu : u.Typ = scanner.EOF := hlast p u (by rw [← h2]; simp)
      have hidx : (0 : Int) ≤ (mk (p ++ [u]) []).tokenIndex
          ∧ (mk (p ++ [u]) []).tokenIndex < toks.length := by
        rw [← h2]
        simp only [mk, List.length_append, List.length_cons, List.length_nil]
        push_cast
        omega
      refine ⟨u, ⟨mk (p ++ [u]) [], s.log ++ [.scan (mk (p ++ [u]) []).tokenIndex
        (mk (p ++ [u]) []).tokenIndex]⟩, p, [],
        decide ((mk (p ++ [u]) []).tokenIndex = (mk (p ++ [u]) []).tokenIndex + 1), ?_,
        ⟨rfl, h2, ?_⟩, fun h => absurd hu h⟩
      · rw [Traced.scan_eq, h1, scan_mk_end]; rfl
      · rw [monitor_snoc, hm0]
        simp only [checkStep, hidx.1, hidx.2, and_self, if_true]
  | cons u rest =>
    have e1 : pre ++ [u] ++ rest = toks := by rw [← h2]; simp
    have hidx : (0 : Int) ≤ (mk (pre ++ [u]) rest).tokenIndex
        ∧ (mk (pre ++ [u]) rest).tokenIndex < toks.length
        ∧ (mk (pre ++ [u]) rest).tokenIndex = (mk pre (u :: rest)).tokenIndex + 1 := by
      rw [← e1]
      simp only [mk, List.length_append, List.length_cons, List.length_nil]
      push_cast
      omega
    refine ⟨u, ⟨mk (pre ++ [u]) rest, s.log ++ [.scan (mk pre (u :: rest)).tokenIndex
      (mk (pre ++ [u]) rest).tokenIndex]⟩, pre, rest, true, ?_, ⟨rfl, e1, ?_⟩,
      fun _ => ⟨hpre, rfl⟩⟩
    · rw [Traced.scan_eq, h1, scan_mk]; rfl
    · rw [monitor_snoc, hm0]
      simp only [checkStep]
      rw [if_pos ⟨hidx.1, hidx.2.1⟩, decide_eq_true hidx.2.2]

theorem At.log_legal {toks pre post : List Token} {u : Token} {s : Traced} {m : Bool}
    (h : At toks pre u post s m) : legal toks.length s.log = true := by
  simp only [legal, h.2.2, Option.isSome_some]

theorem tCombine_good {toks : List Token} (rule op : String) (lhs : Expr) {r : TOutcome}
    (h : TGood toks r) : TGood toks (tCombine rule op lhs r) := by
  cases r with
  | ok e s => exact h
  | error err s => exact h
  | panic => exact h
  | timeout => exact h

theorem tNegate_good {toks : List Token} {r : TOutcome}
    (h : TGood toks r) : TGood toks (tNegate r) := by
  cases r with
  | ok e s => exact h
  | error err s => exact h
  | panic => exact h
  | timeout => exact h

theorem tCloseParen_good {toks : List Token}
    (hlast : ∀ p u, p ++ [u] = toks → u.Typ = scanner.EOF) {r : TOutcome}
    (h : TGood toks r) : TGood toks (tCloseParen r) := by
  cases r with
  | ok e s =>
    obtain ⟨u, s1, pre, post, m, hs, hat, -⟩ := Inside.scan hlast h
    obtain ⟨s2, ht, hat2⟩ := hat.read_text
    obtain ⟨s3, hc, hat3⟩ := hat2.read_column
    obtain ⟨s4, ht4, hat4⟩ := hat3.read_text
    simp only [tCloseParen, hs, ht]
    by_cases hcl : u.Val ≠ ")"
    · rw [if_pos hcl]
      simp only [hc, ht4]
      exact hat4.log_legal
    · rw [if_neg hcl]
      exact hat2.inside
  | error err s => exact h
  | panic => exact h
  | timeout => exact h

theorem tFinishStmt_good {toks : List Token}
    (hlast : ∀ p u, p ++ [u] = toks → u.Typ = scanner.EOF) (ident : String) {r : TOutcome}
    (h : TGood toks r) : TGood toks (tFinishStmt ident r) := by
  cases r with
  | ok e s =>
    obtain ⟨u, s1, pre, post, m, hs, hat, -⟩ := Inside.scan hlast h
    obtain ⟨s2, ht, hat2⟩ := hat.read_text
    simp only [tFinishStmt, hs]
    by_cases hk : u.Typ ≠ scanner.EOF
    · rw [if_pos hk]
      simp only [ht]
      exact hat2.log_legal
    · rw [if_neg hk]
      exact hat.inside
  | error err s => exact h
  | panic => exact h
  | timeout => exact h

theorem tOperatorTail_good {toks : List Token}
    (hlast : ∀ p u, p ++ [u] = toks → u.Typ = scanner.EOF) (sub o1 o2 self : String)
    {recur : Traced → TOutcome} (hrec : ∀ s, Inside toks s → TGood toks (recur s))
    {r : TOutcome} (h : TGood toks r) :
    TGood toks (tOperatorTail sub o1 o2 self recur r) := by
  cases r with
  | ok e s =>
    obtain ⟨u, s1, pre, post, m, hs, hat, hm⟩ := Inside.scan hlast h
    obtain ⟨s2, ht, hat2⟩ := hat.read_text
    obtain ⟨s3, ht3, hat3⟩ := hat2.read_text
    simp only [tOperatorTail, hs]
    by_cases hk : u.Typ = scanner.EOF
    · rw [if_pos hk]
      exact hat.inside
    · rw [if_neg hk]
      simp only [ht]
      obtain ⟨hpre, rfl⟩ := hm hk
      by_cases ho : u.Val = o1 ∨ u.Val = o2
      · rw [if_pos ho]
        simp only [ht3]
        exact tCombine_good self u.Val e (hrec s3 hat3.inside)
      · rw [if_neg ho]
        exact hat2.back hpre
  | error err s => exact h
  | panic => exact h
  | timeout => exact h

theorem tFactorBody_good {toks : List Token}
    (hlast : ∀ p u, p ++ [u] = toks → u.Typ = scanner.EOF)
    {recE recF : Traced → TOutcome} (hE : ∀ s, Inside toks s → TGood toks (recE s))
    (hF : ∀ s, Inside toks s → TGood toks (recF s)) {s : Traced} (h : Inside toks s) :
    TGood toks (tFactorBody recE recF s) := by
  obtain ⟨u, s1, pre, post, m, hs, hat, -⟩ := Inside.scan hlast h
  obtain ⟨s2, ht, hat2⟩ := hat.read_text
  obtain ⟨s3, ht3, hat3⟩ := hat2.read_text
  obtain ⟨s4, hc4, hat4⟩ := hat2.read_column
  obtain ⟨s5, ht5, hat5⟩ := hat4.read_text
  simp only [tFactorBody, hs]
  by_cases h1 : u.Typ = scanner.Int
  · rw [if_pos h1]
    simp only [ht]
    exact hat2.inside
  · rw [if_neg h1]
    by_cases h2 : u.Typ = scanner.Float
    · rw [if_pos h2]
      simp only [ht]
      exact hat2.inside
    · rw [if_neg h2]
      simp only [ht]
      by_cases h3 : u.Val = "("
      · rw [if_pos h3]
        exact tCloseParen_good hlast (hE s2 hat2.inside)
      · rw [if_neg h3]
        by_cases h4 : u.Val = "-"
        · rw [if_pos h4]
          exact tNegate_good (hF s2 hat2.inside)
        · rw [if_neg h4]
          by_cases h5 : u.Typ = scanner.Ident
          · rw [if_pos h5]
            simp only [ht3]
            exact hat3.inside
          · rw [if_neg h5]
            simp only [hc4, ht5]
            exact hat5.log_legal

theorem tStmtBody_good {toks : List Token}
    (hlast : ∀ p u, p ++ [u] = toks → u.Typ = scanner.EOF)
    {recE : Traced → TOutcome} (hE : ∀ s, Inside toks s → TGood toks (recE s))
    {s : Traced} (h : Inside toks s) : TGood toks (tStmtBody recE s) := by
  obtain ⟨u, s1, pre, post, m, hs, hat, -⟩ := Inside.scan hlast h
  obtain ⟨s2, ht, hat2⟩ := hat.read_text
  obtain ⟨sc, hcc, hatc⟩ := hat.read_column
  obtain ⟨sd, htd, hatd⟩ := hatc.read_text
  obtain ⟨v, s3, pre3, post3, m3, hs3, hat3, -⟩ := Inside.scan hlast hat2.inside
  obtain ⟨s4, ht4, hat4⟩ := hat3.read_text
  obtain ⟨s5, hc5, hat5⟩ := hat4.read_column
  obtain ⟨s6, ht6, hat6⟩ := hat5.read_text
  simp only [tStmtBody, hs]
  by_cases h1 : u.Typ = scanner.EOF
  · rw [if_pos h1]
    exact hat.log_legal
  · rw [if_neg h1]
    by_cases h2 : u.Typ = scanner.Ident
    · rw [if_pos h2]
      simp only [ht, hs3]
      by_cases h3 : v.Typ = scanner.EOF
      · rw [if_pos h3]
        exact hat3.log_legal
      · rw [if_neg h3]
        simp only [ht4]
        by_cases h4 : v.Val = "="
        · rw [if_pos h4]
          exact tFinishStmt_good hlast u.Val (hE s4 hat4.inside)
        · rw [if_neg h4]
          simp only [hc5, ht6]
          exact hat6.log_legal
    · rw [if_neg h2]
      simp only [hcc, htd]
      exact hatd.log_legal

theorem good_rules {toks : List Token}
    (hlast : ∀ p u, p ++ [u] = toks → u.Typ = scanner.EOF) (n : Nat) :
    (∀ s, Inside toks s → TGood toks (tparseFactor n s))
      ∧ (∀ s, Inside toks s → TGood toks (tparseTerm n s))
      ∧ (∀ s, Inside toks s → TGood toks (tparseExpr n s)) := by
  induction n with
  | zero =>
    refine ⟨fun s _ => ?_, fun s _ => ?_, fun s _ => ?_⟩
    · simp only [tparseFactor]; trivial
    · simp only [tparseTerm]; trivial
    · simp only [tparseExpr]; trivial
  | succ n ih =>
    obtain ⟨ihF, ihT, ihE⟩ := ih
    refine ⟨fun s hs => ?_, fun s hs => ?_, fun s hs => ?_⟩
    · simp only [tparseFactor]
      exact tFactorBody_good hlast ihE ihF hs
    · simp only [tparseTerm]
      exact tOperatorTail_good hlast _ _ _ _ ihT (ihF s hs)
    · simp only [tparseExpr]
      exact tOperatorTail_good hlast _ _ _ _ ihE (ihT s hs)

theorem tparseStmt_good {toks : List Token}
    (hlast : ∀ p u, p ++ [u] = toks → u.Typ = scanner.EOF) (n : Nat) {s : Traced}
    (h : Inside toks s) : TGood toks (tparseStmt n s) :=
  tStmtBody_good hlast (good_rules hlast n).2.2 h

theorem checkStep_none (len : Nat) (log : List Event) :
    log.foldl (checkStep len) none = none := by
  induction log with
  | nil => rfl
  | cons ev l ih => simpa only [List.foldl_cons, checkStep] using ih

theorem inRange_of_fold (len : Nat) (log : List Event) (st : Option Bool)
    (h : (log.foldl (checkStep len) st).isSome = true) : ∀ ev ∈ log, ev.inRange len := by
  induction log generalizing st with
  | nil => intro ev hev; cases hev
  | cons e l ih =>
    rw [List.foldl_cons] at h
    have hne : checkStep len st e ≠ none := by
      intro hn
      rw [hn, checkStep_none] at h
      cases h
    intro ev hev
    rcases List.mem_cons.mp hev with rfl | hl
    · cases st with
      | none => exact absurd rfl hne
      | some a =>
        cases ev with
        | scan b c =>
          simp only [checkStep] at hne
          by_cases hc : 0 ≤ c ∧ c < len
          · exact hc
          · rw [if_neg hc] at hne; exact absurd rfl hne
        | back b =>
          simp only [checkStep] at hne
          by_cases hc : a = true ∧ 1 ≤ b
          · exact hc.2
          · rw [if_neg hc] at hne; exact absurd rfl hne
        | access i =>
          simp only [checkStep] at hne
          by_cases hc : 0 ≤ i ∧ i < len
          · exact hc
          · rw [if_neg hc] at hne; exact absurd rfl hne
    · exact ih _ h ev hl

theorem legal_inRange {len : Nat} {log : List Event} (h : legal len log = true) :
    ∀ ev ∈ log, ev.inRange len :=
  inRange_of_fold len log (some false) h

theorem last_kind_of_snoc {mid : List Token} {eof : Token} (heof : eof.Typ = scanner.EOF) :
    ∀ p u, p ++ [u] = mid ++ [eof] → u.Typ = scanner.EOF := by
  intro p u h
  have h2 := (List.append_inj' h rfl).2
  rw [List.cons.injEq] at h2
  rw [h2.1]
  exact heof

theorem inside_start {toks : List Token} (h : toks ≠ []) :
    Inside toks ⟨⟨toks, 0⟩, []⟩ := by
  cases toks with
  | nil => exact absurd rfl h
  | cons sentinel rest =>
    exact ⟨[sentinel], rest, start_eq_mk sentinel rest, by simp, rfl, rfl⟩

/-- The check of a log is not vacuous: it rejects a `Back` at the start of a run, a
second `Back` without a `Scan` in between, a `Back` after a `Scan` that was clamped at
the last token, and an access outside the token list. -/
theorem legal_rejects :
    legal 3 [.back 0] = false
      ∧ legal 3 [.scan 0 1, .access 1, .back 1] = true
      ∧ legal 3 [.scan 0 1, .scan 1 2, .back 2, .back 1] = false
      ∧ legal 3 [.scan 0 1, .scan 1 2, .scan 2 2, .back 2] = false
      ∧ legal 3 [.scan 0 1, .access 3] = false
      ∧ legal 3 [.scan 2 3] = false := by
  refine ⟨?_, ?_, ?_, ?_, ?_, ?_⟩ <;> decide

/-- The logged run of `parseStmt` on the tokens of `A=5+2`: the `Back` of `parseTerm`
comes after it has scanned `+` and looked at its text. -/
theorem tparseStmt_log_example :
    (match tparseStmt 12 ⟨⟨[⟨0, "", 0⟩, ⟨2, "A", scanner.Ident⟩, ⟨3, "=", 61⟩,
        ⟨4, "5", scanner.Int⟩, ⟨5, "+", 43⟩, ⟨6, "2", scanner.Int⟩,
        ⟨6, "", scanner.EOF⟩], 0⟩, []⟩ with
      | .ok _ s => s.log
      | _ => [])
      = [.scan 0 1, .access 1, .scan 1 2, .access 2, .scan 2 3, .access 3, .scan 3 4,
          .access 4, .back 4, .scan 3 4, .access 4, .access 4, .scan 4 5, .access 5,
          .scan 5 6, .scan 6 6, .scan 6 6] := by
  rfl

/-- C14: the cursor stays in range and every `Back` is legal.  For every token list that
ends in an `EOF` token with empty text (`mid ++ [eof]`; two tokens or more when `mid` is
not empty), the logged run of `parseStmt` started at cursor 0 is the run of `parseStmt`
with the log added, it returns a tree or an error, and the log of the whole run is
legal: every `Back` comes directly after a `Scan` that moved the cursor forward by one,
with only calls of `TokenText` in between (so never at cursor 0, never twice without a
`Scan` in between, never after a clamped `Scan`), and every `Scan`, `TokenText` and
`Column` reads at a cursor in `[0, len(tokens)-1]`. -/
theorem cursor_in_range (mid : List Token) (eof : Token) (heof : eof.Typ = scanner.EOF)
    (htext : eof.Val = "") (n : Nat) (hn : 3 * (mid.length + 1) ≤ n) :
    (tparseStmt n ⟨⟨mid ++ [eof], 0⟩, []⟩).erase = parseStmt n ⟨mid ++ [eof], 0⟩
      ∧ ∃ s, ((∃ e, tparseStmt n ⟨⟨mid ++ [eof], 0⟩, []⟩ = .ok e s)
            ∨ (∃ err, tparseStmt n ⟨⟨mid ++ [eof], 0⟩, []⟩ = .error err s))
          ∧ legal (mid ++ [eof]).length s.log = true
          ∧ ∀ ev ∈ s.log, ev.inRange (mid ++ [eof]).length := by
  have her := tparseStmt_erase n ⟨⟨mid ++ [eof], 0⟩, []⟩
  refine ⟨her, ?_⟩
  have hgood := tparseStmt_good (last_kind_of_snoc heof) n
    (@inside_start (mid ++ [eof]) (by simp))
  have hterm := parseStmt_terminates mid eof heof htext n hn
  cases hr : tparseStmt n ⟨⟨mid ++ [eof], 0⟩, []⟩ with
  | ok e s =>
    rw [hr] at hgood
    obtain ⟨-, -, -, -, -, hl⟩ := hgood
    exact ⟨s, .inl ⟨e, rfl⟩, hl, legal_inRange hl⟩
  | error err s =>
    rw [hr] at hgood
    exact ⟨s, .inr ⟨err, rfl⟩, hgood, legal_inRange hgood⟩
  | panic => rw [hr] at hgood; exact absurd hgood id
  | timeout =>
    rw [hr] at her
    simp only [TOutcome.erase] at her
    rcases hterm with ⟨e, s', h⟩ | ⟨err, s', h⟩
    · rw [h] at her; cases her
    · rw [h] at her; cases her

/-- Witness of C14 on the tokens of `A=(5+2`, where the run ends in an error after a
`Back` and a clamped `Scan`. -/
theorem cursor_in_range_witness :
    (tparseStmt 24 ⟨⟨[⟨0, "", 0⟩, ⟨2, "A", scanner.Ident⟩, ⟨3, "=", 61⟩, ⟨4, "(", 40⟩,
        ⟨5, "5", scanner.Int⟩, ⟨6, "+", 43⟩, ⟨7, "2", scanner.Int⟩] ++ [⟨7, "", scanner.EOF⟩],
        0⟩, []⟩).erase
      = parseStmt 24 ⟨[⟨0, "", 0⟩, ⟨2, "A", scanner.Ident⟩, ⟨3, "=", 61⟩, ⟨4, "(", 40⟩,
        ⟨5, "5", scanner.Int⟩, ⟨6, "+", 43⟩, ⟨7, "2", scanner.Int⟩] ++ [⟨7, "", scanner.EOF⟩],
        0⟩
      ∧ ∃ s, ((∃ e, tparseStmt 24 ⟨⟨[⟨0, "", 0⟩, ⟨2, "A", scanner.Ident⟩, ⟨3, "=", 61⟩,
          ⟨4, "(", 40⟩, ⟨5, "5", scanner.Int⟩, ⟨6, "+", 43⟩, ⟨7, "2", scanner.Int⟩]
          ++ [⟨7, "", scanner.EOF⟩], 0⟩, []⟩ = .ok e s)
            ∨ (∃ err, tparseStmt 24 ⟨⟨[⟨0, "", 0⟩, ⟨2, "A", scanner.Ident⟩, ⟨3, "=", 61⟩,
          ⟨4, "(", 40⟩, ⟨5, "5", scanner.Int⟩, ⟨6, "+", 43⟩, ⟨7, "2", scanner.Int⟩]
          ++ [⟨7, "", scanner.EOF⟩], 0⟩, []⟩ = .error err s))
          ∧ legal (([⟨0, "", 0⟩, ⟨2, "A", scanner.Ident⟩, ⟨3, "=", 61⟩,
          ⟨4, "(", 40⟩, ⟨5, "5", scanner.Int⟩, ⟨6, "+", 43⟩, ⟨7, "2", scanner.Int⟩]
          ++ [⟨7, "", scanner.EOF⟩] : List Token)).length s.log = true
          ∧ ∀ ev ∈ s.log, ev.inRange (([⟨0, "", 0⟩, ⟨2, "A", scanner.Ident⟩, ⟨3, "=", 61⟩,
          ⟨4, "(", 40⟩, ⟨5, "5", scanner.Int⟩, ⟨6, "+", 43⟩, ⟨7, "2", scanner.Int⟩]
          ++ [⟨7, "", scanner.EOF⟩] : List Token)).length :=
  cursor_in_range [⟨0, "", 0⟩, ⟨2, "A", scanner.Ident⟩, ⟨3, "=", 61⟩, ⟨4, "(", 40⟩,
    ⟨5, "5", scanner.Int⟩, ⟨6, "+", 43⟩, ⟨7, "2", scanner.Int⟩] ⟨7, "", scanner.EOF⟩
    rfl rfl 24 (by decide)

end GoInterp
